import Mathlib

/-!
Computational-geometry primitives of `src/code/geometry.cpp` and the big integers of
`src/solved/f-h/fibonacci-freeze/fibonacci.cpp`

A shallow embedding of the geometry library (namespace `Geometry`) and of the struct `Bigint`
with the Fibonacci table built from it (namespace `Fibonacci`).

* The scalar type `GeomT` / the template parameter `T` is an arbitrary linearly ordered
  commutative ring (a field where the code divides): this is the "exact arithmetic" reading
  of the source. Concrete evaluations use `ℤ` and `ℚ`.
* The program itself computes in `double`. Where a claim is not restricted to exact
  arithmetic the rounding matters: `roundDouble` is the rounding of one `double` operation
  (to nearest, ties to even, 53 significant bits) on integer values, and `crossD`,
  `convex_hullD` are `Point::cross` and `convex_hull` with every operation of the cross product
  rounded. The exact scalars have no infinity and no NaN.
* A division is modelled by `divChecked`, which fails (`none`) on a zero divisor, so that
  "no division by zero" is a statement about the result being `some _`.
* Output parameters (`Point &p`, `int &k`) become part of the returned value.
* The constants `EPS` and `pi_t2`, the library function `sqrt` and the helpers `eps_equal`,
  `eps_less` and `gcd` are not defined in the source file; the constants and `sqrt` are
  parameters and the helpers are modelled from the spec.
* The recursion between `operator+=` and `operator-=` of `Bigint` is a pair of total functions;
  its termination rests on the asymmetry of `operator<`.
-/

namespace Geometry

/-! ## Data types -/

/-- The C++ struct Point, two coordinates of the scalar type. -/
structure Point (T : Type) where
  x : T
  y : T
deriving DecidableEq

/-- The C++ struct _Line, the coefficients of `a*x + b*y + c = 0`. -/
structure Line (T : Type) where
  a : T
  b : T
  c : T
deriving DecidableEq

/-- The C++ struct _Segment, a pair of end points. -/
structure Segment (T : Type) where
  a : Point T
  b : Point T
deriving DecidableEq

/-- The C++ struct Circle, centre and radius. -/
structure Circle (T : Type) where
  x : T
  y : T
  r : T
deriving DecidableEq

/-! ## Points: order and cross product (ring operations only) -/

namespace Point

variable {T : Type} [LinearOrderedCommRing T]

/-- Source `Point::operator<`: `x < p.x || (x == p.x && y < p.y)`. -/
def lt (a p : Point T) : Prop := a.x < p.x ∨ (a.x = p.x ∧ a.y < p.y)

instance : DecidableRel (lt : Point T → Point T → Prop) :=
  fun a p => inferInstanceAs (Decidable (a.x < p.x ∨ (a.x = p.x ∧ a.y < p.y)))

/-- The order `std::sort` establishes from `operator<`: `a` may precede `p` when `p < a` fails. -/
def le (a p : Point T) : Prop := ¬ lt p a

instance : DecidableRel (le : Point T → Point T → Prop) :=
  fun a p => inferInstanceAs (Decidable (¬ lt p a))

/-- Source `Point::cross`: `(a.x-x)*(b.y-y) - (a.y-y)*(b.x-x)`, relative to `o = *this`, in
exact arithmetic. The value the program computes in `double` arithmetic, every operation
rounded, is `crossD`. -/
def cross (o a b : Point T) : T := (a.x - o.x) * (b.y - o.y) - (a.y - o.y) * (b.x - o.x)

/-- Source `Point::collinear`: `(b.y - y) * (c.x - x) == (c.y - y) * (b.x - x)`. -/
def collinear (o b c : Point T) : Prop := (b.y - o.y) * (c.x - o.x) = (c.y - o.y) * (b.x - o.x)

instance (o b c : Point T) : Decidable (collinear o b c) :=
  inferInstanceAs (Decidable ((b.y - o.y) * (c.x - o.x) = (c.y - o.y) * (b.x - o.x)))

/-- Source `Point::in_box`: inside the axis-parallel bounding box of `a` and `b`, borders
included. -/
def in_box (p a b : Point T) : Bool :=
  let lox := min a.x b.x
  let hix := max a.x b.x
  let loy := min a.y b.y
  let hiy := max a.y b.y
  decide (p.x ≥ lox) && decide (p.x ≤ hix) && decide (p.y ≥ loy) && decide (p.y ≤ hiy)

end Point

/-! ## The convex hull (`convex_hull`, monotone chain) -/

section Hull

variable {T : Type} [LinearOrderedCommRing T]

open Point

/-- The result of `sort(p, p + n)`. Two points that `operator<` does not separate are equal, so
the sorted arrangement is unique and insertion sort computes it (`sort_unique`). -/
def sortPoints (p : List (Point T)) : List (Point T) := p.insertionSort le

/-- The inner loop `while (k >= t && h[k-2].cross(h[k-1], q) <= 0) k--` on the live part
`h[0..k-1]` of the output buffer, kept as a stack with `h[k-1]` first (so `k` is the length).
The source only enters the loop with `k >= 2` (see `convex_hull_mem`), where both reads are
inside the live part. -/
def popWhile (t : Nat) (q : Point T) : List (Point T) → List (Point T)
  | b :: a :: rest =>
    if t ≤ rest.length + 2 ∧ cross a b q ≤ 0 then popWhile t q (a :: rest) else b :: a :: rest
  | s => s

/-- One iteration of either `for` loop: the `while` loop followed by `h[k++] = q`. -/
def hullStep (t : Nat) (s : List (Point T)) (q : Point T) : List (Point T) :=
  q :: popWhile t q s

/-- Source `convex_hull(p, n, h, k)`: the emitted points `h[0], ..., h[k-1]` in order.
The first loop runs over `p[0..n-1]` with bound 2, the second over `p[n-2], ..., p[0]` with
bound `t = k + 1` taken from the count after the first loop. -/
def convex_hull (p : List (Point T)) : List (Point T) :=
  let sp := sortPoints p
  let s1 := sp.foldl (hullStep 2) []
  let s2 := sp.reverse.tail.foldl (hullStep (s1.length + 1)) s1
  s2.reverse

/-! ### The same function on the raw buffer, with every access checked -/

/-- The `while` loop on the buffer `h` with the counter `k` as the recursion argument.
`none` records an access outside `h` (a negative index `k-2` included). -/
def popLoop (t : Nat) (q : Point T) (h : List (Point T)) : Nat → Option Nat
  | 0 => if t ≤ 0 then none else some 0
  | k + 1 =>
    if t ≤ k + 1 then
      if k + 1 < 2 then none
      else
        match h[k - 1]?, h[k]? with
        | some a, some b => if cross a b q ≤ 0 then popLoop t q h k else some (k + 1)
        | _, _ => none
    else some (k + 1)

/-- The loop body on the buffer: the `while` loop, then the write `h[k++] = p[i]`, which fails
when `i` is outside `p` or `k` is outside `h`. -/
def hullBody (t : Nat) (p : List (Point T)) (st : List (Point T) × Nat) (i : Nat) :
    Option (List (Point T) × Nat) :=
  match p[i]? with
  | none => none
  | some q =>
    match popLoop t q st.1 st.2 with
    | none => none
    | some k => if k < st.1.length then some (st.1.set k q, k + 1) else none

/-- Source `convex_hull` on a caller-supplied buffer `h`: the final buffer and `k`, or `none`
when some access was out of range. The indices run `0, ..., n-1` and `n-2, ..., 0`. -/
def convex_hull_mem (p h : List (Point T)) : Option (List (Point T) × Nat) :=
  let sp := sortPoints p
  let n := p.length
  match (List.range n).foldlM (hullBody 2 sp) (h, 0) with
  | none => none
  | some st1 => ((List.range (n - 1)).reverse).foldlM (hullBody (st1.2 + 1) sp) st1

end Hull

/-! ## Lines, segments, circles (field operations) -/

section Field

variable {T : Type} [LinearOrderedField T]

/-- A division `x / y` of the source; `none` when the divisor is zero. -/
def divChecked (x y : T) : Option T := if y = 0 then none else some (x / y)

namespace Line

/-- Source `_Line(const Point &p1, const Point &p2)`. -/
def ofPoints (p1 p2 : Point T) : Line T :=
  if p1.x = p2.x then ⟨1, 0, -p1.x⟩
  else
    let a := p1.y - p2.y
    let b := p2.x - p1.x
    ⟨a, b, -a * p1.x - b * p1.y⟩

/-- Source `_Line(const Point &p, T m)`: the line through `p` with slope `m`. -/
def ofSlope (p : Point T) (m : T) : Line T := ⟨-m, 1, m * p.x - p.y⟩

/-- Source `is_parallel`: `a * l.b == b * l.a`. -/
def is_parallel (L l : Line T) : Bool := decide (L.a * l.b = L.b * l.a)

/-- Source `is_vertical`: `b == 0`. -/
def is_vertical (L : Line T) : Bool := decide (L.b = 0)

/-- Source `is_horizontal`: `a == 0`. -/
def is_horizontal (L : Line T) : Bool := decide (L.a = 0)

/-- The point `p` satisfies the equation of `L`. -/
def Contains (L : Line T) (p : Point T) : Prop := L.a * p.x + L.b * p.y + L.c = 0

/-- Source `intersection(l, p)`: the returned flag and the value of the output parameter `p`
afterwards; `none` when a divisor is zero. -/
def intersection (L l : Line T) (p : Point T) : Option (Bool × Point T) :=
  if L.is_parallel l then some (false, p)
  else
    let rl := if L.is_vertical then l else L
    match divChecked (l.b * L.c - L.b * l.c) (l.a * L.b - L.a * l.b) with
    | none => none
    | some px =>
      match divChecked (-(rl.a * px + rl.c)) rl.b with
      | none => none
      | some py => some (true, ⟨px, py⟩)

/-- Source `closest_to(p)`. The local `Point ans` starts as `(0, 0)` and the flag returned by
`intersection` is dropped; `none` when a divisor is zero. -/
def closest_to (L : Line T) (p : Point T) : Option (Point T) :=
  if L.is_vertical then some ⟨-L.c, p.y⟩
  else if L.is_horizontal then some ⟨p.x, -L.c⟩
  else
    match divChecked 1 L.a with
    | none => none
    | some m =>
      match L.intersection (ofSlope p m) ⟨0, 0⟩ with
      | none => none
      | some r => some r.2

end Line

namespace Segment

/-- Source `_Segment::intersection(s, p)`: flag and final value of `p`. -/
def intersection (s1 s : Segment T) (p : Point T) : Option (Bool × Point T) :=
  let l1 := Line.ofPoints s1.a s1.b
  let l2 := Line.ofPoints s.a s.b
  match l1.intersection l2 p with
  | none => none
  | some (false, p1) => some (false, p1)
  | some (true, p1) => some (p1.in_box s1.a s1.b && p1.in_box s.a s.b, p1)

/-- The closed segment from `a` to `b` as a set of points: `a + t * (b - a)` with
`0 ≤ t ≤ 1`. -/
def Mem (z a b : Point T) : Prop :=
  ∃ t : T, 0 ≤ t ∧ t ≤ 1 ∧ z.x = a.x + t * (b.x - a.x) ∧ z.y = a.y + t * (b.y - a.y)

end Segment

/-- Source `eqz`: `fabs(x) < EPS`. -/
def eqz (EPS x : T) : Bool := decide (|x| < EPS)

/-- Modelled from the spec: `eps_equal` is used by the source but defined outside it; two
scalars are eps-equal when their difference is effectively zero, `|u - v| < EPS`. -/
def eps_equal (EPS u v : T) : Bool := eqz EPS (u - v)

/-- Source `Point::distance`, with the library function `sqrt` as a parameter. -/
def Point.distance (sqrt : T → T) (o p : Point T) : T :=
  let dx := p.x - o.x
  let dy := p.y - o.y
  sqrt (dx * dx + dy * dy)

namespace Circle

/-- The choice of the middle point `m` and the two others `a`, `b` in the three-point
constructor, as the triple `(m, a, b)`. -/
def select (EPS : T) (p1 p2 p3 : Point T) : Point T × Point T × Point T :=
  if (!eps_equal EPS p1.x p2.x) && (!eps_equal EPS p1.x p3.x) then (p1, p2, p3)
  else if (!eps_equal EPS p2.x p1.x) && (!eps_equal EPS p2.x p3.x) then (p2, p1, p3)
  else (p3, p1, p2)

/-- Source `Circle(p1, p2, p3)`; `none` when a divisor is zero. -/
def ofPoints (sqrt : T → T) (EPS : T) (p1 p2 p3 : Point T) : Option (Circle T) :=
  let m := (select EPS p1 p2 p3).1
  let a := (select EPS p1 p2 p3).2.1
  let b := (select EPS p1 p2 p3).2.2
  match divChecked (m.y - a.y) (m.x - a.x) with
  | none => none
  | some ma =>
    match divChecked (b.y - m.y) (b.x - m.x) with
    | none => none
    | some mb =>
      match divChecked (ma * mb * (a.y - b.y) + mb * (a.x + m.x) - ma * (m.x + b.x))
          ((mb - ma) * 2) with
      | none => none
      | some x =>
        let yo :=
          if eps_equal EPS 0 ma then
            match divChecked (x - (m.x + b.x) / 2) mb with
            | none => none
            | some d => some ((m.y + b.y) / 2 - d)
          else
            match divChecked (x - (a.x + m.x) / 2) ma with
            | none => none
            | some d => some ((a.y + m.y) / 2 - d)
        match yo with
        | none => none
        | some y => some ⟨x, y, Point.distance sqrt p1 ⟨x, y⟩⟩

end Circle

end Field

/-! ## Scalar utilities, line equality, circle predicates -/

section Field2

variable {T : Type} [LinearOrderedField T]

/-- Source `sanitize`: `eqz(x) ? 0.0 : x`. -/
def sanitize (EPS x : T) : T := if eqz EPS x then 0 else x

/-- Source `cmp`: 0 when `a - b` is effectively zero, else the sign of `a - b`. The scalars
are finite and the difference is exact: the carrier has no infinity and no NaN, on which the
program returns 1 (`inf - inf` and every difference with a NaN are NaN, and both comparisons
with a NaN are false). -/
def cmp (EPS a b : T) : Int :=
  let s := a - b
  if eqz EPS s then 0 else if s < 0 then -1 else 1

/-- Source `circle_angle`: `(a = sanitize(a)) >= 0.0 ? a : a + pi_t2`, with the constant
`pi_t2` as a parameter. -/
def circle_angle (EPS pi_t2 a : T) : T :=
  let a1 := sanitize EPS a
  if a1 ≥ 0 then a1 else a1 + pi_t2

/-- Modelled from the spec: `eps_less` is used by the source but defined outside it; `u` is
less than `v` beyond the tolerance, that is `u < v` and the two are not eps-equal. -/
def eps_less (EPS u v : T) : Bool := decide (u < v) && !eps_equal EPS u v

/-- Source `_Line::operator==`: `is_parallel(l) && a * l.c == c * l.a`. -/
def Line.eq (L l : Line T) : Bool := L.is_parallel l && decide (L.a * l.c = L.c * l.a)

namespace Circle

/-- Source `perimeters_touch`, with the library function `sqrt` as a parameter. -/
def perimeters_touch (sqrt : T → T) (EPS : T) (c1 c : Circle T) : Bool :=
  let dx := c1.x - c.x
  let dy := c1.y - c.y
  let dist := sqrt (dx * dx + dy * dy)
  !(eps_less EPS (c1.r + c.r) dist || eps_less EPS dist |c1.r - c.r|)

/-- Source `tangentPoints(p, p1, p2)`: the two points written to `p1` and `p2`; `none` when
the divisor `h2` is zero. -/
def tangentPoints (sqrt : T → T) (c : Circle T) (p : Point T) : Option (Point T × Point T) :=
  let pox := c.x - p.x
  let poy := c.y - p.y
  let h2 := pox * pox + poy * poy
  let s := sqrt (h2 - c.r * c.r)
  match divChecked (s * (pox * s - poy * c.r)) h2, divChecked (s * (poy * s + pox * c.r)) h2,
      divChecked (s * (pox * s + poy * c.r)) h2, divChecked (s * (poy * s - pox * c.r)) h2 with
  | some x1, some y1, some x2, some y2 => some (⟨p.x + x1, p.y + y1⟩, ⟨p.x + x2, p.y + y2⟩)
  | _, _, _, _ => none

end Circle

end Field2

/-! ## Polygon area and lattice points -/

section Polygon

variable {T : Type} [LinearOrderedCommRing T]

/-- The loop `for (i = 0, j = n - 1; i < n; j = i++) a += (p[j].x + p[i].x) * (p[j].y - p[i].y)`
of `poly_area2`: the accumulator `a`, the point `p[j]` and the points `p[i], p[i+1], ...` still
to visit. -/
def areaLoop : T → Point T → List (Point T) → T
  | a, _, [] => a
  | a, pj, q :: rest => areaLoop (a + (pj.x + q.x) * (pj.y - q.y)) q rest

/-- Source `poly_area2(p, n)`. The first `p[j]` is `p[n-1]`; for `n = 0` the loop body does not
run. -/
def poly_area2 (p : List (Point T)) : T :=
  let a := match p.getLast? with
    | none => 0
    | some l => areaLoop 0 l p
  if a < 0 then a * -1 else a

/-- Modelled from the spec: `gcd` is used by the source but defined outside it; it is the
greatest common divisor of two non-negative integers. -/
def gcd (a b : ℤ) : ℤ := Int.gcd a b

/-- Source `lattice_pts(a, b)` on integer points, `llabs` being the absolute value. -/
def lattice_pts (a b : Point ℤ) : ℤ :=
  if a.x = b.x then |a.y - b.y| + 1
  else gcd |a.y - b.y| |a.x - b.x| + 1

end Polygon

/-! ## 3D data types -/

/-- The C++ struct Point3D (also used as Vector3D). -/
structure Point3D (T : Type) where
  x : T
  y : T
  z : T
deriving DecidableEq

/-- The C++ struct Ray3D: the origin `p0` and a second point `p1` giving the direction. -/
structure Ray3D (T : Type) where
  p0 : Point3D T
  p1 : Point3D T
deriving DecidableEq

/-- The C++ struct Triangle3D. -/
structure Triangle3D (T : Type) where
  v0 : Point3D T
  v1 : Point3D T
  v2 : Point3D T
deriving DecidableEq

section Space

variable {T : Type} [LinearOrderedField T]

namespace Point3D

/-- Source `Point3D::is_zero`: `eqz(x) && eqz(y) && eqz(z)`. -/
def is_zero (EPS : T) (p : Point3D T) : Bool := eqz EPS p.x && eqz EPS p.y && eqz EPS p.z

/-- Source `Point3D::cross`. -/
def cross (a p : Point3D T) : Point3D T :=
  ⟨a.y * p.z - a.z * p.y, -a.x * p.z + a.z * p.x, a.x * p.y - a.y * p.x⟩

/-- Source `Point3D::dot`. -/
def dot (a p : Point3D T) : T := a.x * p.x + a.y * p.y + a.z * p.z

/-- Source `Point3D::operator+`. -/
def add (a p : Point3D T) : Point3D T := ⟨a.x + p.x, a.y + p.y, a.z + p.z⟩

/-- Source `Point3D::operator-`. -/
def sub (a p : Point3D T) : Point3D T := ⟨a.x - p.x, a.y - p.y, a.z - p.z⟩

/-- Source `Point3D::operator*` (scaling by `s`). -/
def smul (a : Point3D T) (s : T) : Point3D T := ⟨a.x * s, a.y * s, a.z * s⟩

end Point3D

/-- Source `Triangle3D::intersect_ray(ray, it)`: the returned flag and the value of the output
parameter `it` afterwards; `none` when a divisor is zero. -/
def Triangle3D.intersect_ray (EPS : T) (tri : Triangle3D T) (ray : Ray3D T) (it : Point3D T) :
    Option (Bool × Point3D T) :=
  let u := tri.v1.sub tri.v0
  let v := tri.v2.sub tri.v0
  let n := u.cross v
  if n.is_zero EPS then some (false, it)
  else
    let dir := ray.p1.sub ray.p0
    let w0 := ray.p0.sub tri.v0
    let a := -(n.dot w0)
    let b := n.dot dir
    if eqz EPS b then some (false, it)
    else
      match divChecked a b with
      | none => none
      | some r =>
        if r < 0 then some (false, it)
        else
          let it1 := ray.p0.add (dir.smul r)
          let w := it1.sub tri.v0
          let uu := u.dot u
          let uv := u.dot v
          let vv := v.dot v
          let wu := w.dot u
          let wv := w.dot v
          let D := uv * uv - uu * vv
          match divChecked (uv * wv - vv * wu) D with
          | none => none
          | some s =>
            if s < 0 ∨ s > 1 then some (false, it1)
            else
              match divChecked (uv * wu - uu * wv) D with
              | none => none
              | some t =>
                if t < 0 ∨ s + t > 1 then some (false, it1) else some (true, it1)

end Space

end Geometry

/-! ## Big integers of `fibonacci.cpp` -/

namespace Fibonacci

/-- The C++ preprocessor constant BIBAS, the limb base. -/
def BIBAS : Int := 1000

/-- The C++ preprocessor constant MAXN. -/
def MAXN : Nat := 5000

/-- The C++ struct Bigint: the limbs `d`, least significant first, and the sign flag `sgn`
(true for a negative number). Limbs are unbounded integers here; the `int` of the source does
not overflow on limbs below the base. -/
structure Bigint where
  d : List Int
  sgn : Bool
deriving DecidableEq

namespace Bigint

/-- The loop `while (n != 0) { d.push_back(n % BIBAS); n /= BIBAS; }` of the constructor, on a
non-negative `n`. -/
def pushLimbs (n : Nat) : List Int :=
  if n = 0 then [] else ((n % 1000 : Nat) : Int) :: pushLimbs (n / 1000)
decreasing_by omega

/-- Source constructor `Bigint(int n)`. -/
def ofInt (n : Int) : Bigint :=
  let sgn := decide (n < 0)
  let m := if n < 0 then -n else n
  if m < BIBAS then ⟨[m], sgn⟩ else ⟨pushLimbs m.toNat, sgn⟩

/-- Source `len`. -/
def len (a : Bigint) : Nat := a.d.length

/-- Source `is_zero`: `len() == 1 && d[0] == 0`. -/
def is_zero (a : Bigint) : Bool := a.len == 1 && a.d.getD 0 0 == 0

/-- Source `neg`: a copy with the sign flipped. -/
def neg (a : Bigint) : Bigint := ⟨a.d, !a.sgn⟩

/-- The loop `for (int i = len() - 1; i >= 0; --i) if (d[i] != b.d[i]) return ...; return false`
of `operator<`, with `k` indices `k-1, ..., 0` left to visit. Both vectors have the same
length there, so every read is in bounds. -/
def ltLoop (sgn : Bool) (d1 d2 : List Int) : Nat → Bool
  | 0 => false
  | i + 1 =>
    if d1.getD i 0 ≠ d2.getD i 0 then xor sgn (decide (d1.getD i 0 < d2.getD i 0))
    else ltLoop sgn d1 d2 i

/-- Source `operator<`. -/
def lt (a b : Bigint) : Bool :=
  if a.sgn ≠ b.sgn then a.sgn
  else if a.len ≠ b.len then xor a.sgn (decide (a.len < b.len))
  else ltLoop a.sgn a.d b.d a.len

/-- The scan `for (i = d.end() - 1; *i == 0 && i != d.begin(); i--)` of `clean`, on the limbs
listed most significant first: zero limbs are dropped while another limb follows. -/
def stripZeros : List Int → List Int
  | 0 :: x :: rest => stripZeros (x :: rest)
  | l => l

/-- Source `clean`: erase the limbs after the scan position, then clear the sign of a zero. The
limb vector is non-empty wherever the source calls it. -/
def clean (a : Bigint) : Bigint :=
  let d := (stripZeros a.d.reverse).reverse
  ⟨d, if a.sgn && d.length == 1 && d.getD 0 0 == 0 then false else a.sgn⟩

/-- The loop of `operator+=` after `i` iterations: the limbs `res[0..i-1]` written so far and
the carry `c`. The quotient and remainder are taken of a `sum >= BIBAS`, where the C++ and the
Lean operators agree. -/
def addLoop (d1 d2 : List Int) : Nat → List Int × Int
  | 0 => ([], 0)
  | i + 1 =>
    let st := addLoop d1 d2 i
    let sum := st.2 + (if i < d1.length then d1.getD i 0 else 0)
      + (if i < d2.length then d2.getD i 0 else 0)
    if sum ≥ BIBAS then (st.1 ++ [sum % BIBAS], sum / BIBAS) else (st.1 ++ [sum], 0)

/-- The loop of `operator-=` after `i` iterations (`i <= s1`, so `d[i]` is read in bounds): the
limbs `res[0..i-1]` written so far and the borrow `c`. -/
def subLoop (d1 d2 : List Int) : Nat → List Int × Int
  | 0 => ([], 0)
  | i + 1 =>
    let st := subLoop d1 d2 i
    let sum := d1.getD i 0 - (if i < d2.length then d2.getD i 0 else 0) - st.2
    if sum < 0 then (st.1 ++ [sum + BIBAS], 1) else (st.1 ++ [sum], 0)

mutual

/-- Source `operator+=`: the value of `*this` afterwards. -/
def add (a b : Bigint) : Bigint :=
  if a.sgn ≠ b.sgn then sub a b.neg
  else clean ⟨(addLoop a.d b.d (max a.len b.len + 1)).1, a.sgn⟩
termination_by if a.sgn ≠ b.sgn then 2 else 0
decreasing_by
  rename_i h
  simp only [h, ne_eq, not_false_eq_true, if_true]
  split_ifs <;> omega

/-- Source `operator-=`: the value of `*this` afterwards. -/
def sub (a b : Bigint) : Bigint :=
  if a.sgn ≠ b.sgn then add a b.neg
  else if lt a b then (sub b a).neg
  else clean ⟨(subLoop a.d b.d a.len).1, a.sgn⟩
termination_by if a.sgn ≠ b.sgn then 1 else if lt a b then 1 else 0
decreasing_by
  · rename_i h
    have h2 : ¬ (a.sgn ≠ (neg b).sgn) := by
      simp only [neg]
      cases ha : a.sgn <;> cases hb : b.sgn <;> simp_all
    simp only [h, h2, ne_eq, not_false_eq_true, if_true, if_false]
    omega
  · rename_i h hlt
    have hs : a.sgn = b.sgn := by
      by_contra hc
      exact h hc
    have loop : ∀ k, ltLoop a.sgn a.d b.d k = true → ltLoop a.sgn b.d a.d k = false := by
      intro k
      induction k with
      | zero => intro _; simp [ltLoop]
      | succ i ih =>
        intro hk
        simp only [ltLoop] at hk ⊢
        by_cases e : a.d.getD i 0 = b.d.getD i 0
        · simp only [e, ne_eq, not_true_eq_false, if_false] at hk
          simp only [e, ne_eq, not_true_eq_false, if_false]
          exact ih hk
        · have e2 : ¬ b.d.getD i 0 = a.d.getD i 0 := fun q => e q.symm
          simp only [e, ne_eq, not_false_eq_true, if_true] at hk
          simp only [e2, ne_eq, not_false_eq_true, if_true]
          have h3 : a.d.getD i 0 < b.d.getD i 0 ∨ b.d.getD i 0 < a.d.getD i 0 :=
            lt_or_gt_of_ne e
          rcases h3 with h3 | h3
          · have h4 : ¬ b.d.getD i 0 < a.d.getD i 0 := not_lt.mpr h3.le
            simp only [h3, h4, decide_True, decide_False] at hk ⊢
            revert hk
            cases a.sgn <;> simp
          · have h4 : ¬ a.d.getD i 0 < b.d.getD i 0 := not_lt.mpr h3.le
            simp only [h3, h4, decide_True, decide_False] at hk ⊢
            revert hk
            cases a.sgn <;> simp
    have hba : lt b a = false := by
      simp only [lt, ← hs, ne_eq, not_true_eq_false, if_false] at hlt ⊢
      by_cases hl : a.len = b.len
      · simp only [hl, ne_eq, not_true_eq_false, if_false] at hlt ⊢
        rw [← hl] at hlt ⊢
        exact loop _ hlt
      · have hl2 : ¬ b.len = a.len := fun q => hl q.symm
        simp only [hl, hl2, ne_eq, not_false_eq_true, if_true] at hlt ⊢
        have h3 : a.len < b.len ∨ b.len < a.len := lt_or_gt_of_ne hl
        rcases h3 with h3 | h3
        · have h4 : ¬ b.len < a.len := not_lt.mpr h3.le
          simp only [h3, h4, decide_True, decide_False] at hlt ⊢
          revert hlt
          cases a.sgn <;> simp
        · have h4 : ¬ a.len < b.len := not_lt.mpr h3.le
          simp only [h3, h4, decide_True, decide_False] at hlt ⊢
          revert hlt
          cases a.sgn <;> simp
    have hs2 : ¬ (b.sgn ≠ a.sgn) := fun q => q hs.symm
    simp only [h, hs2, hlt, hba, ne_eq, not_false_eq_true, if_true, if_false]
    decide

end

/-- The value `sum d[i] * 1000^i` of a limb vector. -/
def value : List Int → Int
  | [] => 0
  | x :: rest => x + BIBAS * value rest

/-- The signed value of a Bigint. -/
def toInt (a : Bigint) : Int := if a.sgn then -(value a.d) else value a.d

/-- The normal form of a limb vector: non-empty, every limb in `[0, 999]`, and no most
significant zero limb except in the single-limb zero. -/
def NormalLimbs (d : List Int) : Prop :=
  d ≠ [] ∧ (∀ x ∈ d, 0 ≤ x ∧ x < BIBAS) ∧ (1 < d.length → d.getLast? ≠ some 0)

instance (d : List Int) : Decidable (NormalLimbs d) := by
  unfold NormalLimbs
  infer_instance

/-- A normalised Bigint: limbs in normal form, and zero is not negative. -/
def Normal (a : Bigint) : Prop := NormalLimbs a.d ∧ (a.d = [0] → a.sgn = false)

instance (a : Bigint) : Decidable (Normal a) := by
  unfold Normal
  infer_instance

end Bigint

/-- The table `fib[0..k+1]` of `prepare` once the loop has written the entry `k + 1`
(`fib[0] = 0` and `fib[1] = 1` before the loop; each pass copies `fib[i-2]` and adds
`fib[i-1]`). -/
def prepareLoop : Nat → List Bigint
  | 0 => [Bigint.ofInt 0, Bigint.ofInt 1]
  | k + 1 =>
    let fib := prepareLoop k
    fib ++ [Bigint.add (fib.getD k (Bigint.ofInt 0)) (fib.getD (k + 1) (Bigint.ofInt 0))]

/-- Source `prepare`: the table `fib[0..MAXN]`. -/
def prepare : List Bigint := prepareLoop (MAXN - 1)

end Fibonacci

namespace Geometry


/-! ## The convex hull in `double` arithmetic -/

section HullDouble

open Point

/-- The number of low bits a `double` cannot hold of the natural number `m`: the least `s`
with `m / 2^s < 2^53`, found by halving (`fuel` bounds the number of halvings). -/
def dropBits : Nat → Nat → Nat
  | 0, _ => 0
  | fuel + 1, m => if m < 2 ^ 53 then 0 else dropBits fuel (m / 2) + 1

/-- The value a `double` operation stores for the exact integer result `n`: `n` rounded to
53 significant bits, to nearest, ties to even (IEEE 754 binary64, default rounding mode).
Faithful below the overflow threshold `2^1024`. -/
def roundDouble (n : ℤ) : ℤ :=
  let m := n.natAbs
  let s := dropBits m m
  let q := m / 2 ^ s
  let r := m % 2 ^ s
  let q1 := if 2 ^ s < 2 * r ∨ (2 * r = 2 ^ s ∧ q % 2 = 1) then q + 1 else q
  if n < 0 then -((q1 * 2 ^ s : ℕ) : ℤ) else ((q1 * 2 ^ s : ℕ) : ℤ)

/-- Source `Point::cross` as the program computes it on integer-valued `double` coordinates:
`(a.x-x)*(b.y-y) - (a.y-y)*(b.x-x)` with each of the seven operations rounded. -/
def Point.crossD (o a b : Point ℤ) : ℤ :=
  roundDouble (roundDouble (roundDouble (a.x - o.x) * roundDouble (b.y - o.y))
    - roundDouble (roundDouble (a.y - o.y) * roundDouble (b.x - o.x)))

/-- The inner `while` loop of `convex_hull` with the rounded cross product. -/
def popWhileD (t : Nat) (q : Point ℤ) : List (Point ℤ) → List (Point ℤ)
  | b :: a :: rest =>
    if t ≤ rest.length + 2 ∧ crossD a b q ≤ 0 then popWhileD t q (a :: rest) else b :: a :: rest
  | s => s

/-- One iteration of either `for` loop with the rounded cross product. -/
def hullStepD (t : Nat) (s : List (Point ℤ)) (q : Point ℤ) : List (Point ℤ) :=
  q :: popWhileD t q s

/-- Source `convex_hull(p, n, h, k)` as the program runs it on integer-valued `double`
coordinates: the comparisons of `sort` are exact, the cross products are rounded. -/
def convex_hullD (p : List (Point ℤ)) : List (Point ℤ) :=
  let sp := sortPoints p
  let s1 := sp.foldl (hullStepD 2) []
  let s2 := sp.reverse.tail.foldl (hullStepD (s1.length + 1)) s1
  s2.reverse

/-- Five integer points below `2^30` on which rounding decides the result. -/
def sliverPts : List (Point ℤ) :=
  [⟨164323509, 161931496⟩, ⟨775931929, 727945517⟩, ⟨124955019, 125497862⟩,
    ⟨626052302, 589239169⟩, ⟨365661538, 348260107⟩]

end HullDouble

/-! ## Auxiliary notions for the correctness proofs -/

section Aux

variable {T : Type} [LinearOrderedCommRing T]

open Point

/-- The order of the sweep: ascending (`true`, first loop) or descending (`false`, second
loop). -/
def Point.dle (σ : Bool) (a b : Point T) : Prop := if σ then le a b else le b a

/-- The stack (top first) after running the loop with bound 2 over the list `l`, starting
from the empty stack: the first loop of `convex_hull` on `l`. -/
def chain (l : List (Point T)) : List (Point T) := l.foldl (hullStep 2) []

/-- Every three consecutive stack entries `c, b, a` (top first) make a strict left turn
`a → b → c`. -/
def Turns : List (Point T) → Prop
  | c :: b :: a :: rest => 0 < cross a b c ∧ Turns (b :: a :: rest)
  | _ => True

/-- The point `r` is on or to the left of every edge `a → b` of the stack (top first). -/
def LeftOf (r : Point T) : List (Point T) → Prop
  | b :: a :: rest => 0 ≤ cross a b r ∧ LeftOf r (a :: rest)
  | _ => True

/-- The invariant of a `for` loop of `convex_hull` with bound 2: `P` is the list of points
processed so far and `s` the stack (top first). Its reverse is a sublist of `P`, it turns
strictly left, every processed point is on or left of its edges, and it runs from the last
processed point down to the first. -/
structure ChainInv (P s : List (Point T)) : Prop where
  sub : s.reverse.Sublist P
  turns : Turns s
  left : ∀ r ∈ P, LeftOf r s
  top : s.head? = P.getLast?
  bot : s.getLast? = P.head?

/-- The input contains three points that are not collinear. -/
def NonCollinear (S : List (Point T)) : Prop :=
  ∃ a ∈ S, ∃ b ∈ S, ∃ c ∈ S, cross a b c ≠ 0

/-- What characterises the stack (top first) left by a sweep over the sorted list `S` whose
first point is `a`: it consists of points of `S`, descends without repetition, turns strictly
left, has all of `S` on or left of its edges, and ends in `a`. -/
structure StackOf (σ : Bool) (S : List (Point T)) (a : Point T) (s : List (Point T)) :
    Prop where
  mem : ∀ x ∈ s, x ∈ S
  sorted : s.Pairwise (fun u v => dle σ v u)
  nodup : s.Nodup
  turns : Turns s
  left : ∀ r ∈ S, LeftOf r s
  bot : s.getLast? = some a

/-- The example input of the spec: the corners of a square and its centre. -/
def squarePts : List (Point ℤ) := [⟨0, 0⟩, ⟨4, 0⟩, ⟨4, 4⟩, ⟨0, 4⟩, ⟨2, 2⟩]

/-- A collinear input with a repeated point. -/
def diagonalPts : List (Point ℤ) := [⟨1, 1⟩, ⟨0, 0⟩, ⟨1, 1⟩, ⟨2, 2⟩]

end Aux

/-! ## Reference notions for polygon area and lattice points -/

section Aux2

/-- The standard shoelace sum `sum over i of (p[i].x * p[i+1].y - p[i+1].x * p[i].y)` with the
indices taken cyclically. -/
def shoelace {T : Type} [LinearOrderedCommRing T] (p : List (Point T)) : T :=
  ∑ i in Finset.range p.length,
    ((p.getD i ⟨0, 0⟩).x * (p.getD ((i + 1) % p.length) ⟨0, 0⟩).y
      - (p.getD ((i + 1) % p.length) ⟨0, 0⟩).x * (p.getD i ⟨0, 0⟩).y)

/-- The sum of the shoelace terms along the open path `q, l[0], l[1], ...`. -/
def pathSum {T : Type} [LinearOrderedCommRing T] : Point T → List (Point T) → T
  | _, [] => 0
  | q, r :: rest => (q.x * r.y - r.x * q.y) + pathSum r rest

/-- The integer grid points on the closed segment from `a` to `b`: the points of the bounding
box of `a` and `b` that are collinear with them. -/
def segmentPts (a b : Point ℤ) : Finset (Point ℤ) :=
  ((Finset.Icc (min a.x b.x) (max a.x b.x) ×ˢ Finset.Icc (min a.y b.y) (max a.y b.y)).filter
    (fun q => Point.cross a b ⟨q.1, q.2⟩ = 0)).image (fun q => ⟨q.1, q.2⟩)

/-- The unit square of the spec's example. -/
def unitSquare : List (Point ℤ) := [⟨0, 0⟩, ⟨1, 0⟩, ⟨1, 1⟩, ⟨0, 1⟩]

end Aux2

/-! ## Facts about the order and the cross product -/

section HullFacts

variable {T : Type} [LinearOrderedCommRing T]

open Point

namespace Point

theorem lex_iff (a b : Point T) : le a b ↔ a.x < b.x ∨ (a.x = b.x ∧ a.y ≤ b.y) := by
  unfold le lt
  constructor
  · intro h
    rcases lt_trichotomy a.x b.x with h1 | h1 | h1
    · exact Or.inl h1
    · refine Or.inr ⟨h1, ?_⟩
      by_contra h2
      exact h (Or.inr ⟨h1.symm, not_le.mp h2⟩)
    · exact absurd (Or.inl h1) h
  · rintro (h | ⟨h1, h2⟩) (h3 | ⟨h3, h4⟩) <;> linarith

theorem dle_iff (σ : Bool) (a b : Point T) :
    dle σ a b ↔ if σ then a.x < b.x ∨ (a.x = b.x ∧ a.y ≤ b.y)
      else b.x < a.x ∨ (b.x = a.x ∧ b.y ≤ a.y) := by
  cases σ <;> simp [dle, lex_iff]

theorem dle_refl (σ : Bool) (a : Point T) : dle σ a a := by
  cases σ <;> simp [dle_iff]

theorem dle_total (σ : Bool) (a b : Point T) : dle σ a b ∨ dle σ b a := by
  have key : le a b ∨ le b a := by
    rw [lex_iff, lex_iff]
    rcases lt_trichotomy a.x b.x with h | h | h
    · exact Or.inl (Or.inl h)
    · rcases le_total a.y b.y with h2 | h2
      · exact Or.inl (Or.inr ⟨h, h2⟩)
      · exact Or.inr (Or.inr ⟨h.symm, h2⟩)
    · exact Or.inr (Or.inl h)
  cases σ
  · simpa [dle] using key.symm
  · simpa [dle] using key

theorem lex_trans {a b c : Point T} (h1 : le a b) (h2 : le b c) : le a c := by
  rw [lex_iff] at *
  rcases h1 with h1 | ⟨h1, h1y⟩ <;> rcases h2 with h2 | ⟨h2, h2y⟩
  · exact Or.inl (by linarith)
  · exact Or.inl (by linarith)
  · exact Or.inl (by linarith)
  · exact Or.inr ⟨by linarith, by linarith⟩

theorem lex_antisymm {a b : Point T} (h1 : le a b) (h2 : le b a) : a = b := by
  rw [lex_iff] at *
  obtain ⟨ax, ay⟩ := a
  obtain ⟨bx, bY⟩ := b
  simp only [Point.mk.injEq] at *
  rcases h1 with h1 | ⟨h1, h1y⟩ <;> rcases h2 with h2 | ⟨h2, h2y⟩
  · linarith
  · linarith
  · linarith
  · exact ⟨h1, by linarith⟩

theorem dle_trans {σ : Bool} {a b c : Point T} (h1 : dle σ a b) (h2 : dle σ b c) :
    dle σ a c := by
  cases σ
  · simp only [dle] at *; exact lex_trans h2 h1
  · simp only [dle] at *; exact lex_trans h1 h2

theorem dle_antisymm {σ : Bool} {a b : Point T} (h1 : dle σ a b) (h2 : dle σ b a) : a = b := by
  cases σ
  · simp only [dle] at *; exact lex_antisymm h2 h1
  · simp only [dle] at *; exact lex_antisymm h1 h2

theorem cross_self_right (o a : Point T) : cross o a a = 0 := by
  unfold cross; ring

theorem cross_self_left (o a : Point T) : cross o o a = 0 := by
  unfold cross; ring

theorem cross_self_mid (o a : Point T) : cross o a o = 0 := by
  unfold cross; ring

theorem cross_swap (o a b : Point T) : cross o a b = - cross b a o := by
  unfold cross; ring

theorem cross_rot (o a b : Point T) : cross o a b = cross a b o := by
  unfold cross; ring

/-- With `p ≼ t`, `r ≼ t ≼ q`: if `r` is on or left of `p → t` and `q` strictly left of it, then
`r` is on or left of `t → q`. -/
theorem cross_behind (σ : Bool) (p t q r : Point T) (hpt : dle σ p t) (hrt : dle σ r t)
    (htq : dle σ t q) (h1 : 0 ≤ cross p t r) (h2 : 0 < cross p t q) : 0 ≤ cross t q r := by
  rw [dle_iff] at hpt hrt htq
  obtain ⟨px, py⟩ := p
  obtain ⟨tx, ty⟩ := t
  obtain ⟨qx, qy⟩ := q
  obtain ⟨rx, ry⟩ := r
  cases σ <;> simp only [cross, if_true, if_false, Bool.false_eq_true] at * <;>
    rcases hpt with hpt | ⟨rfl, hpt2⟩ <;> rcases hrt with hrt | ⟨rfl, hrt2⟩ <;>
    rcases htq with htq | ⟨rfl, htq2⟩ <;> nlinarith

/-- Convexity propagates backwards along a monotone chain: `a ≼ b ≼ c ≼ q` with strict left
turns at `b` and at `c` gives a strict left turn `a, b, q`. -/
theorem cross_chain (σ : Bool) (a b c q : Point T) (hab : dle σ a b) (hbc : dle σ b c)
    (hcq : dle σ c q) (h1 : 0 < cross a b c) (h2 : 0 < cross b c q) : 0 < cross a b q := by
  rw [dle_iff] at hab hbc hcq
  obtain ⟨ax, ay⟩ := a
  obtain ⟨bx, bY⟩ := b
  obtain ⟨cx, cy⟩ := c
  obtain ⟨qx, qy⟩ := q
  cases σ <;> simp only [cross, if_true, if_false, Bool.false_eq_true] at * <;>
    rcases hab with hab | ⟨rfl, hab2⟩ <;> rcases hbc with hbc | ⟨rfl, hbc2⟩ <;>
    rcases hcq with hcq | ⟨rfl, hcq2⟩ <;> nlinarith

/-- Popping `b`: with `a ≼ b ≼ r ≼ q`, if `q` is on or right of `a → b` and `r` on or left of
`b → q`, then `r` is on or left of `a → q`. -/
theorem cross_pop_far (σ : Bool) (a b r q : Point T) (hab : dle σ a b) (hbr : dle σ b r)
    (hrq : dle σ r q) (h1 : cross a b q ≤ 0) (h2 : 0 ≤ cross b q r) : 0 ≤ cross a q r := by
  rw [dle_iff] at hab hbr hrq
  obtain ⟨ax, ay⟩ := a
  obtain ⟨bx, bY⟩ := b
  obtain ⟨rx, ry⟩ := r
  obtain ⟨qx, qy⟩ := q
  cases σ <;> simp only [cross, if_true, if_false, Bool.false_eq_true] at * <;>
    rcases hab with hab | ⟨rfl, hab2⟩ <;> rcases hbr with hbr | ⟨rfl, hbr2⟩ <;>
    rcases hrq with hrq | ⟨rfl, hrq2⟩ <;> nlinarith

/-- Popping `b`: with `a ≼ r ≼ b ≼ q`, if `r` is on or left of `a → b` and `q` on or right of
it, then `r` is on or left of `a → q`. -/
theorem cross_pop_near (σ : Bool) (a r b q : Point T) (har : dle σ a r) (hrb : dle σ r b)
    (hbq : dle σ b q) (h1 : 0 ≤ cross a b r) (h2 : cross a b q ≤ 0) : 0 ≤ cross a q r := by
  rw [dle_iff] at har hrb hbq
  obtain ⟨ax, ay⟩ := a
  obtain ⟨bx, bY⟩ := b
  obtain ⟨rx, ry⟩ := r
  obtain ⟨qx, qy⟩ := q
  cases σ <;> simp only [cross, if_true, if_false, Bool.false_eq_true] at * <;>
    rcases har with har | ⟨rfl, har2⟩ <;> rcases hrb with hrb | ⟨rfl, hrb2⟩ <;>
    rcases hbq with hbq | ⟨rfl, hbq2⟩ <;> nlinarith

end Point

end HullFacts

/-! ## Collinearity at the junction of the two sweeps -/

section JunctionFacts

variable {T : Type} [LinearOrderedCommRing T]

open Point

namespace Point

/-- Strict precedence in coordinates. -/
theorem dle_ne (σ : Bool) {a b : Point T} (h : dle σ a b) (hne : a ≠ b) :
    if σ then a.x - b.x < 0 ∨ (a.x - b.x = 0 ∧ a.y - b.y < 0)
    else b.x - a.x < 0 ∨ (b.x - a.x = 0 ∧ b.y - a.y < 0) := by
  rw [dle_iff] at h
  obtain ⟨ax, ay⟩ := a
  obtain ⟨bx, bY⟩ := b
  simp only [ne_eq, Point.mk.injEq, not_and] at hne
  cases σ <;> simp only [if_true, if_false, Bool.false_eq_true] at h ⊢
  · rcases h with h | ⟨h1, h2⟩
    · exact Or.inl (by linarith)
    · refine Or.inr ⟨by linarith, ?_⟩
      rcases lt_or_eq_of_le h2 with h3 | h3
      · linarith
      · exact absurd h3.symm (hne h1.symm)
  · rcases h with h | ⟨h1, h2⟩
    · exact Or.inl (by linarith)
    · refine Or.inr ⟨by linarith, ?_⟩
      rcases lt_or_eq_of_le h2 with h3 | h3
      · linarith
      · exact absurd h3 (hne h1)

/-- Two parallel vectors `A`, `B` that both point backwards, and a vector `w` with
`w × A ≥ 0` and `B × w ≥ 0`: then `w × A = 0`. -/
theorem junction_aux (ax ay bx bY wx wy : T) (hA : ax < 0 ∨ (ax = 0 ∧ ay < 0))
    (hB : bx < 0 ∨ (bx = 0 ∧ bY < 0)) (h0 : ax * bY - ay * bx = 0)
    (h1 : 0 ≤ wx * ay - wy * ax) (h2 : 0 ≤ bx * wy - bY * wx) :
    wx * ay - wy * ax = 0 := by
  refine le_antisymm ?_ h1
  by_contra hW
  rw [not_le] at hW
  have hax : ax ≤ 0 := by
    rcases hA with h | ⟨h, _⟩
    · exact h.le
    · exact h.le
  rcases hB with hb | ⟨hb, hb2⟩
  · have id1 : (wx * ay - wy * ax) * bx
        = -((bx * wy - bY * wx) * ax) - (ax * bY - ay * bx) * wx := by ring
    have h3 : (wx * ay - wy * ax) * bx < 0 := mul_neg_of_pos_of_neg hW hb
    have h4 : (bx * wy - bY * wx) * ax ≤ 0 := mul_nonpos_of_nonneg_of_nonpos h2 hax
    rw [id1, h0] at h3
    linarith
  · subst hb
    have hax0 : ax = 0 := by
      have : ax * bY = 0 := by linarith
      rcases mul_eq_zero.1 this with h | h
      · exact h
      · exact absurd h hb2.ne
    subst hax0
    have hay : ay < 0 := by
      rcases hA with h | ⟨_, h⟩
      · exact absurd h (lt_irrefl _)
      · exact h
    have h3 : (wx * ay - wy * 0) * bY < 0 := mul_neg_of_pos_of_neg hW hb2
    have h4 : (0 * wy - bY * wx) * ay ≤ 0 := mul_nonpos_of_nonneg_of_nonpos h2 hay.le
    nlinarith

/-- At a junction of the two sweeps: `l` and `x` both strictly precede `c` and are collinear
with it; a point on or left of both `l → c` and `c → x` is on the line. -/
theorem cross_junction (σ : Bool) (l c x r : Point T) (hlc : dle σ l c) (hne : l ≠ c)
    (hxc : dle σ x c) (hne2 : x ≠ c) (h0 : cross l c x = 0) (h1 : 0 ≤ cross l c r)
    (h2 : 0 ≤ cross c x r) : cross l c r = 0 := by
  have hA := dle_ne σ hlc hne
  have hB := dle_ne σ hxc hne2
  unfold cross at *
  cases σ <;> simp only [if_true, if_false, Bool.false_eq_true] at hA hB
  · have := junction_aux (c.x - l.x) (c.y - l.y) (c.x - x.x) (c.y - x.y) (c.x - r.x)
      (c.y - r.y) hA hB (by linarith) (by linarith) (by linarith)
    linarith
  · have := junction_aux (l.x - c.x) (l.y - c.y) (x.x - c.x) (x.y - c.y) (r.x - c.x)
      (r.y - c.y) hA hB (by linarith) (by linarith) (by linarith)
    linarith

/-- Points on one line: if `l ≠ c` and three points are each collinear with `l, c`, they are
collinear with each other. -/
theorem cross_of_line (l c r1 r2 r3 : Point T) (hne : l ≠ c) (h1 : cross l c r1 = 0)
    (h2 : cross l c r2 = 0) (h3 : cross l c r3 = 0) : cross r1 r2 r3 = 0 := by
  have hx : (c.x - l.x) * cross r1 r2 r3 = 0 := by
    unfold cross at *
    linear_combination (r2.x - r1.x) * h3 - (r3.x - r1.x) * h2 + (r3.x - r2.x) * h1
  have hy : (c.y - l.y) * cross r1 r2 r3 = 0 := by
    unfold cross at *
    linear_combination (r2.y - r1.y) * h3 - (r3.y - r1.y) * h2 + (r3.y - r2.y) * h1
  rcases mul_eq_zero.1 hx with h | h
  · rcases mul_eq_zero.1 hy with h' | h'
    · exfalso
      apply hne
      obtain ⟨lx, ly⟩ := l
      obtain ⟨cx, cy⟩ := c
      simp only [Point.mk.injEq] at *
      exact ⟨by linarith, by linarith⟩
    · exact h'
  · exact h

end Point

end JunctionFacts

/-! ## The `while` loop and the loop invariant -/

section ChainFacts
variable {T : Type} [LinearOrderedCommRing T]
open Point

theorem Turns.turns_tail {x : Point T} {s : List (Point T)} (h : Turns (x :: s)) : Turns s := by
  match s, h with
  | [], _ => trivial
  | [_], _ => trivial
  | _ :: _ :: _, h => exact h.2

theorem LeftOf.left_tail {r x : Point T} {s : List (Point T)} (h : LeftOf r (x :: s)) :
    LeftOf r s := by
  match s, h with
  | [], _ => trivial
  | _ :: _, h => exact h.2

theorem Turns.turns_suffix {s u : List (Point T)} (hs : u <:+ s) (h : Turns s) : Turns u := by
  obtain ⟨t, rfl⟩ := hs
  induction t with
  | nil => simpa using h
  | cons x t ih => exact ih (Turns.turns_tail h)

theorem LeftOf.left_suffix {r : Point T} {s u : List (Point T)} (hs : u <:+ s) (h : LeftOf r s) :
    LeftOf r u := by
  obtain ⟨t, rfl⟩ := hs
  induction t with
  | nil => simpa using h
  | cons x t ih => exact ih (LeftOf.left_tail h)

theorem popWhile_cons_cons (t : Nat) (q b a : Point T) (rest : List (Point T)) :
    popWhile t q (b :: a :: rest) =
      if t ≤ rest.length + 2 ∧ cross a b q ≤ 0 then popWhile t q (a :: rest)
      else b :: a :: rest := by
  rw [popWhile]

theorem popWhile_nil (t : Nat) (q : Point T) : popWhile t q [] = [] := by
  simp [popWhile]

theorem popWhile_single (t : Nat) (q b : Point T) : popWhile t q [b] = [b] := by
  simp [popWhile]

theorem popWhile_suffix (t : Nat) (q : Point T) (s : List (Point T)) :
    popWhile t q s <:+ s := by
  induction s with
  | nil => simp [popWhile_nil]
  | cons b s ih =>
    cases s with
    | nil => simp [popWhile_single]
    | cons a rest =>
      rw [popWhile_cons_cons]
      split_ifs with h
      · exact ih.trans (List.suffix_cons b (a :: rest))
      · exact List.suffix_refl _

theorem popWhile_ne_nil (t : Nat) (q : Point T) (s : List (Point T)) (hs : s ≠ []) :
    popWhile t q s ≠ [] := by
  induction s with
  | nil => exact absurd rfl hs
  | cons b s ih =>
    cases s with
    | nil => simp [popWhile_single]
    | cons a rest =>
      rw [popWhile_cons_cons]
      split_ifs with h
      · exact ih (by simp)
      · simp

theorem popWhile_getLast (t : Nat) (q : Point T) (s : List (Point T)) :
    (popWhile t q s).getLast? = s.getLast? := by
  induction s with
  | nil => simp [popWhile_nil]
  | cons b s ih =>
    cases s with
    | nil => simp [popWhile_single]
    | cons a rest =>
      rw [popWhile_cons_cons]
      split_ifs with h
      · rw [ih]; simp [List.getLast?_cons_cons]
      · rfl

/-- On leaving the `while` loop with bound 2 the top two entries and `q` turn strictly left. -/
theorem popWhile_exit (q : Point T) (s : List (Point T)) (b a : Point T)
    (rest : List (Point T)) (h : popWhile 2 q s = b :: a :: rest) : 0 < cross a b q := by
  induction s with
  | nil => simp [popWhile_nil] at h
  | cons b0 s ih =>
    cases s with
    | nil => simp [popWhile_single] at h
    | cons a0 rest0 =>
      rw [popWhile_cons_cons] at h
      split_ifs at h with hc
      · exact ih h
      · simp only [List.cons.injEq] at h
        obtain ⟨rfl, rfl, rfl⟩ := h
        have : ¬ cross a0 b0 q ≤ 0 := fun h2 => hc ⟨by omega, h2⟩
        exact not_le.mp this

/-- The loop invariant of the `while` loop: the points at or beyond the current top are on or
left of the segment from the top to the new point `q`. -/
theorem popWhile_stage (σ : Bool) (P : List (Point T)) (q : Point T)
    (hPq : ∀ r ∈ P, dle σ r q) (s : List (Point T))
    (hsort : s.Pairwise (fun u v => dle σ v u)) (hsq : ∀ x ∈ s, dle σ x q)
    (hleft : ∀ r ∈ P, LeftOf r s)
    (hst : ∀ r ∈ P, ∀ t, s.head? = some t → dle σ t r → 0 ≤ cross t q r) :
    ∀ r ∈ P, ∀ t, (popWhile 2 q s).head? = some t → dle σ t r → 0 ≤ cross t q r := by
  induction s with
  | nil => simp [popWhile_nil]
  | cons b s ih =>
    cases s with
    | nil => simpa [popWhile_single] using hst
    | cons a rest =>
      rw [popWhile_cons_cons]
      split_ifs with hc
      · have hab : dle σ a b := (List.pairwise_cons.1 hsort).1 a (by simp)
        refine ih (List.pairwise_cons.1 hsort).2 (fun x hx => hsq x (List.mem_cons_of_mem _ hx))
          (fun r hr => (hleft r hr).left_tail) ?_
        intro r hr t ht har
        simp only [List.head?_cons, Option.some.injEq] at ht
        subst ht
        rcases dle_total σ b r with hbr | hrb
        · exact cross_pop_far σ a b r q hab hbr (hPq r hr) hc.2
            (hst r hr b (by simp) hbr)
        · exact cross_pop_near σ a r b q har hrb (hsq b (by simp)) (hleft r hr).1 hc.2
      · exact hst

/-- A new point that turns strictly left at the top of a convex monotone stack is strictly
left of every edge of the stack. -/
theorem leftOf_of_turns (σ : Bool) (q : Point T) (s : List (Point T)) :
    ∀ c b : Point T, (c :: b :: s).Pairwise (fun u v => dle σ v u) → dle σ c q →
      Turns (c :: b :: s) → 0 < cross b c q → LeftOf q (c :: b :: s) := by
  induction s with
  | nil => intro c b _ _ _ h; exact ⟨h.le, trivial⟩
  | cons a rest ih =>
    intro c b hsort hcq hturn h
    refine ⟨h.le, ?_⟩
    have hbc : dle σ b c := (List.pairwise_cons.1 hsort).1 b (by simp)
    have hsort2 := (List.pairwise_cons.1 hsort).2
    have hab : dle σ a b := (List.pairwise_cons.1 hsort2).1 a (by simp)
    exact ih b a hsort2 (dle_trans hbc hcq) hturn.2
      (cross_chain σ a b c q hab hbc hcq hturn.1 h)

end ChainFacts

section ChainInvariant
variable {T : Type} [LinearOrderedCommRing T]
open Point

theorem pairwise_getLast {α : Type} {R : α → α → Prop} {l : List α} (h : l.Pairwise R)
    {t : α} (ht : l.getLast? = some t) : ∀ r ∈ l, r = t ∨ R r t := by
  induction l with
  | nil => simp
  | cons x l ih =>
    intro r hr
    cases l with
    | nil =>
      simp only [List.getLast?_singleton, Option.some.injEq] at ht
      simp only [List.mem_singleton] at hr
      exact Or.inl (hr.trans ht)
    | cons y l =>
      rw [List.getLast?_cons_cons] at ht
      rcases List.mem_cons.1 hr with rfl | hr
      · exact Or.inr ((List.pairwise_cons.1 h).1 t (List.mem_of_getLast?_eq_some ht))
      · exact ih (List.pairwise_cons.1 h).2 ht r hr

theorem pairwise_head {α : Type} {R : α → α → Prop} {l : List α} (h : l.Pairwise R)
    {a : α} (ha : l.head? = some a) : ∀ r ∈ l, r = a ∨ R a r := by
  cases l with
  | nil => simp
  | cons x l =>
    simp only [List.head?_cons, Option.some.injEq] at ha
    subst ha
    intro r hr
    rcases List.mem_cons.1 hr with rfl | hr
    · exact Or.inl rfl
    · exact Or.inr ((List.pairwise_cons.1 h).1 r hr)

/-- One iteration of the `for` loop keeps the invariant. -/
theorem ChainInv.step (σ : Bool) {P s : List (Point T)} (inv : ChainInv P s)
    (hP : P.Pairwise (dle σ)) {q : Point T} (hq : ∀ r ∈ P, dle σ r q) :
    ChainInv (P ++ [q]) (hullStep 2 s q) := by
  have hsort : s.Pairwise (fun u v => dle σ v u) :=
    List.pairwise_reverse.1 (hP.sublist inv.sub)
  have hmem : ∀ x ∈ s, x ∈ P := fun x hx => inv.sub.subset (List.mem_reverse.2 hx)
  have hsq : ∀ x ∈ s, dle σ x q := fun x hx => hq x (hmem x hx)
  have hsuf : popWhile 2 q s <:+ s := popWhile_suffix 2 q s
  have hstage0 : ∀ r ∈ P, ∀ t, s.head? = some t → dle σ t r → 0 ≤ cross t q r := by
    intro r hr t ht htr
    rw [inv.top] at ht
    have : r = t := by
      rcases pairwise_getLast hP ht r hr with h | h
      · exact h
      · exact dle_antisymm h htr
    subst this
    rw [cross_self_mid]
  have hstage := popWhile_stage σ P q hq s hsort hsq inv.left hstage0
  have hsort2 : (popWhile 2 q s).Pairwise (fun u v => dle σ v u) := hsort.sublist hsuf.sublist
  have hlast : (popWhile 2 q s).getLast? = P.head? := by
    rw [popWhile_getLast, inv.bot]
  have hexit := popWhile_exit q s
  have hturns2 : Turns (popWhile 2 q s) := inv.turns.turns_suffix hsuf
  have hleft2 : ∀ r ∈ P, LeftOf r (popWhile 2 q s) := fun r hr => (inv.left r hr).left_suffix hsuf
  have hne : s ≠ [] → popWhile 2 q s ≠ [] := popWhile_ne_nil 2 q s
  have hmem2 : ∀ x ∈ popWhile 2 q s, dle σ x q := fun x hx => hsq x (hsuf.subset hx)
  unfold hullStep
  generalize popWhile 2 q s = u at *
  refine ⟨?_, ?_, ?_, ?_, ?_⟩
  · rw [List.reverse_cons]
    exact (hsuf.sublist.reverse.trans inv.sub).append (List.Sublist.refl [q])
  · match u, hexit, hturns2 with
    | [], _, _ => trivial
    | [_], _, _ => trivial
    | b :: a :: rest, hexit, hturns2 => exact ⟨hexit b a rest rfl, hturns2⟩
  · intro r hr
    match u, hexit, hturns2, hleft2, hstage, hsort2, hlast, hmem2 with
    | [], _, _, _, _, _, _, _ => trivial
    | [t], _, _, _, hstage, _, hlast, hmem2 =>
      refine ⟨?_, trivial⟩
      rcases List.mem_append.1 hr with hr | hr
      · refine hstage r hr t rfl ?_
        simp only [List.getLast?_singleton] at hlast
        rcases pairwise_head hP hlast.symm r hr with h | h
        · rw [h]; exact dle_refl σ t
        · exact h
      · simp only [List.mem_singleton] at hr
        rw [hr, cross_self_right]
    | t :: p :: rest, hexit, hturns2, hleft2, hstage, hsort2, _, hmem2 =>
      have hpt : dle σ p t := (List.pairwise_cons.1 hsort2).1 p (by simp)
      have htq : dle σ t q := hmem2 t (by simp)
      have hex : 0 < cross p t q := hexit t p rest rfl
      rcases List.mem_append.1 hr with hr | hr
      · refine ⟨?_, hleft2 r hr⟩
        rcases dle_total σ t r with h | h
        · exact hstage r hr t rfl h
        · exact cross_behind σ p t q r hpt h htq (hleft2 r hr).1 hex
      · simp only [List.mem_singleton] at hr
        subst hr
        refine ⟨by rw [cross_self_right], ?_⟩
        exact leftOf_of_turns σ r rest t p hsort2 htq hturns2 hex
  · simp
  · cases u with
    | nil =>
      have hs : s = [] := by
        by_contra h
        exact hne h rfl
      have hPnil : P = [] := by
        have := inv.top
        rw [hs] at this
        simpa using this.symm
      simp [hPnil]
    | cons t u =>
      have hPne : P ≠ [] := by
        intro h
        rw [h] at hlast
        simp at hlast
      rw [List.getLast?_cons_cons, hlast, List.head?_append_of_ne_nil _ hPne]

/-- The first loop of `convex_hull` establishes the invariant for the whole (sorted) input. -/
theorem chain_inv (σ : Bool) (S : List (Point T)) (hS : S.Pairwise (dle σ)) :
    ChainInv S (chain S) := by
  induction S using List.reverseRecOn with
  | nil => exact ⟨by simp [chain], trivial, fun _ _ => trivial, rfl, rfl⟩
  | append_singleton P q ih =>
    have hP := (List.pairwise_append.1 hS)
    have : chain (P ++ [q]) = hullStep 2 (chain P) q := by
      simp [chain, List.foldl_append]
    rw [this]
    exact (ih hP.1).step σ hP.1 (fun r hr => hP.2.2 r hr q (by simp))

end ChainInvariant

/-! ## The shape of the output of `convex_hull` -/

section HullShape
variable {T : Type} [LinearOrderedCommRing T]
open Point

theorem lex_isTotal : IsTotal (Point T) le :=
  ⟨fun a b => by simpa [dle] using dle_total true a b⟩

theorem lex_isTrans : IsTrans (Point T) le := ⟨fun _ _ _ h1 h2 => lex_trans h1 h2⟩

theorem lex_isAntisymm : IsAntisymm (Point T) le := ⟨fun _ _ h1 h2 => lex_antisymm h1 h2⟩

theorem sortPoints_perm (p : List (Point T)) : (sortPoints p).Perm p :=
  List.perm_insertionSort le p

theorem sortPoints_sorted (p : List (Point T)) : (sortPoints p).Pairwise le := by
  haveI : IsTotal (Point T) le := lex_isTotal
  haveI : IsTrans (Point T) le := lex_isTrans
  exact List.sorted_insertionSort le p

/-- The result of `std::sort` is determined by its contract: any arrangement of the input that
is sorted for `operator<` is the one `sortPoints` computes. -/
theorem sort_unique (p l : List (Point T)) (hperm : l.Perm p)
    (hsorted : l.Pairwise (fun a b => ¬ lt b a)) : l = sortPoints p := by
  have hs : l.Pairwise le := hsorted
  haveI : IsAntisymm (Point T) le := lex_isAntisymm
  exact List.eq_of_perm_of_sorted (hperm.trans (sortPoints_perm p).symm) hs
    (sortPoints_sorted p)

theorem mem_sortPoints {p : List (Point T)} {x : Point T} : x ∈ sortPoints p ↔ x ∈ p :=
  (sortPoints_perm p).mem_iff

theorem length_sortPoints (p : List (Point T)) : (sortPoints p).length = p.length :=
  (sortPoints_perm p).length_eq

theorem sorted_asc (p : List (Point T)) : (sortPoints p).Pairwise (dle true) := by
  simpa [dle] using sortPoints_sorted p

theorem sorted_desc (p : List (Point T)) : (sortPoints p).reverse.Pairwise (dle false) := by
  rw [List.pairwise_reverse]
  simpa [dle] using sortPoints_sorted p

theorem popWhile_append (q : Point T) (R : List (Point T)) :
    ∀ U : List (Point T), U ≠ [] →
      popWhile (R.length + 2) q (U ++ R) = popWhile 2 q U ++ R := by
  intro U
  induction U with
  | nil => intro h; exact absurd rfl h
  | cons b U ih =>
    intro _
    cases U with
    | nil =>
      cases R with
      | nil => simp [popWhile_single]
      | cons a rest =>
        simp only [List.singleton_append, popWhile_single, popWhile_cons_cons, List.length_cons]
        rw [if_neg]
        rintro ⟨h, _⟩
        omega
    | cons a U =>
      have ih2 := ih (by simp)
      simp only [List.cons_append, popWhile_cons_cons, List.length_append] at ih2 ⊢
      by_cases hc : cross a b q ≤ 0
      · rw [if_pos ⟨by omega, hc⟩, if_pos ⟨by omega, hc⟩]
        exact ih2
      · rw [if_neg (fun h => hc h.2), if_neg (fun h => hc h.2)]
        simp

theorem foldl_hullStep_append (R : List (Point T)) (qs : List (Point T)) :
    ∀ U : List (Point T), U ≠ [] →
      qs.foldl (hullStep (R.length + 2)) (U ++ R) = qs.foldl (hullStep 2) U ++ R := by
  induction qs with
  | nil => intro U _; rfl
  | cons q qs ih =>
    intro U hU
    simp only [List.foldl_cons]
    have : hullStep (R.length + 2) (U ++ R) q = hullStep 2 U q ++ R := by
      simp [hullStep, popWhile_append q R U hU]
    rw [this]
    exact ih _ (by simp [hullStep])

theorem chain_append_singleton (P : List (Point T)) (q : Point T) :
    chain (P ++ [q]) = q :: popWhile 2 q (chain P) := by
  simp [chain, List.foldl_append, hullStep]

/-- The emitted sequence is the reverse of: the stack of the second sweep (over the reversed
sorted input) on top of the stack of the first sweep without its top. -/
theorem convex_hull_eq (p : List (Point T)) :
    convex_hull p =
      (chain (sortPoints p).reverse ++ (chain (sortPoints p)).tail).reverse := by
  unfold convex_hull
  generalize sortPoints p = sp
  induction sp using List.reverseRecOn with
  | nil => simp [chain]
  | append_singleton P q _ =>
    simp only [List.reverse_append, List.reverse_cons, List.reverse_nil, List.nil_append,
      List.singleton_append, List.tail_cons]
    have h1 : List.foldl (hullStep 2) [] (P ++ [q]) = q :: popWhile 2 q (chain P) :=
      chain_append_singleton P q
    rw [h1]
    have h2 : chain (q :: P.reverse) = P.reverse.foldl (hullStep 2) [q] := by
      simp [chain, hullStep, popWhile_nil]
    have h3 : chain (P ++ [q]) = q :: popWhile 2 q (chain P) := chain_append_singleton P q
    rw [h2, h3]
    simp only [List.length_cons, List.tail_cons]
    have := foldl_hullStep_append (popWhile 2 q (chain P)) P.reverse [q] (by simp)
    simp only [List.singleton_append] at this
    rw [this, List.reverse_append]

end HullShape

/-! ## Correctness of `convex_hull` -/

section HullCorrect
variable {T : Type} [LinearOrderedCommRing T]
open Point

theorem chain_ne_nil {S : List (Point T)} (h : S ≠ []) : chain S ≠ [] := by
  induction S using List.reverseRecOn with
  | nil => exact absurd rfl h
  | append_singleton P q _ => rw [chain_append_singleton]; simp

theorem chain_length_two {S : List (Point T)} (h : 2 ≤ S.length) : 2 ≤ (chain S).length := by
  induction S using List.reverseRecOn with
  | nil => simp at h
  | append_singleton P q _ =>
    rw [chain_append_singleton]
    have hP : P ≠ [] := by
      intro h0
      simp [h0] at h
    have := popWhile_ne_nil 2 q (chain P) (chain_ne_nil hP)
    have := List.length_pos.2 this
    simp only [List.length_cons]
    omega

theorem LeftOf.left_append {r c : Point T} {R : List (Point T)} :
    ∀ U : List (Point T), LeftOf r (U ++ [c]) → LeftOf r (c :: R) → LeftOf r (U ++ c :: R) := by
  intro U
  induction U with
  | nil => intro _ h; exact h
  | cons x U ih =>
    intro h1 h2
    cases U with
    | nil => exact ⟨h1.1, h2⟩
    | cons y U => exact ⟨h1.1, ih h1.2 h2⟩

theorem LeftOf.left_getElem {r : Point T} :
    ∀ (s : List (Point T)), LeftOf r s →
      ∀ (i : Nat) (hi : i + 1 < s.length), 0 ≤ cross s[i + 1] s[i] r := by
  intro s
  induction s with
  | nil => intro _ i hi; simp at hi
  | cons b s ih =>
    intro h i hi
    cases s with
    | nil => simp at hi
    | cons a rest =>
      cases i with
      | zero => exact h.1
      | succ i =>
        have := ih h.2 i (by simpa using hi)
        simpa using this

/-- The stack of `convex_hull` before the final reversal. -/
theorem leftOf_stack (p : List (Point T)) (q : Point T) (hq : q ∈ p) :
    LeftOf q (chain (sortPoints p).reverse ++ (chain (sortPoints p)).tail) := by
  have hlo := chain_inv true (sortPoints p) (sorted_asc p)
  have hup := chain_inv false (sortPoints p).reverse (sorted_desc p)
  have hq1 : q ∈ sortPoints p := mem_sortPoints.2 hq
  have hq2 : q ∈ (sortPoints p).reverse := List.mem_reverse.2 hq1
  have hl := hlo.left q hq1
  have hu := hup.left q hq2
  have hb := hup.bot
  have ht := hlo.top
  rw [List.head?_reverse] at hb
  generalize chain (sortPoints p) = lo at *
  generalize chain (sortPoints p).reverse = up at *
  cases lo with
  | nil => simpa using hu
  | cons c R =>
    simp only [List.tail_cons]
    have hc : up.getLast? = some c := by rw [hb, ← ht]; rfl
    obtain ⟨U, rfl⟩ := List.getLast?_eq_some_iff.1 hc
    rw [List.append_assoc]
    exact LeftOf.left_append U hu hl

theorem mem_stack (p : List (Point T)) {v : Point T}
    (hv : v ∈ chain (sortPoints p).reverse ++ (chain (sortPoints p)).tail) : v ∈ p := by
  have hlo := chain_inv true (sortPoints p) (sorted_asc p)
  have hup := chain_inv false (sortPoints p).reverse (sorted_desc p)
  rcases List.mem_append.1 hv with h | h
  · have := hup.sub.subset (List.mem_reverse.2 h)
    exact mem_sortPoints.1 (List.mem_reverse.1 this)
  · have := hlo.sub.subset (List.mem_reverse.2 (List.mem_of_mem_tail h))
    exact mem_sortPoints.1 this

/-- For two or more input points the emitted sequence starts and ends with the first point of
the sorted input. -/
theorem hull_ends (p : List (Point T)) (hn : 2 ≤ p.length) :
    ∃ m, (sortPoints p).head? = some m ∧ (convex_hull p).head? = some m ∧
      (convex_hull p).getLast? = some m := by
  have hlo := chain_inv true (sortPoints p) (sorted_asc p)
  have hup := chain_inv false (sortPoints p).reverse (sorted_desc p)
  have hlen : 2 ≤ (sortPoints p).length := by rw [length_sortPoints]; exact hn
  have hlo2 := chain_length_two hlen
  have hup2 : 2 ≤ (chain (sortPoints p).reverse).length :=
    chain_length_two (by simpa using hlen)
  have hb := hlo.bot
  have ht := hup.top
  rw [List.getLast?_reverse] at ht
  rw [convex_hull_eq, List.head?_reverse, List.getLast?_reverse]
  generalize chain (sortPoints p) = lo at *
  generalize chain (sortPoints p).reverse = up at *
  match lo, hlo2, hb with
  | c :: l :: R, _, hb =>
    match up, hup2, ht with
    | u :: v :: U, _, ht =>
      cases hsp : (sortPoints p).head? with
      | none => rw [hsp] at ht; simp at ht
      | some m =>
        refine ⟨m, rfl, ?_, ?_⟩
        · rw [← hsp, ← hb, List.tail_cons, List.getLast?_cons_cons]
          exact List.getLast?_append_of_ne_nil _ (by simp)
        · rw [← hsp, ← ht]
          simp

theorem hull_length (p : List (Point T)) (hn : 2 ≤ p.length) :
    3 ≤ (convex_hull p).length := by
  have hlen : 2 ≤ (sortPoints p).length := by rw [length_sortPoints]; exact hn
  have hlo2 := chain_length_two hlen
  have hup2 : 2 ≤ (chain (sortPoints p).reverse).length :=
    chain_length_two (by simpa using hlen)
  rw [convex_hull_eq]
  simp only [List.length_reverse, List.length_append, List.length_tail]
  omega

theorem leftOf_hull (p : List (Point T)) (q : Point T) (hq : q ∈ p) (i : Nat)
    (hi : i + 1 < (convex_hull p).length) :
    0 ≤ cross ((convex_hull p)[i]) ((convex_hull p)[i + 1]) q := by
  have key := leftOf_stack p q hq
  have heq := convex_hull_eq p
  generalize chain (sortPoints p).reverse ++ (chain (sortPoints p)).tail = s at *
  generalize convex_hull p = h at *
  subst heq
  simp only [List.length_reverse] at hi
  have := LeftOf.left_getElem s key (s.length - 2 - i) (by omega)
  simp only [List.getElem_reverse]
  have e1 : s.length - 1 - i = s.length - 2 - i + 1 := by omega
  have e2 : s.length - 1 - (i + 1) = s.length - 2 - i := by omega
  simp only [e1, e2]
  exact this

/-- C2. For more than one input point the first and the last emitted point coincide, and
both are the lexicographically smallest input point. -/
theorem convex_hull_closed (p : List (Point T)) (hn : 1 < p.length) :
    ∃ m, m ∈ p ∧ (∀ q ∈ p, ¬ lt q m) ∧ (convex_hull p).head? = some m ∧
      (convex_hull p).getLast? = some m := by
  obtain ⟨m, hm, hh, hl⟩ := hull_ends p hn
  refine ⟨m, mem_sortPoints.1 (List.mem_of_mem_head? hm), ?_, hh, hl⟩
  intro q hq
  rcases pairwise_head (sortPoints_sorted p) hm q (mem_sortPoints.2 hq) with h | h
  · rw [h]; simpa [dle] using dle_refl true m
  · exact h

end HullCorrect


/-! ## The emitted polygon is the convex hull of the input -/

section HullSupport

variable {T : Type} [LinearOrderedCommRing T]

open Point

/-- A point `r` between `a` and `b` in the order of the sweep and on or left of the edge
`a → b` is not below both ends in a direction `(U, W)` that points to the side of the sweep
(`W ≥ 0` for the lower chain, `W ≤ 0` for the upper chain). -/
theorem support_edge (σ : Bool) (a b r : Point T) (U W : T) (har : dle σ a r)
    (hrb : dle σ r b) (hc : 0 ≤ cross a b r) (hW : if σ then 0 ≤ W else W ≤ 0) :
    U * a.x + W * a.y ≤ U * r.x + W * r.y ∨ U * b.x + W * b.y ≤ U * r.x + W * r.y := by
  by_contra hcon
  push_neg at hcon
  obtain ⟨ha, hb⟩ := hcon
  obtain ⟨ax, ay⟩ := a
  obtain ⟨bx, bY⟩ := b
  obtain ⟨rx, ry⟩ := r
  rw [dle_iff] at har hrb
  simp only [cross] at hc
  simp only at ha hb har hrb
  cases σ
  · simp only [Bool.false_eq_true, if_false] at har hrb hW
    have h3 : 0 ≤ (-W) * ((bx - ax) * (ry - ay) - (bY - ay) * (rx - ax)) :=
      mul_nonneg (by linarith) hc
    have g1 : 0 ≤ (ax - rx) * ((U * bx + W * bY) - (U * rx + W * ry)) :=
      mul_nonneg (by rcases har with h | ⟨h, -⟩ <;> linarith) (by linarith)
    have g2 : 0 ≤ (rx - bx) * ((U * ax + W * ay) - (U * rx + W * ry)) :=
      mul_nonneg (by rcases hrb with h | ⟨h, -⟩ <;> linarith) (by linarith)
    have key : (ax - rx) * ((U * bx + W * bY) - (U * rx + W * ry))
        + (rx - bx) * ((U * ax + W * ay) - (U * rx + W * ry))
        + (-W) * ((bx - ax) * (ry - ay) - (bY - ay) * (rx - ax)) = 0 := by ring
    rcases har with h1 | ⟨h1, h1'⟩
    · have : 0 < (ax - rx) * ((U * bx + W * bY) - (U * rx + W * ry)) :=
        mul_pos (by linarith) (by linarith)
      linarith
    · rcases hrb with h2 | ⟨h2, h2'⟩
      · have : 0 < (rx - bx) * ((U * ax + W * ay) - (U * rx + W * ry)) :=
          mul_pos (by linarith) (by linarith)
        linarith
      · have : W * (ay - ry) ≤ 0 := mul_nonpos_of_nonpos_of_nonneg hW (by linarith)
        subst h1
        linarith
  · simp only [if_true] at har hrb hW
    have h3 : 0 ≤ W * ((bx - ax) * (ry - ay) - (bY - ay) * (rx - ax)) := mul_nonneg hW hc
    have g1 : 0 ≤ (rx - ax) * ((U * bx + W * bY) - (U * rx + W * ry)) :=
      mul_nonneg (by rcases har with h | ⟨h, -⟩ <;> linarith) (by linarith)
    have g2 : 0 ≤ (bx - rx) * ((U * ax + W * ay) - (U * rx + W * ry)) :=
      mul_nonneg (by rcases hrb with h | ⟨h, -⟩ <;> linarith) (by linarith)
    have key : (rx - ax) * ((U * bx + W * bY) - (U * rx + W * ry))
        + (bx - rx) * ((U * ax + W * ay) - (U * rx + W * ry))
        + W * ((bx - ax) * (ry - ay) - (bY - ay) * (rx - ax)) = 0 := by ring
    rcases har with h1 | ⟨h1, h1'⟩
    · have : 0 < (rx - ax) * ((U * bx + W * bY) - (U * rx + W * ry)) :=
        mul_pos (by linarith) (by linarith)
      linarith
    · rcases hrb with h2 | ⟨h2, h2'⟩
      · have : 0 < (bx - rx) * ((U * ax + W * ay) - (U * rx + W * ry)) :=
          mul_pos (by linarith) (by linarith)
        linarith
      · have : W * (ay - ry) ≤ 0 := mul_nonpos_of_nonneg_of_nonpos hW (by linarith)
        subst h1
        linarith

/-- Along a stack of a sweep: a point that lies between the bottom and the top in the order of
the sweep and on or left of every edge is not below all stack entries in a direction on the
side of the sweep. -/
theorem support_stack (σ : Bool) (r : Point T) (U W : T) (hW : if σ then 0 ≤ W else W ≤ 0)
    (l : Point T) (hl : dle σ l r) :
    ∀ (s : List (Point T)), LeftOf r s → s.getLast? = some l →
      ∀ t, s.head? = some t → dle σ r t →
      ∃ w ∈ s, U * w.x + W * w.y ≤ U * r.x + W * r.y := by
  intro s
  induction s with
  | nil =>
    intro _ _ t ht
    simp at ht
  | cons b rest ih =>
    intro hleft hlast t ht hrt
    simp only [List.head?_cons, Option.some.injEq] at ht
    subst ht
    cases rest with
    | nil =>
      simp only [List.getLast?_singleton, Option.some.injEq] at hlast
      subst hlast
      have e : r = b := dle_antisymm hrt hl
      exact ⟨b, List.mem_singleton.2 rfl, by rw [e]⟩
    | cons a rest2 =>
      have hc : 0 ≤ cross a b r := hleft.1
      rcases dle_total σ a r with har | hra
      · rcases support_edge σ a b r U W har hrt hc hW with h | h
        · exact ⟨a, by simp, h⟩
        · exact ⟨b, by simp, h⟩
      · have hlast2 : (a :: rest2).getLast? = some l := by
          rw [← hlast, List.getLast?_cons_cons]
        obtain ⟨w, hw, hf⟩ := ih hleft.2 hlast2 a rfl hra
        exact ⟨w, List.mem_cons_of_mem b hw, hf⟩

/-- Every entry of a strictly turning stack other than (a copy of) the bottom entry has a
different entry right below it, the start of the edge that ends in it. -/
theorem boundary_stack : ∀ (s : List (Point T)), Turns s → ∀ v ∈ s,
    s.getLast? = some v ∨ ∃ a, a ≠ v ∧ ∀ r, LeftOf r s → 0 ≤ cross a v r := by
  intro s
  induction s with
  | nil =>
    intro _ v hv
    simp at hv
  | cons b rest ih =>
    intro hturn v hv
    rw [List.mem_cons] at hv
    rcases hv with rfl | hv
    · cases rest with
      | nil => exact Or.inl rfl
      | cons a rest2 =>
        by_cases hab : a = v
        · subst hab
          cases rest2 with
          | nil => exact Or.inl rfl
          | cons x rest3 =>
            exfalso
            have := hturn.1
            rw [cross_self_right] at this
            exact lt_irrefl _ this
        · exact Or.inr ⟨a, hab, fun r hr => hr.1⟩
    · have hne : rest ≠ [] := List.ne_nil_of_mem hv
      rcases ih hturn.turns_tail v hv with h | ⟨a, ha, hleft⟩
      · left
        obtain ⟨x, xs, rfl⟩ := List.exists_cons_of_ne_nil hne
        rw [List.getLast?_cons_cons]
        exact h
      · exact Or.inr ⟨a, ha, fun r hr => hleft r hr.left_tail⟩

theorem mem_hull_of_mem_upper (p : List (Point T)) {w : Point T}
    (hw : w ∈ chain (sortPoints p).reverse) : w ∈ convex_hull p := by
  rw [convex_hull_eq, List.mem_reverse, List.mem_append]
  exact Or.inl hw

theorem mem_hull_of_mem_lower (p : List (Point T)) {w : Point T}
    (hw : w ∈ chain (sortPoints p)) : w ∈ convex_hull p := by
  rw [convex_hull_eq, List.mem_reverse, List.mem_append]
  have inv := chain_inv true (sortPoints p) (sorted_asc p)
  have inv2 := chain_inv false (sortPoints p).reverse (sorted_desc p)
  cases hc : chain (sortPoints p) with
  | nil =>
    rw [hc] at hw
    simp at hw
  | cons t rest =>
    rw [hc] at hw
    rw [List.mem_cons] at hw
    rcases hw with rfl | hw
    · left
      have h1 : (sortPoints p).getLast? = some w := by
        rw [← inv.top, hc]
        rfl
      have h2 : (chain (sortPoints p).reverse).getLast? = some w := by
        rw [inv2.bot, List.head?_reverse, h1]
      exact List.mem_of_getLast?_eq_some h2
    · right
      exact hw

/-- The support property: no line separates an input point from the emitted points. For every
direction `(U, W)` and every input point `q` some emitted point is at most as high as `q`. -/
theorem support_hull (p : List (Point T)) (q : Point T) (hq : q ∈ p) (U W : T) :
    ∃ w ∈ convex_hull p, U * w.x + W * w.y ≤ U * q.x + W * q.y := by
  have hqs : q ∈ sortPoints p := mem_sortPoints.2 hq
  have hne : sortPoints p ≠ [] := List.ne_nil_of_mem hqs
  obtain ⟨m, hm⟩ : ∃ m, (sortPoints p).head? = some m := by
    cases hs : sortPoints p with
    | nil => exact absurd hs hne
    | cons x xs => exact ⟨x, rfl⟩
  obtain ⟨M, hM⟩ : ∃ M, (sortPoints p).getLast? = some M :=
    ⟨(sortPoints p).getLast hne, List.getLast?_eq_getLast _ hne⟩
  have hmq : le m q := by
    rcases pairwise_head (sortPoints_sorted p) hm q hqs with h | h
    · rw [h]
      simpa [dle] using dle_refl true m
    · exact h
  have hqM : le q M := by
    rcases pairwise_getLast (sortPoints_sorted p) hM q hqs with h | h
    · rw [h]
      simpa [dle] using dle_refl true M
    · exact h
  rcases le_total 0 W with hW | hW
  · have inv := chain_inv true (sortPoints p) (sorted_asc p)
    obtain ⟨w, hw, hf⟩ := support_stack true q U W (by simpa using hW) m
      (by simpa [dle] using hmq) (chain (sortPoints p)) (inv.left q hqs)
      (by rw [inv.bot, hm]) M (by rw [inv.top, hM]) (by simpa [dle] using hqM)
    exact ⟨w, mem_hull_of_mem_lower p hw, hf⟩
  · have inv := chain_inv false (sortPoints p).reverse (sorted_desc p)
    obtain ⟨w, hw, hf⟩ := support_stack false q U W (by simpa using hW) M
      (by simpa [dle] using hqM) (chain (sortPoints p).reverse)
      (inv.left q (List.mem_reverse.2 hqs))
      (by rw [inv.bot, List.head?_reverse, hM]) m
      (by rw [inv.top, List.getLast?_reverse, hm]) (by simpa [dle] using hmq)
    exact ⟨w, mem_hull_of_mem_upper p hw, hf⟩

/-- An entry of a sweep's stack lies on a supporting line of the input: some direction
`(U, W) ≠ (0, 0)` has no input point below it. -/
theorem boundary_chain (σ : Bool) (S : List (Point T)) (hS : S.Pairwise (dle σ))
    (v : Point T) (hv : v ∈ chain S) :
    ∃ U W : T, (U ≠ 0 ∨ W ≠ 0) ∧ ∀ q ∈ S, U * v.x + W * v.y ≤ U * q.x + W * q.y := by
  have inv := chain_inv σ S hS
  rcases boundary_stack (chain S) inv.turns v hv with hb | ⟨a, hne, hleft⟩
  · rw [inv.bot] at hb
    cases σ
    · refine ⟨-1, 0, Or.inl (by simp), ?_⟩
      intro q hq
      rcases pairwise_head hS hb q hq with h | h
      · rw [h]
      · simp only [dle, Bool.false_eq_true, if_false, lex_iff] at h
        rcases h with h | ⟨h, -⟩ <;> linarith
    · refine ⟨1, 0, Or.inl (by simp), ?_⟩
      intro q hq
      rcases pairwise_head hS hb q hq with h | h
      · rw [h]
      · simp only [dle, if_true, lex_iff] at h
        rcases h with h | ⟨h, -⟩ <;> linarith
  · refine ⟨a.y - v.y, v.x - a.x, ?_, ?_⟩
    · by_contra hc
      push_neg at hc
      apply hne
      obtain ⟨ax, ay⟩ := a
      obtain ⟨vx, vy⟩ := v
      simp only [Point.mk.injEq] at hc ⊢
      constructor <;> linarith [hc.1, hc.2]
    · intro q hq
      have h := hleft q (inv.left q hq)
      simp only [cross] at h
      linarith

/-- No emitted point is an interior point of the hull of the input: through every emitted
point there is a line with no input point strictly on one side. -/
theorem boundary_hull (p : List (Point T)) (v : Point T) (hv : v ∈ convex_hull p) :
    ∃ U W : T, (U ≠ 0 ∨ W ≠ 0) ∧ ∀ q ∈ p, U * v.x + W * v.y ≤ U * q.x + W * q.y := by
  rw [convex_hull_eq, List.mem_reverse, List.mem_append] at hv
  rcases hv with hv | hv
  · obtain ⟨U, W, h0, h⟩ := boundary_chain false (sortPoints p).reverse (sorted_desc p) v hv
    exact ⟨U, W, h0, fun q hq => h q (List.mem_reverse.2 (mem_sortPoints.2 hq))⟩
  · obtain ⟨U, W, h0, h⟩ := boundary_chain true (sortPoints p) (sorted_asc p) v
      (List.mem_of_mem_tail hv)
    exact ⟨U, W, h0, fun q hq => h q (mem_sortPoints.2 hq)⟩

/-- C1. For two or more input points the emitted sequence is the convex hull of the input.
It is not empty (`k ≥ 3`, closing point included) and every emitted point is an input point.
Every input point `q` is on or to the left of every emitted directed edge `h[i] → h[i+1]`, and
no line separates `q` from the emitted points (in every direction some emitted point is at
most as high as `q`), so the input lies in the convex hull of the emitted points. No interior
point is emitted: through every emitted point there is a line with no input point strictly on
one side. Every vertex of the input, that is every input point that is the only lowest input
point in some direction, is emitted. -/
theorem convex_hull_encloses (p : List (Point T)) (hn : 2 ≤ p.length) :
    (∀ v ∈ convex_hull p, v ∈ p)
    ∧ (∀ q ∈ p, ∀ (i : Nat) (hi : i + 1 < (convex_hull p).length),
        0 ≤ cross ((convex_hull p)[i]) ((convex_hull p)[i + 1]) q)
    ∧ 3 ≤ (convex_hull p).length
    ∧ (∀ q ∈ p, ∀ U W : T, ∃ w ∈ convex_hull p, U * w.x + W * w.y ≤ U * q.x + W * q.y)
    ∧ (∀ v ∈ convex_hull p, ∃ U W : T, (U ≠ 0 ∨ W ≠ 0)
        ∧ ∀ q ∈ p, U * v.x + W * v.y ≤ U * q.x + W * q.y)
    ∧ (∀ v ∈ p, (∃ U W : T, ∀ q ∈ p, q ≠ v → U * v.x + W * v.y < U * q.x + W * q.y)
        → v ∈ convex_hull p) := by
  have hmem : ∀ v ∈ convex_hull p, v ∈ p := by
    intro v hv
    rw [convex_hull_eq] at hv
    exact mem_stack p (List.mem_reverse.1 hv)
  refine ⟨hmem, leftOf_hull p, hull_length p hn, fun q hq U W => support_hull p q hq U W,
    boundary_hull p, ?_⟩
  rintro v hv ⟨U, W, hex⟩
  obtain ⟨w, hw, hf⟩ := support_hull p v hv U W
  by_cases e : w = v
  · rw [← e]
    exact hw
  · exact absurd (hex w (hmem w hw) e) (not_lt.mpr hf)

end HullSupport

/-- C1 at the example of the spec: the square with its centre emits the four corners in
order and the first corner again, `k = 5`; the centre `(2, 2)` is not emitted. -/
theorem convex_hull_encloses_witness :
    2 ≤ squarePts.length ∧
    convex_hull squarePts = [⟨0, 0⟩, ⟨4, 0⟩, ⟨4, 4⟩, ⟨0, 4⟩, ⟨0, 0⟩] ∧
    (convex_hull squarePts).length = 5 ∧
    (⟨2, 2⟩ : Point ℤ) ∉ convex_hull squarePts ∧
    ((∀ v ∈ convex_hull squarePts, v ∈ squarePts)
      ∧ (∀ q ∈ squarePts, ∀ (i : Nat) (hi : i + 1 < (convex_hull squarePts).length),
          0 ≤ Point.cross ((convex_hull squarePts)[i]) ((convex_hull squarePts)[i + 1]) q)
      ∧ 3 ≤ (convex_hull squarePts).length
      ∧ (∀ q ∈ squarePts, ∀ U W : ℤ, ∃ w ∈ convex_hull squarePts,
          U * w.x + W * w.y ≤ U * q.x + W * q.y)
      ∧ (∀ v ∈ convex_hull squarePts, ∃ U W : ℤ, (U ≠ 0 ∨ W ≠ 0)
          ∧ ∀ q ∈ squarePts, U * v.x + W * v.y ≤ U * q.x + W * q.y)
      ∧ (∀ v ∈ squarePts,
          (∃ U W : ℤ, ∀ q ∈ squarePts, q ≠ v → U * v.x + W * v.y < U * q.x + W * q.y)
          → v ∈ convex_hull squarePts)) :=
  ⟨by decide, by decide, by decide, by decide, convex_hull_encloses squarePts (by decide)⟩


/-! ## Strict convexity of the emitted polygon -/

section HullStrict
variable {T : Type} [LinearOrderedCommRing T]
open Point

theorem dle_not (σ : Bool) (a b : Point T) : dle (!σ) a b ↔ dle σ b a := by
  cases σ <;> simp [dle]

theorem pairwise_reverse_dle (σ : Bool) {S : List (Point T)} (hS : S.Pairwise (dle σ)) :
    S.reverse.Pairwise (dle (!σ)) := by
  rw [List.pairwise_reverse]
  exact hS.imp (fun h => (dle_not σ _ _).2 h)

theorem all_eq_of_head_eq_last (σ : Bool) {S : List (Point T)} (hS : S.Pairwise (dle σ))
    {a : Point T} (hh : S.head? = some a) (hl : S.getLast? = some a) : ∀ r ∈ S, r = a := by
  intro r hr
  rcases pairwise_head hS hh r hr with h | h
  · exact h
  · rcases pairwise_getLast hS hl r hr with h2 | h2
    · exact h2
    · exact dle_antisymm h2 h

theorem NonCollinear.not_all_eq {S : List (Point T)} (h : NonCollinear S) (a : Point T) :
    ¬ ∀ r ∈ S, r = a := by
  intro hall
  obtain ⟨x, hx, y, hy, z, hz, hne⟩ := h
  rw [hall x hx, hall y hy, hall z hz, cross_self_right] at hne
  exact hne rfl

theorem chain_stack_sorted (σ : Bool) {S : List (Point T)} (hS : S.Pairwise (dle σ)) :
    (chain S).Pairwise (fun u v => dle σ v u) :=
  List.pairwise_reverse.1 (hS.sublist (chain_inv σ S hS).sub)

/-- The two topmost entries of the stack after a sweep are distinct, when the input is not
collinear. -/
theorem chain_top_ne (σ : Bool) {S : List (Point T)} (hS : S.Pairwise (dle σ))
    (hnc : ∀ a, ¬ ∀ r ∈ S, r = a) {c l : Point T} {R : List (Point T)}
    (hlo : chain S = c :: l :: R) : l ≠ c := by
  have inv := chain_inv σ S hS
  rw [hlo] at inv
  intro hlc
  subst hlc
  cases R with
  | nil =>
    have hb := inv.bot
    have ht := inv.top
    simp only [List.getLast?_cons_cons, List.getLast?_singleton, List.head?_cons] at hb ht
    exact hnc l (all_eq_of_head_eq_last σ hS hb.symm ht.symm)
  | cons l2 R =>
    have := inv.turns.1
    rw [cross_self_right] at this
    exact lt_irrefl _ this

/-- The two bottom entries of the stack after a sweep are distinct, when the input is not
collinear. -/
theorem chain_bot_ne (σ : Bool) {S : List (Point T)} (hS : S.Pairwise (dle σ))
    (hnc : ∀ a, ¬ ∀ r ∈ S, r = a) {x c : Point T} {U : List (Point T)}
    (hup : chain S = U ++ [x, c]) : x ≠ c := by
  have inv := chain_inv σ S hS
  rw [hup] at inv
  intro hxc
  subst hxc
  induction U using List.reverseRecOn with
  | nil =>
    have hb := inv.bot
    have ht := inv.top
    simp only [List.nil_append, List.getLast?_cons_cons, List.getLast?_singleton,
      List.head?_cons] at hb ht
    exact hnc x (all_eq_of_head_eq_last σ hS hb.symm ht.symm)
  | append_singleton U y _ =>
    have : Turns [y, x, x] := inv.turns.turns_suffix (by simp)
    have := this.1
    rw [cross_self_left] at this
    exact lt_irrefl _ this

/-- At the point where the two sweeps meet the polygon turns strictly left. -/
theorem junction (σ : Bool) {S : List (Point T)} (hS : S.Pairwise (dle σ))
    (hnc : NonCollinear S) {c l x : Point T} {R U : List (Point T)}
    (hlo : chain S = c :: l :: R) (hup : chain S.reverse = U ++ [x, c]) :
    0 < cross l c x := by
  have hS2 := pairwise_reverse_dle σ hS
  have hnc2 : NonCollinear S.reverse := by
    obtain ⟨a, ha, b, hb, d, hd, h⟩ := hnc
    exact ⟨a, List.mem_reverse.2 ha, b, List.mem_reverse.2 hb, d, List.mem_reverse.2 hd, h⟩
  have invlo := chain_inv σ S hS
  have invup := chain_inv (!σ) S.reverse hS2
  have hne : l ≠ c := chain_top_ne σ hS hnc.not_all_eq hlo
  have hne2 : x ≠ c := chain_bot_ne (!σ) hS2 hnc2.not_all_eq hup
  have hlc : dle σ l c := by
    have := chain_stack_sorted σ hS
    rw [hlo] at this
    exact (List.pairwise_cons.1 this).1 l (by simp)
  have hxc : dle σ x c := by
    have := chain_stack_sorted (!σ) hS2
    rw [hup] at this
    have h2 : [x, c].Pairwise (fun u v => dle (!σ) v u) :=
      this.sublist (List.sublist_append_right U [x, c])
    exact (dle_not σ c x).1 ((List.pairwise_cons.1 h2).1 c (by simp))
  rw [hlo] at invlo
  rw [hup] at invup
  have hxS : x ∈ S := by
    have := invup.sub.subset (List.mem_reverse.2 (by simp : x ∈ U ++ [x, c]))
    exact List.mem_reverse.1 this
  rcases lt_or_eq_of_le (invlo.left x hxS).1 with h | h
  · exact h
  · exfalso
    have hline : ∀ r ∈ S, cross l c r = 0 := by
      intro r hr
      have h1 := (invlo.left r hr).1
      have h2 : LeftOf r [x, c] := (invup.left r (List.mem_reverse.2 hr)).left_suffix (by simp)
      exact cross_junction σ l c x r hlc hne hxc hne2 h.symm h1 h2.1
    obtain ⟨a, ha, b, hb, d, hd, habd⟩ := hnc
    exact habd (cross_of_line l c a b d hne (hline a ha) (hline b hb) (hline d hd))

theorem Turns.turns_append {c : Point T} {R : List (Point T)} :
    ∀ U : List (Point T), Turns (U ++ [c]) → Turns (c :: R) →
      (∀ x l, U.getLast? = some x → R.head? = some l → 0 < cross l c x) →
      Turns (U ++ c :: R) := by
  intro U
  induction U with
  | nil => intro _ h _; exact h
  | cons x U ih =>
    intro h1 h2 hj
    cases U with
    | nil =>
      cases R with
      | nil => trivial
      | cons l R => exact ⟨hj x l rfl rfl, h2⟩
    | cons y U =>
      have ih2 := ih h1.turns_tail h2 (fun x l hx hl => hj x l (by simpa using hx) hl)
      cases U with
      | nil => exact ⟨h1.1, ih2⟩
      | cons z U => exact ⟨h1.1, ih2⟩

theorem Turns.turns_getElem :
    ∀ (s : List (Point T)), Turns s →
      ∀ (i : Nat) (hi : i + 2 < s.length), 0 < cross s[i + 2] s[i + 1] s[i] := by
  intro s
  induction s with
  | nil => intro _ i hi; simp at hi
  | cons c s ih =>
    intro h i hi
    match s, h, hi, ih with
    | [], _, hi, _ => simp at hi
    | [_], _, hi, _ => simp at hi
    | b :: a :: rest, h, hi, ih =>
      cases i with
      | zero => exact h.1
      | succ i =>
        have := ih h.2 i (by simpa using hi)
        simpa using this

theorem exists_last_two {α : Type} (s : List α) (h : 2 ≤ s.length) :
    ∃ U x c, s = U ++ [x, c] := by
  induction s using List.reverseRecOn with
  | nil => simp at h
  | append_singleton s c _ =>
    induction s using List.reverseRecOn with
    | nil => simp at h
    | append_singleton s x _ => exact ⟨s, x, c, by simp⟩

end HullStrict

section HullStrict2
variable {T : Type} [LinearOrderedCommRing T]
open Point

theorem NonCollinear.length {S : List (Point T)} (h : NonCollinear S) : 2 ≤ S.length := by
  match S, h with
  | [], h =>
    obtain ⟨x, hx, _⟩ := h
    simp at hx
  | [a], h => exact absurd (by simp) (h.not_all_eq a)
  | _ :: _ :: _, _ => simp

theorem NonCollinear.sortPoints {p : List (Point T)} (h : NonCollinear p) :
    NonCollinear (sortPoints p) := by
  obtain ⟨a, ha, b, hb, d, hd, hh⟩ := h
  exact ⟨a, mem_sortPoints.2 ha, b, mem_sortPoints.2 hb, d, mem_sortPoints.2 hd, hh⟩

theorem NonCollinear.reverse {S : List (Point T)} (h : NonCollinear S) :
    NonCollinear S.reverse := by
  obtain ⟨a, ha, b, hb, d, hd, hh⟩ := h
  exact ⟨a, List.mem_reverse.2 ha, b, List.mem_reverse.2 hb, d, List.mem_reverse.2 hd, hh⟩

/-- The stacks of the two sweeps, taken apart at both ends. -/
theorem sweeps_shape (p : List (Point T)) (hn : 2 ≤ p.length) :
    ∃ (a c l x l1 ur : Point T) (R U R1 U1 : List (Point T)),
      chain (sortPoints p) = c :: l :: R ∧ chain (sortPoints p) = U1 ++ [l1, a] ∧
      chain (sortPoints p).reverse = a :: ur :: R1 ∧
      chain (sortPoints p).reverse = U ++ [x, c] := by
  have hlo := chain_inv true (sortPoints p) (sorted_asc p)
  have hup := chain_inv false (sortPoints p).reverse (sorted_desc p)
  have hlen : 2 ≤ (sortPoints p).length := by rw [length_sortPoints]; exact hn
  have hlo2 := chain_length_two hlen
  have hup2 : 2 ≤ (chain (sortPoints p).reverse).length :=
    chain_length_two (by simpa using hlen)
  obtain ⟨U1, l1, a, h1⟩ := exists_last_two _ hlo2
  obtain ⟨U, x, c, h2⟩ := exists_last_two _ hup2
  have hb := hlo.bot
  have ht := hlo.top
  have hb2 := hup.bot
  have ht2 := hup.top
  rw [List.head?_reverse] at hb2
  rw [List.getLast?_reverse] at ht2
  match hlo' : chain (sortPoints p), hlo2 with
  | c' :: l :: R, _ =>
    match hup' : chain (sortPoints p).reverse, hup2 with
    | a' :: ur :: R1, _ =>
      rw [hlo'] at h1 hb ht
      rw [hup'] at h2 hb2 ht2
      have hc : c' = c := by
        have e : (a' :: ur :: R1).getLast? = some c := by rw [h2]; simp
        rw [hb2, ← ht] at e
        simpa using e
      have ha : a' = a := by
        have e : (c' :: l :: R).getLast? = some a := by rw [h1]; simp
        rw [hb, ← ht2] at e
        simpa using e
      subst hc ha
      exact ⟨a', c', l, x, l1, ur, R, U, R1, U1, rfl, h1, rfl, h2⟩

/-- The stack of `convex_hull` before the final reversal turns strictly left throughout, when
the input is not collinear. -/
theorem turns_stack (p : List (Point T)) (hnc : NonCollinear p) :
    Turns (chain (sortPoints p).reverse ++ (chain (sortPoints p)).tail) := by
  have hlo := chain_inv true (sortPoints p) (sorted_asc p)
  have hup := chain_inv false (sortPoints p).reverse (sorted_desc p)
  obtain ⟨a, c, l, x, l1, ur, R, U, R1, U1, e1, _, _, e4⟩ := sweeps_shape p hnc.length
  have hj := junction true (sorted_asc p) hnc.sortPoints e1 e4
  have t1 := hlo.turns
  have t2 := hup.turns
  rw [e1] at t1 ⊢
  rw [e4] at t2 ⊢
  have := Turns.turns_append (U ++ [x]) (by simpa using t2) t1 (by
    intro x' l' hx hl
    simp only [List.getLast?_append, List.getLast?_singleton, Option.or_some,
      Option.some.injEq, List.head?_cons] at hx hl
    subst hx hl
    exact hj)
  simpa using this

/-- The closing turn of the emitted polygon, at the first emitted point. -/
theorem hull_wrap (p : List (Point T)) (hnc : NonCollinear p) :
    ∃ (a l1 ur : Point T) (Z W : List (Point T)),
      convex_hull p = a :: l1 :: Z ∧ convex_hull p = W ++ [ur, a] ∧ 0 < cross ur a l1 := by
  obtain ⟨a, c, l, x, l1, ur, R, U, R1, U1, e1, e2, e3, e4⟩ := sweeps_shape p hnc.length
  have hj := junction false (sorted_desc p) hnc.sortPoints.reverse e3
    (by rw [List.reverse_reverse]; exact e2)
  refine ⟨a, l1, ur, (U ++ [x] ++ U1).reverse, (R1 ++ (chain (sortPoints p)).tail).reverse,
    ?_, ?_, hj⟩
  · rw [convex_hull_eq, e4]
    have : (chain (sortPoints p)).tail = (U1 ++ [l1, a]).tail := by rw [e2]
    rw [this]
    have e5 : U1 ++ [l1, a] = c :: l :: R := by rw [← e2, e1]
    cases U1 with
    | nil =>
      simp only [List.nil_append, List.cons.injEq] at e5
      obtain ⟨rfl, rfl, rfl⟩ := e5
      simp
    | cons u U1 =>
      simp only [List.cons_append, List.cons.injEq] at e5
      obtain ⟨rfl, e5⟩ := e5
      simp
  · rw [convex_hull_eq, e3]
    simp

end HullStrict2

section HullNodup
variable {T : Type} [LinearOrderedCommRing T]
open Point

theorem turns_chain_ne :
    ∀ (s : List (Point T)) (x y z : Point T), Turns (x :: y :: z :: s) →
      List.Chain' (fun u v => u ≠ v) (x :: y :: z :: s) := by
  intro s
  induction s with
  | nil =>
    intro x y z h
    have h1 := h.1
    refine List.chain'_cons.2 ⟨?_, List.chain'_cons.2 ⟨?_, List.chain'_singleton z⟩⟩
    · rintro rfl
      rw [cross_self_right] at h1
      exact lt_irrefl _ h1
    · rintro rfl
      rw [cross_self_left] at h1
      exact lt_irrefl _ h1
  | cons w s ih =>
    intro x y z h
    have h1 := h.1
    refine List.chain'_cons.2 ⟨?_, ih y z w h.2⟩
    rintro rfl
    rw [cross_self_right] at h1
    exact lt_irrefl _ h1

theorem nodup_of_sorted_chain_ne (σ : Bool) :
    ∀ s : List (Point T), s.Pairwise (fun u v => dle σ v u) →
      List.Chain' (fun u v => u ≠ v) s → s.Nodup := by
  intro s
  induction s with
  | nil => intro _ _; exact List.nodup_nil
  | cons x s ih =>
    intro hs hc
    have hs' := List.pairwise_cons.1 hs
    refine List.nodup_cons.2 ⟨?_, ih hs'.2 hc.tail⟩
    intro hx
    cases s with
    | nil => simp at hx
    | cons y s =>
      have hxy : x ≠ y := (List.chain'_cons.1 hc).1
      rcases List.mem_cons.1 hx with h | h
      · exact hxy h
      · have h1 : dle σ y x := hs'.1 y (by simp)
        have h2 : dle σ x y := (List.pairwise_cons.1 hs'.2).1 x h
        exact hxy (dle_antisymm h2 h1)

/-- The stack after a sweep over a non-collinear input has no repeated entry. -/
theorem chain_nodup (σ : Bool) {S : List (Point T)} (hS : S.Pairwise (dle σ))
    (hnc : ∀ a, ¬ ∀ r ∈ S, r = a) : (chain S).Nodup := by
  refine nodup_of_sorted_chain_ne σ _ (chain_stack_sorted σ hS) ?_
  have inv := chain_inv σ S hS
  match hc : chain S, inv.turns with
  | [], _ => exact List.chain'_nil
  | [_], _ => exact List.chain'_singleton _
  | [c, l], _ =>
    refine List.chain'_cons.2 ⟨?_, List.chain'_singleton _⟩
    exact fun h => chain_top_ne σ hS hnc hc h.symm
  | x :: y :: z :: s, ht => exact turns_chain_ne s x y z ht

theorem exists_interior {α : Type} :
    ∀ (s : List α) (v : α), v ∈ s → s.head? ≠ some v → s.getLast? ≠ some v →
      ∃ X y z Y, s = X ++ y :: v :: z :: Y := by
  intro s
  induction s with
  | nil => intro v hv; simp at hv
  | cons x s ih =>
    intro v hv hh hl
    have hxv : v ≠ x := fun h => hh (by simp [h])
    have hv' : v ∈ s := by
      rcases List.mem_cons.1 hv with h | h
      · exact absurd h hxv
      · exact h
    cases s with
    | nil => simp at hv'
    | cons x2 s =>
      by_cases h2 : v = x2
      · subst h2
        cases s with
        | nil => simp at hl
        | cons z Y => exact ⟨[], x, z, Y, rfl⟩
      · have hl' : (x2 :: s).getLast? ≠ some v := by
          rw [List.getLast?_cons_cons] at hl
          exact hl
        obtain ⟨X, y, z, Y, e⟩ := ih v hv' (by simpa using fun h => h2 h.symm) hl'
        exact ⟨x :: X, y, z, Y, by rw [e]; rfl⟩

namespace Point

/-- A point cannot be an inner vertex of both sweeps: `y` follows `v` and `y'` precedes it,
each points along the other's edge at `v`, and `z` would be on the wrong side. -/
theorem cross_both_sweeps (v y y' z : Point T) (hvy : dle true v y) (hne : v ≠ y)
    (hyv : dle true y' v) (hne2 : y' ≠ v) (h1 : 0 ≤ cross v y y') (h2 : 0 ≤ cross v y' y)
    (h3 : 0 ≤ cross v y' z) (h4 : 0 < cross z v y) : False := by
  have hB := dle_ne true hvy hne
  have hD := dle_ne true hyv hne2
  simp only [if_true] at hB hD
  unfold cross at *
  have := junction_aux (v.x - y.x) (v.y - y.y) (y'.x - v.x) (y'.y - v.y) (z.x - v.x)
    (z.y - v.y) hB hD (by linarith) (by linarith) (by linarith)
  linarith

end Point

end HullNodup

section HullStrict3
variable {T : Type} [LinearOrderedCommRing T]
open Point

theorem LeftOf.left_interior {r v y z : Point T} {X Y : List (Point T)}
    (h : LeftOf r (X ++ y :: v :: z :: Y)) : 0 ≤ cross v y r ∧ 0 ≤ cross z v r := by
  have h2 : LeftOf r (y :: v :: z :: Y) := h.left_suffix (List.suffix_append X _)
  exact ⟨h2.1, h2.2.1⟩

theorem Turns.turns_interior {v y z : Point T} {X Y : List (Point T)}
    (h : Turns (X ++ y :: v :: z :: Y)) : 0 < cross z v y := by
  have h2 : Turns (y :: v :: z :: Y) := h.turns_suffix (List.suffix_append X _)
  exact h2.1

/-- Apart from the closing point, no point is on the stack of `convex_hull` twice. -/
theorem stack_tail_nodup (p : List (Point T)) (hnc : NonCollinear p) :
    (chain (sortPoints p).reverse ++ (chain (sortPoints p)).tail).tail.Nodup := by
  have hlo := chain_inv true (sortPoints p) (sorted_asc p)
  have hup := chain_inv false (sortPoints p).reverse (sorted_desc p)
  have nlo := chain_nodup true (sorted_asc p) hnc.sortPoints.not_all_eq
  have nup := chain_nodup false (sorted_desc p) hnc.sortPoints.reverse.not_all_eq
  have slo := chain_stack_sorted true (sorted_asc p)
  have sup := chain_stack_sorted false (sorted_desc p)
  obtain ⟨a, c, l, x, l1, ur, R, U, R1, U1, e1, e2, e3, e4⟩ := sweeps_shape p hnc.length
  have key : ∀ v, v ∈ ur :: R1 → v ∈ l :: R → False := by
    intro v hv1 hv2
    have hva : v ≠ a := by
      rintro rfl
      rw [e3] at nup
      exact (List.nodup_cons.1 nup).1 hv1
    have hvc : v ≠ c := by
      rintro rfl
      rw [e1] at nlo
      exact (List.nodup_cons.1 nlo).1 hv2
    have m1 : v ∈ chain (sortPoints p) := by rw [e1]; exact List.mem_cons_of_mem _ hv2
    have m2 : v ∈ chain (sortPoints p).reverse := by rw [e3]; exact List.mem_cons_of_mem _ hv1
    obtain ⟨X, y, z, Y, d1⟩ := exists_interior _ v m1
      (by rw [e1]; simpa using fun h => hvc h.symm)
      (by rw [e2]; simpa using fun h => hva h.symm)
    obtain ⟨X', y', z', Y', d2⟩ := exists_interior _ v m2
      (by rw [e3]; simpa using fun h => hva h.symm)
      (by rw [e4]; simpa using fun h => hvc h.symm)
    rw [d1] at hlo nlo slo
    rw [d2] at hup nup sup
    have my : y ∈ sortPoints p := hlo.sub.subset (List.mem_reverse.2 (by simp))
    have mz : z ∈ sortPoints p := hlo.sub.subset (List.mem_reverse.2 (by simp))
    have my' : y' ∈ sortPoints p :=
      List.mem_reverse.1 (hup.sub.subset (List.mem_reverse.2 (by simp)))
    have s1 : (y :: v :: z :: Y).Pairwise (fun u w => dle true w u) :=
      slo.sublist (List.sublist_append_right X _)
    have s2 : (y' :: v :: z' :: Y').Pairwise (fun u w => dle false w u) :=
      sup.sublist (List.sublist_append_right X' _)
    have n1 : (y :: v :: z :: Y).Nodup := nlo.sublist (List.sublist_append_right X _)
    have n2 : (y' :: v :: z' :: Y').Nodup := nup.sublist (List.sublist_append_right X' _)
    have hvy : dle true v y := (List.pairwise_cons.1 s1).1 v (by simp)
    have hyv : dle true y' v := by
      have := (List.pairwise_cons.1 s2).1 v (by simp)
      simpa [dle] using this
    have hne : v ≠ y := fun h => (List.nodup_cons.1 n1).1 (by simp [h])
    have hne2 : y' ≠ v := fun h => (List.nodup_cons.1 n2).1 (by simp [h])
    exact cross_both_sweeps v y y' z hvy hne hyv hne2 (hlo.left y' my').left_interior.1
      (hup.left y (List.mem_reverse.2 my)).left_interior.1
      (hup.left z (List.mem_reverse.2 mz)).left_interior.1 hlo.turns.turns_interior
  rw [e3, e1]
  simp only [List.cons_append, List.tail_cons]
  rw [e3] at nup
  rw [e1] at nlo
  exact List.nodup_append.2 ⟨(List.nodup_cons.1 nup).2, (List.nodup_cons.1 nlo).2,
    fun v h1 h2 => key v h1 h2⟩

theorem getElem_zero_of_eq {α : Type} {h : List α} {a : α} {t : List α} (e : h = a :: t)
    (hi : 0 < h.length) : h[0] = a := by
  subst e; rfl

theorem getElem_one_of_eq {α : Type} {h : List α} {a b : α} {t : List α}
    (e : h = a :: b :: t) (hi : 1 < h.length) : h[1] = b := by
  subst e; rfl

theorem getElem_penult_of_eq {α : Type} {h : List α} {u a : α} {W : List α}
    (e : h = W ++ [u, a]) (hi : h.length - 2 < h.length) : h[h.length - 2] = u := by
  subst e
  simp [List.getElem_append_right]

theorem turns_hull (p : List (Point T)) (hnc : NonCollinear p) (i : Nat)
    (hi : i + 2 < (convex_hull p).length) :
    0 < cross ((convex_hull p)[i]) ((convex_hull p)[i + 1]) ((convex_hull p)[i + 2]) := by
  have key := turns_stack p hnc
  have heq := convex_hull_eq p
  generalize chain (sortPoints p).reverse ++ (chain (sortPoints p)).tail = s at *
  generalize convex_hull p = h at *
  subst heq
  simp only [List.length_reverse] at hi
  have := Turns.turns_getElem s key (s.length - 3 - i) (by omega)
  simp only [List.getElem_reverse]
  have e1 : s.length - 1 - i = s.length - 3 - i + 2 := by omega
  have e2 : s.length - 1 - (i + 1) = s.length - 3 - i + 1 := by omega
  have e3 : s.length - 1 - (i + 2) = s.length - 3 - i := by omega
  simp only [e1, e2, e3]
  exact this

/-- C3. When the input contains three points that are not collinear, every three
consecutive emitted points turn strictly left, so do the last but one, the first and the
second emitted point (the closing turn), and apart from the closing point no point is
emitted twice. -/
theorem convex_hull_strict (p : List (Point T))
    (hnc : ∃ a ∈ p, ∃ b ∈ p, ∃ c ∈ p, cross a b c ≠ 0) :
    (∀ (i : Nat) (hi : i + 2 < (convex_hull p).length),
      0 < cross ((convex_hull p)[i]) ((convex_hull p)[i + 1]) ((convex_hull p)[i + 2])) ∧
    (∃ hk : 3 ≤ (convex_hull p).length,
      (0 : T) < cross ((convex_hull p)[(convex_hull p).length - 2]) ((convex_hull p)[0])
        ((convex_hull p)[1])) ∧
    (convex_hull p).dropLast.Nodup := by
  have hnc' : NonCollinear p := hnc
  refine ⟨turns_hull p hnc', ⟨hull_length p hnc'.length, ?_⟩, ?_⟩
  · obtain ⟨a, l1, ur, Z, W, e1, e2, hw⟩ := hull_wrap p hnc'
    rw [getElem_zero_of_eq e1, getElem_one_of_eq e1, getElem_penult_of_eq e2]
    exact hw
  · rw [convex_hull_eq, List.dropLast_reverse, List.nodup_reverse]
    exact stack_tail_nodup p hnc'

end HullStrict3

/-! ## Idempotence of `convex_hull` -/

section HullIdem
variable {T : Type} [LinearOrderedCommRing T]
open Point

namespace Point

/-- Walking down a stack from `x`: if `y'` lies on the line through `x` and `y` strictly
beyond `y`, then a strict left turn `z, y, x` puts `y'` strictly right of `z → y`. -/
theorem cross_beyond (σ : Bool) (y' y x z : Point T) (h1 : dle σ y' y) (hne1 : y' ≠ y)
    (h2 : dle σ y x) (hne2 : y ≠ x) (h0 : cross y x y' = 0) (h3 : 0 < cross z y x) :
    cross z y y' < 0 := by
  have hA := dle_ne σ h2 hne2
  have hB := dle_ne σ h1 hne1
  by_contra hcon
  rw [not_lt] at hcon
  unfold cross at *
  cases σ <;> simp only [if_true, if_false, Bool.false_eq_true] at hA hB
  · have := junction_aux (x.x - y.x) (x.y - y.y) (y.x - y'.x) (y.y - y'.y) (y.x - z.x)
      (y.y - z.y) hA hB (by linarith) (by linarith) (by linarith)
    linarith
  · have := junction_aux (y.x - x.x) (y.y - x.y) (y'.x - y.x) (y'.y - y.y) (z.x - y.x)
      (z.y - y.y) hA hB (by linarith) (by linarith) (by linarith)
    linarith

end Point

theorem StackOf.stack_tail {σ : Bool} {S : List (Point T)} {a x y : Point T} {t : List (Point T)}
    (h : StackOf σ S a (x :: y :: t)) : StackOf σ S a (y :: t) :=
  ⟨fun v hv => h.mem v (List.mem_cons_of_mem _ hv), (List.pairwise_cons.1 h.sorted).2,
    (List.nodup_cons.1 h.nodup).2, h.turns.turns_tail, fun r hr => (h.left r hr).left_tail,
    by have := h.bot; rwa [List.getLast?_cons_cons] at this⟩

/-- The second entries of two stacks with the same top cannot be ordered strictly. -/
theorem StackOf.next_not_before {σ : Bool} {S : List (Point T)} {a x y y' : Point T}
    {t t' : List (Point T)} (ha : ∀ r ∈ S, dle σ a r)
    (h : StackOf σ S a (x :: y :: t)) (h' : StackOf σ S a (x :: y' :: t'))
    (hyy : dle σ y' y) (hne : y' ≠ y) : False := by
  have my' : y' ∈ S := h'.mem y' (by simp)
  have my : y ∈ S := h.mem y (by simp)
  have e1 : 0 ≤ cross y x y' := (h.left y' my').1
  have e2 : 0 ≤ cross y' x y := (h'.left y my).1
  have e0 : cross y x y' = 0 := by
    rw [cross_swap y' x y] at e2
    linarith
  have hyx : dle σ y x := (List.pairwise_cons.1 h.sorted).1 y (by simp)
  have hnyx : y ≠ x := fun e => (List.nodup_cons.1 h.nodup).1 (by simp [e])
  cases t with
  | nil =>
    have hb := h.bot
    simp only [List.getLast?_cons_cons, List.getLast?_singleton, Option.some.injEq] at hb
    subst hb
    exact hne (dle_antisymm hyy (ha y' my'))
  | cons z t =>
    have e3 : 0 < cross z y x := h.turns.1
    have e4 : 0 ≤ cross z y y' := (h.left y' my').2.1
    have := cross_beyond σ y' y x z hyy hne hyx hnyx e0 e3
    linarith

/-- Two stacks with the same top that both have the characteristic properties are equal. -/
theorem StackOf.unique {σ : Bool} {S : List (Point T)} {a : Point T}
    (ha : ∀ r ∈ S, dle σ a r) :
    ∀ (s s' : List (Point T)) (x : Point T), StackOf σ S a (x :: s) → StackOf σ S a (x :: s') →
      s = s' := by
  intro s
  induction s with
  | nil =>
    intro s' x h h'
    cases s' with
    | nil => rfl
    | cons y' t' =>
      exfalso
      have hb := h.bot
      simp only [List.getLast?_singleton, Option.some.injEq] at hb
      subst hb
      have h1 : dle σ y' x := (List.pairwise_cons.1 h'.sorted).1 y' (by simp)
      have h2 : dle σ x y' := ha y' (h'.mem y' (by simp))
      exact (List.nodup_cons.1 h'.nodup).1 (by simp [dle_antisymm h2 h1])
  | cons y t ih =>
    intro s' x h h'
    cases s' with
    | nil =>
      exfalso
      have hb := h'.bot
      simp only [List.getLast?_singleton, Option.some.injEq] at hb
      subst hb
      have h1 : dle σ y x := (List.pairwise_cons.1 h.sorted).1 y (by simp)
      have h2 : dle σ x y := ha y (h.mem y (by simp))
      exact (List.nodup_cons.1 h.nodup).1 (by simp [dle_antisymm h2 h1])
    | cons y' t' =>
      have hy : y = y' := by
        by_contra hne
        rcases dle_total σ y' y with hd | hd
        · exact StackOf.next_not_before ha h h' hd (fun e => hne e.symm)
        · exact StackOf.next_not_before ha h' h hd hne
      subst hy
      rw [ih t' y h.stack_tail h'.stack_tail]

/-- The stack left by a sweep over a sorted list whose points are not all equal has the
characteristic properties. -/
theorem chain_stackOf (σ : Bool) {S : List (Point T)} (hS : S.Pairwise (dle σ))
    (hne : ∀ a, ¬ ∀ r ∈ S, r = a) {a : Point T} (ha : S.head? = some a) :
    StackOf σ S a (chain S) := by
  have inv := chain_inv σ S hS
  exact ⟨fun x hx => inv.sub.subset (List.mem_reverse.2 hx), chain_stack_sorted σ hS,
    chain_nodup σ hS hne, inv.turns, inv.left, by rw [inv.bot, ha]⟩

/-- A sweep over a sorted list is determined by the characteristic properties. -/
theorem chain_unique (σ : Bool) {S : List (Point T)} (hS : S.Pairwise (dle σ))
    (hne : ∀ a, ¬ ∀ r ∈ S, r = a) {a : Point T} (ha : S.head? = some a)
    {s : List (Point T)} (hs : StackOf σ S a s) (htop : s.head? = S.getLast?) :
    s = chain S := by
  have inv := chain_inv σ S hS
  have hc := chain_stackOf σ hS hne ha
  have ha' : ∀ r ∈ S, dle σ a r := by
    intro r hr
    rcases pairwise_head hS ha r hr with h | h
    · rw [h]; exact dle_refl σ a
    · exact h
  have htop2 := inv.top
  cases s with
  | nil =>
    have := hs.bot
    simp at this
  | cons x s =>
    cases hcs : chain S with
    | nil =>
      rw [hcs] at hc
      have := hc.bot
      simp at this
    | cons x' s' =>
      rw [hcs] at hc htop2
      have hx : x = x' := by
        have : some x = some x' := by
          rw [← List.head?_cons (a := x) (l := s), htop, ← htop2, List.head?_cons]
        exact Option.some.inj this
      subst hx
      rw [StackOf.unique ha' s s' x hs hc]

end HullIdem

section HullIdem2
variable {T : Type} [LinearOrderedCommRing T]
open Point

theorem StackOf.transfer {σ : Bool} {S S' : List (Point T)} {a : Point T}
    {s : List (Point T)} (h : StackOf σ S a s) (h1 : ∀ x ∈ s, x ∈ S')
    (h2 : ∀ r ∈ S', r ∈ S) : StackOf σ S' a s :=
  ⟨h1, h.sorted, h.nodup, h.turns, fun r hr => h.left r (h2 r hr), h.bot⟩

theorem sorted_head_eq (σ : Bool) {S : List (Point T)} (hS : S.Pairwise (dle σ))
    {a : Point T} (ha : a ∈ S) (hmin : ∀ r ∈ S, dle σ a r) : S.head? = some a := by
  cases S with
  | nil => simp at ha
  | cons m S =>
    have h1 : dle σ a m := hmin m (by simp)
    have h2 : dle σ m a := by
      rcases pairwise_head hS rfl a ha with h | h
      · rw [h]; exact dle_refl σ m
      · exact h
    rw [dle_antisymm h1 h2]
    rfl

theorem sorted_last_eq (σ : Bool) {S : List (Point T)} (hS : S.Pairwise (dle σ))
    {c : Point T} (hc : c ∈ S) (hmax : ∀ r ∈ S, dle σ r c) : S.getLast? = some c := by
  have := sorted_head_eq (!σ) (pairwise_reverse_dle σ hS) (List.mem_reverse.2 hc)
    (fun r hr => (dle_not σ c r).2 (hmax r (List.mem_reverse.1 hr)))
  rwa [List.head?_reverse] at this

theorem convex_hull_nil : convex_hull ([] : List (Point T)) = [] := by
  simp [convex_hull_eq, chain, sortPoints]

theorem convex_hull_singleton (a : Point T) : convex_hull [a] = [a] := by
  simp [convex_hull_eq, chain, sortPoints, hullStep, popWhile_nil]

theorem chain_all_eq (a : Point T) :
    ∀ S : List (Point T), (∀ r ∈ S, r = a) → 2 ≤ S.length → chain S = [a, a] := by
  intro S
  induction S using List.reverseRecOn with
  | nil => intro _ h; simp at h
  | append_singleton P q ih =>
    intro hall hlen
    have hq : q = a := hall q (by simp)
    subst hq
    rw [chain_append_singleton]
    by_cases hP : 2 ≤ P.length
    · rw [ih (fun r hr => hall r (List.mem_append_left _ hr)) hP, popWhile_cons_cons,
        if_pos ⟨by simp, by rw [cross_self_right]⟩, popWhile_single]
    · match P, hlen, hP, hall with
      | [x], _, _, hall =>
        have hx : x = q := hall x (by simp)
        subst hx
        simp [chain, hullStep, popWhile_nil, popWhile_single]
      | [], hlen, _, _ => simp at hlen
      | _ :: _ :: _, _, hP, _ => simp at hP

theorem convex_hull_all_eq (a : Point T) (p : List (Point T)) (hall : ∀ r ∈ p, r = a)
    (hlen : 2 ≤ p.length) : convex_hull p = [a, a, a] := by
  rw [convex_hull_eq]
  have h1 : ∀ r ∈ sortPoints p, r = a := fun r hr => hall r (mem_sortPoints.1 hr)
  have h2 : 2 ≤ (sortPoints p).length := by rw [length_sortPoints]; exact hlen
  rw [chain_all_eq a _ h1 h2,
    chain_all_eq a _ (fun r hr => h1 r (List.mem_reverse.1 hr)) (by simpa using h2)]
  rfl

/-- Running `convex_hull` on an emitted sequence whose points are not all equal gives the
same sequence again. -/
theorem convex_hull_idem_of_ne (p : List (Point T)) (hne : ∀ a, ¬ ∀ r ∈ p, r = a) :
    convex_hull (convex_hull p) = convex_hull p := by
  have hlen : 2 ≤ p.length := by
    match p, hne with
    | [], hne => exact absurd (by simp) (hne ⟨0, 0⟩)
    | [x], hne => exact absurd (by simp) (hne x)
    | _ :: _ :: _, _ => simp
  have hneS : ∀ a, ¬ ∀ r ∈ sortPoints p, r = a :=
    fun a hall => hne a (fun r hr => hall r (mem_sortPoints.2 hr))
  have hneR : ∀ a, ¬ ∀ r ∈ (sortPoints p).reverse, r = a :=
    fun a hall => hneS a (fun r hr => hall r (List.mem_reverse.2 hr))
  obtain ⟨a, c, l, x, l1, ur, R, U, R1, U1, e1, e2, e3, e4⟩ := sweeps_shape p hlen
  have invlo := chain_inv true (sortPoints p) (sorted_asc p)
  have invup := chain_inv false (sortPoints p).reverse (sorted_desc p)
  have hhead : (sortPoints p).head? = some a := by
    rw [← invlo.bot, e2]; simp
  have hlast : (sortPoints p).getLast? = some c := by
    rw [← invlo.top, e1]; rfl
  have hac : a ≠ c := by
    rintro rfl
    exact hneS a (all_eq_of_head_eq_last true (sorted_asc p) hhead hlast)
  have slo := chain_stackOf true (sorted_asc p) hneS hhead
  have sup := chain_stackOf false (sorted_desc p) hneR
    (by rw [List.head?_reverse]; exact hlast)
  have hmin : ∀ r ∈ sortPoints p, dle true a r := by
    intro r hr
    rcases pairwise_head (sorted_asc p) hhead r hr with h | h
    · rw [h]; exact dle_refl true a
    · exact h
  have hmax : ∀ r ∈ sortPoints p, dle true r c := by
    intro r hr
    rcases pairwise_getLast (sorted_asc p) hlast r hr with h | h
    · rw [h]; exact dle_refl true c
    · exact h
  -- membership in the emitted sequence
  have hsub : ∀ r ∈ sortPoints (convex_hull p), r ∈ sortPoints p := by
    intro r hr
    have := mem_sortPoints.1 hr
    rw [convex_hull_eq] at this
    exact mem_sortPoints.2 (mem_stack p (List.mem_reverse.1 this))
  have hup_mem : ∀ v ∈ chain (sortPoints p).reverse, v ∈ sortPoints (convex_hull p) := by
    intro v hv
    refine mem_sortPoints.2 ?_
    rw [convex_hull_eq]
    exact List.mem_reverse.2 (List.mem_append_left _ hv)
  have hlo_mem : ∀ v ∈ chain (sortPoints p), v ∈ sortPoints (convex_hull p) := by
    intro v hv
    rw [e1] at hv
    rcases List.mem_cons.1 hv with h | h
    · subst h
      exact hup_mem v (by rw [e4]; simp)
    · refine mem_sortPoints.2 ?_
      rw [convex_hull_eq, e1]
      exact List.mem_reverse.2 (List.mem_append_right _ h)
  have ha' : a ∈ sortPoints (convex_hull p) := hup_mem a (by rw [e3]; simp)
  have hc' : c ∈ sortPoints (convex_hull p) := hup_mem c (by rw [e4]; simp)
  have hS' := sorted_asc (convex_hull p)
  have hR' := sorted_desc (convex_hull p)
  have hhead' : (sortPoints (convex_hull p)).head? = some a :=
    sorted_head_eq true hS' ha' (fun r hr => hmin r (hsub r hr))
  have hlast' : (sortPoints (convex_hull p)).getLast? = some c :=
    sorted_last_eq true hS' hc' (fun r hr => hmax r (hsub r hr))
  have hne' : ∀ b, ¬ ∀ r ∈ sortPoints (convex_hull p), r = b :=
    fun b hall => hac ((hall a ha').trans (hall c hc').symm)
  have hneR' : ∀ b, ¬ ∀ r ∈ (sortPoints (convex_hull p)).reverse, r = b :=
    fun b hall => hne' b (fun r hr => hall r (List.mem_reverse.2 hr))
  have k1 : chain (sortPoints p) = chain (sortPoints (convex_hull p)) :=
    chain_unique true hS' hne' hhead' (slo.transfer hlo_mem hsub)
      (by rw [hlast', e1]; rfl)
  have k2 : chain (sortPoints p).reverse = chain (sortPoints (convex_hull p)).reverse :=
    chain_unique false hR' hneR' (by rw [List.head?_reverse]; exact hlast')
      (sup.transfer (fun v hv => List.mem_reverse.2 (hup_mem v hv))
        (fun r hr => List.mem_reverse.2 (hsub r (List.mem_reverse.1 hr))))
      (by rw [List.getLast?_reverse, hhead', e3]; rfl)
  rw [convex_hull_eq (convex_hull p), ← k1, ← k2, ← convex_hull_eq]

/-- In exact arithmetic, running `convex_hull` on its own output (closing point included)
emits the same points in the same order, and hence the same count. -/
theorem convex_hull_idem (p : List (Point T)) :
    convex_hull (convex_hull p) = convex_hull p ∧
      (convex_hull (convex_hull p)).length = (convex_hull p).length := by
  have key : convex_hull (convex_hull p) = convex_hull p := by
    by_cases hne : ∀ a, ¬ ∀ r ∈ p, r = a
    · exact convex_hull_idem_of_ne p hne
    · push_neg at hne
      obtain ⟨a, hall⟩ := hne
      match p, hall with
      | [], _ => rw [convex_hull_nil, convex_hull_nil]
      | [x], _ => rw [convex_hull_singleton, convex_hull_singleton]
      | x :: y :: q, hall =>
        rw [convex_hull_all_eq a _ hall (by simp),
          convex_hull_all_eq a [a, a, a] (by simp) (by simp)]
  exact ⟨key, by rw [key]⟩

end HullIdem2


/-! ## Idempotence, and where rounding breaks it -/

section HullDoubleThm

open Point

theorem dropBits_of_lt (f m : Nat) (h : m < 2 ^ 53) : dropBits f m = 0 := by
  cases f with
  | zero => rfl
  | succ k =>
    rw [dropBits, if_pos h]

/-- An integer below `2^53` in absolute value is a `double`: no rounding. -/
theorem roundDouble_of_lt (n : ℤ) (h : |n| < 2 ^ 53) : roundDouble n = n := by
  have hm : n.natAbs < 2 ^ 53 := by
    have : ((n.natAbs : ℕ) : ℤ) < 2 ^ 53 := by
      rw [Int.natCast_natAbs]
      exact h
    exact_mod_cast this
  unfold roundDouble
  simp only [dropBits_of_lt _ _ hm, pow_zero, Nat.div_one, Nat.mod_one, mul_zero, mul_one]
  have hc : ¬ (1 < 0 ∨ (0 = 1 ∧ n.natAbs % 2 = 1)) := by omega
  simp only [hc, if_false]
  split_ifs with hneg
  · omega
  · omega

/-- With all coordinates below `2^25` in absolute value every operation of `cross` is exact in
`double` arithmetic. -/
theorem crossD_eq_cross (o a b : Point ℤ)
    (ho : |o.x| < 2 ^ 25 ∧ |o.y| < 2 ^ 25) (ha : |a.x| < 2 ^ 25 ∧ |a.y| < 2 ^ 25)
    (hb : |b.x| < 2 ^ 25 ∧ |b.y| < 2 ^ 25) : crossD o a b = cross o a b := by
  obtain ⟨ox, oy⟩ := o
  obtain ⟨ax, ay⟩ := a
  obtain ⟨bx, bY⟩ := b
  simp only [abs_lt] at ho ha hb
  simp only [crossD, cross]
  have d1 : |ax - ox| < 2 ^ 26 := by rw [abs_lt]; constructor <;> linarith [ho.1.1, ho.1.2, ha.1.1, ha.1.2]
  have d2 : |bY - oy| < 2 ^ 26 := by rw [abs_lt]; constructor <;> linarith [ho.2.1, ho.2.2, hb.2.1, hb.2.2]
  have d3 : |ay - oy| < 2 ^ 26 := by rw [abs_lt]; constructor <;> linarith [ho.2.1, ho.2.2, ha.2.1, ha.2.2]
  have d4 : |bx - ox| < 2 ^ 26 := by rw [abs_lt]; constructor <;> linarith [ho.1.1, ho.1.2, hb.1.1, hb.1.2]
  have r1 := roundDouble_of_lt (ax - ox) (lt_trans d1 (by norm_num))
  have r2 := roundDouble_of_lt (bY - oy) (lt_trans d2 (by norm_num))
  have r3 := roundDouble_of_lt (ay - oy) (lt_trans d3 (by norm_num))
  have r4 := roundDouble_of_lt (bx - ox) (lt_trans d4 (by norm_num))
  rw [r1, r2, r3, r4]
  have p1 : |(ax - ox) * (bY - oy)| < 2 ^ 52 := by
    rw [abs_mul]
    calc |ax - ox| * |bY - oy| < 2 ^ 26 * 2 ^ 26 :=
          mul_lt_mul'' d1 d2 (abs_nonneg _) (abs_nonneg _)
      _ = 2 ^ 52 := by norm_num
  have p2 : |(ay - oy) * (bx - ox)| < 2 ^ 52 := by
    rw [abs_mul]
    calc |ay - oy| * |bx - ox| < 2 ^ 26 * 2 ^ 26 :=
          mul_lt_mul'' d3 d4 (abs_nonneg _) (abs_nonneg _)
      _ = 2 ^ 52 := by norm_num
  rw [roundDouble_of_lt _ (lt_trans p1 (by norm_num)), roundDouble_of_lt _ (lt_trans p2 (by norm_num))]
  apply roundDouble_of_lt
  rw [abs_lt] at p1 p2 ⊢
  constructor <;> linarith [p1.1, p1.2, p2.1, p2.2]

theorem popWhileD_eq (t : Nat) (q : Point ℤ) (hq : |q.x| < 2 ^ 25 ∧ |q.y| < 2 ^ 25) :
    ∀ s : List (Point ℤ), (∀ x ∈ s, |x.x| < 2 ^ 25 ∧ |x.y| < 2 ^ 25) →
      popWhileD t q s = popWhile t q s := by
  intro s
  induction s with
  | nil => intro _; simp [popWhileD, popWhile]
  | cons b rest ih =>
    intro hs
    cases rest with
    | nil => simp [popWhileD, popWhile]
    | cons a r =>
      rw [popWhileD, popWhile_cons_cons,
        crossD_eq_cross a b q (hs a (by simp)) (hs b (by simp)) hq,
        ih (fun x hx => hs x (List.mem_cons_of_mem b hx))]

theorem foldl_hullStepD_eq (t : Nat) (l : List (Point ℤ))
    (hl : ∀ x ∈ l, |x.x| < 2 ^ 25 ∧ |x.y| < 2 ^ 25) :
    ∀ s : List (Point ℤ), (∀ x ∈ s, |x.x| < 2 ^ 25 ∧ |x.y| < 2 ^ 25) →
      l.foldl (hullStepD t) s = l.foldl (hullStep t) s
      ∧ ∀ x ∈ l.foldl (hullStep t) s, |x.x| < 2 ^ 25 ∧ |x.y| < 2 ^ 25 := by
  induction l with
  | nil =>
    intro s hs
    exact ⟨rfl, hs⟩
  | cons q rest ih =>
    intro s hs
    have hq := hl q (List.mem_cons_self q rest)
    have e : hullStepD t s q = hullStep t s q := by
      rw [hullStepD, hullStep, popWhileD_eq t q hq s hs]
    have hs2 : ∀ x ∈ hullStep t s q, |x.x| < 2 ^ 25 ∧ |x.y| < 2 ^ 25 := by
      intro x hx
      rw [hullStep, List.mem_cons] at hx
      rcases hx with rfl | hx
      · exact hq
      · exact hs x ((popWhile_suffix t q s).subset hx)
    rw [List.foldl_cons, List.foldl_cons, e]
    exact ih (fun x hx => hl x (List.mem_cons_of_mem q hx)) _ hs2

/-- On integer coordinates below `2^25` in absolute value the program in `double` arithmetic
computes what the exact model computes. -/
theorem convex_hullD_eq (p : List (Point ℤ)) (hp : ∀ q ∈ p, |q.x| < 2 ^ 25 ∧ |q.y| < 2 ^ 25) :
    convex_hullD p = convex_hull p := by
  have hsp : ∀ x ∈ sortPoints p, |x.x| < 2 ^ 25 ∧ |x.y| < 2 ^ 25 :=
    fun x hx => hp x (mem_sortPoints.1 hx)
  obtain ⟨e1, b1⟩ := foldl_hullStepD_eq 2 (sortPoints p) hsp [] (by simp)
  have hrt : ∀ x ∈ (sortPoints p).reverse.tail, |x.x| < 2 ^ 25 ∧ |x.y| < 2 ^ 25 :=
    fun x hx => hsp x (List.mem_reverse.1 (List.mem_of_mem_tail hx))
  unfold convex_hullD convex_hull
  simp only
  rw [e1]
  rw [(foldl_hullStepD_eq _ (sortPoints p).reverse.tail hrt _ b1).1]

theorem small_of_mem_hull (p : List (Point ℤ))
    (hp : ∀ q ∈ p, |q.x| < 2 ^ 25 ∧ |q.y| < 2 ^ 25) :
    ∀ q ∈ convex_hull p, |q.x| < 2 ^ 25 ∧ |q.y| < 2 ^ 25 := by
  intro q hq
  rw [convex_hull_eq] at hq
  exact hp q (mem_stack p (List.mem_reverse.1 hq))

end HullDoubleThm

/-- C4 as stated fails in the `double` arithmetic of the program. On five integer points below
`2^30` the first run emits 5 points and the run on that output emits 4: the second run tests
`h[k-2].cross(h[k-1], p[i])` on the triple `(775931929, 727945517)`, `(626052302, 589239169)`,
`(164323509, 161931496)`, whose exact value is 7 and whose rounded value is 0, and drops
`(626052302, 589239169)`; in the first run the point `(365661538, 348260107)` shields it from
that test. -/
theorem convex_hullD_not_idempotent :
    (∀ q ∈ sliverPts, 0 ≤ q.x ∧ q.x < 2 ^ 30 ∧ 0 ≤ q.y ∧ q.y < 2 ^ 30)
    ∧ convex_hullD sliverPts = [⟨124955019, 125497862⟩, ⟨164323509, 161931496⟩,
        ⟨775931929, 727945517⟩, ⟨626052302, 589239169⟩, ⟨124955019, 125497862⟩]
    ∧ convex_hullD (convex_hullD sliverPts) = [⟨124955019, 125497862⟩,
        ⟨164323509, 161931496⟩, ⟨775931929, 727945517⟩, ⟨124955019, 125497862⟩]
    ∧ (convex_hullD sliverPts).length = 5
    ∧ (convex_hullD (convex_hullD sliverPts)).length = 4
    ∧ Point.crossD ⟨775931929, 727945517⟩ ⟨626052302, 589239169⟩ ⟨164323509, 161931496⟩ = 0
    ∧ Point.cross (⟨775931929, 727945517⟩ : Point ℤ) ⟨626052302, 589239169⟩
        ⟨164323509, 161931496⟩ = 7 := by
  refine ⟨by decide, by decide, by decide, by decide, by decide, by decide, by decide⟩

/-- C4 (amended). Where `Point::cross` is computed without rounding, running `convex_hull` on
its own output (closing point included) emits the same points in the same order, and hence the
same count: in exact arithmetic for every input `p`, and in the `double` arithmetic of the
program for every input `pz` whose coordinates are integers below `2^25` in absolute value,
on which the program computes exactly what the exact model computes. -/
theorem convex_hull_idempotent {T : Type} [LinearOrderedCommRing T] (p : List (Point T))
    (pz : List (Point ℤ)) (hz : ∀ q ∈ pz, |q.x| < 2 ^ 25 ∧ |q.y| < 2 ^ 25) :
    (convex_hull (convex_hull p) = convex_hull p ∧
      (convex_hull (convex_hull p)).length = (convex_hull p).length)
    ∧ convex_hullD pz = convex_hull pz
    ∧ convex_hullD (convex_hullD pz) = convex_hullD pz
    ∧ (convex_hullD (convex_hullD pz)).length = (convex_hullD pz).length := by
  have e1 := convex_hullD_eq pz hz
  have e2 : convex_hullD (convex_hullD pz) = convex_hullD pz := by
    rw [e1, convex_hullD_eq (convex_hull pz) (small_of_mem_hull pz hz)]
    exact (convex_hull_idem pz).1
  exact ⟨convex_hull_idem p, e1, e2, by rw [e2]⟩

/-- C4 at the example of the spec, in exact and in `double` arithmetic. -/
theorem convex_hull_idempotent_witness :
    (∀ q ∈ squarePts, |q.x| < 2 ^ 25 ∧ |q.y| < 2 ^ 25)
    ∧ convex_hullD squarePts = [⟨0, 0⟩, ⟨4, 0⟩, ⟨4, 4⟩, ⟨0, 4⟩, ⟨0, 0⟩]
    ∧ ((convex_hull (convex_hull diagonalPts) = convex_hull diagonalPts ∧
        (convex_hull (convex_hull diagonalPts)).length = (convex_hull diagonalPts).length)
      ∧ convex_hullD squarePts = convex_hull squarePts
      ∧ convex_hullD (convex_hullD squarePts) = convex_hullD squarePts
      ∧ (convex_hullD (convex_hullD squarePts)).length = (convex_hullD squarePts).length) :=
  ⟨by decide, by decide, convex_hull_idempotent diagonalPts squarePts (by decide)⟩


/-! ## The buffer-level function: every access is in range -/

section HullMem
variable {T : Type} [LinearOrderedCommRing T]
open Point

theorem getElem?_of_take_eq {α : Type} {buf L : List α} {k i : Nat} (h : buf.take k = L)
    (hi : i < k) : buf[i]? = L[i]? := by
  rw [← h, List.getElem?_take_of_lt hi]

theorem take_set_self {α : Type} (l : List α) (n : Nat) (a : α) :
    (l.set n a).take n = l.take n := by
  apply List.ext_getElem?
  intro i
  rw [List.getElem?_take, List.getElem?_take]
  split
  · next h' => rw [List.getElem?_set_ne (by omega)]
  · rfl

/-- The checked `while` loop follows the loop on the stack and never reads out of range, as
long as the bound `t` is at least 2. -/
theorem popLoop_spec (t : Nat) (ht : 2 ≤ t) (q : Point T) (buf : List (Point T)) :
    ∀ s : List (Point T), buf.take s.length = s.reverse →
      popLoop t q buf s.length = some (popWhile t q s).length ∧
        buf.take (popWhile t q s).length = (popWhile t q s).reverse := by
  intro s
  induction s with
  | nil =>
    intro h
    refine ⟨?_, by simp [popWhile_nil]⟩
    simp only [List.length_nil, popLoop, popWhile_nil]
    rw [if_neg (by omega)]
  | cons b s ih =>
    cases s with
    | nil =>
      intro h
      refine ⟨?_, by simpa [popWhile_single] using h⟩
      simp only [List.length_singleton, popWhile_single]
      show popLoop t q buf (0 + 1) = some 1
      rw [popLoop, if_neg (by omega)]
    | cons a rest =>
      intro h
      have hrev : (b :: a :: rest).reverse = rest.reverse ++ [a, b] := by simp
      have hA : buf[rest.length]? = some a := by
        rw [getElem?_of_take_eq h (by simp only [List.length_cons]; omega : rest.length < (b :: a :: rest).length), hrev,
          List.getElem?_append_right (by simp)]
        simp
      have hB : buf[rest.length + 1]? = some b := by
        rw [getElem?_of_take_eq h (by simp only [List.length_cons]; omega : rest.length + 1 < (b :: a :: rest).length), hrev,
          List.getElem?_append_right (by simp)]
        simp
      have htake : buf.take (a :: rest).length = (a :: rest).reverse := by
        have := congrArg (List.take (a :: rest).length) h
        rw [List.take_take, List.reverse_cons (a := b), List.take_left' (by simp)] at this
        simpa using this
      have ih2 := ih htake
      rw [popWhile_cons_cons]
      show popLoop t q buf ((rest.length + 1) + 1) = _ ∧ _
      rw [popLoop]
      simp only [Nat.add_sub_cancel, hA, hB]
      by_cases hc : t ≤ rest.length + 2 ∧ cross a b q ≤ 0
      · rw [if_pos hc, if_pos (by omega), if_neg (by omega), if_pos hc.2]
        exact ih2
      · rw [if_neg hc]
        by_cases ht2 : t ≤ rest.length + 1 + 1
        · rw [if_pos ht2, if_neg (by omega), if_neg (fun h2 => hc ⟨by omega, h2⟩)]
          exact ⟨rfl, h⟩
        · rw [if_neg ht2]
          exact ⟨rfl, h⟩

theorem popWhile_length_le (t : Nat) (q : Point T) (s : List (Point T)) :
    (popWhile t q s).length ≤ s.length :=
  (popWhile_suffix t q s).length_le

/-- One checked loop body follows `hullStep`, given room for one more point. -/
theorem hullBody_spec (t : Nat) (ht : 2 ≤ t) (sp : List (Point T)) (i : Nat) (q : Point T)
    (hq : sp[i]? = some q) (buf s : List (Point T)) (h : buf.take s.length = s.reverse)
    (hroom : s.length < buf.length) :
    ∃ buf', hullBody t sp (buf, s.length) i = some (buf', (hullStep t s q).length) ∧
      buf'.length = buf.length ∧ buf'.take (hullStep t s q).length = (hullStep t s q).reverse := by
  obtain ⟨h1, h2⟩ := popLoop_spec t ht q buf s h
  have hlen := popWhile_length_le t q s
  refine ⟨buf.set (popWhile t q s).length q, ?_, by simp, ?_⟩
  · simp only [hullBody, hq, h1]
    rw [if_pos (by omega)]
    rfl
  · simp only [hullStep, List.length_cons, List.reverse_cons]
    rw [List.take_succ, List.getElem?_set_self (by omega), take_set_self, h2]
    rfl

theorem hullStep_length (t : Nat) (q : Point T) (s : List (Point T)) :
    (hullStep t s q).length ≤ s.length + 1 := by
  have := popWhile_length_le t q s
  simp only [hullStep, List.length_cons]
  omega

/-- A checked `for` loop over the indices `idx` follows the loop on the stack over the points
`p[i]`, given room for one point per index. -/
theorem hullLoop_spec (t : Nat) (sp : List (Point T)) :
    ∀ (idx : List Nat), (idx ≠ [] → 2 ≤ t) → (∀ i ∈ idx, i < sp.length) →
      ∀ (buf s : List (Point T)), buf.take s.length = s.reverse →
        s.length + idx.length ≤ buf.length →
        ∃ buf', idx.foldlM (hullBody t sp) (buf, s.length) =
            some (buf', ((idx.filterMap (fun i => sp[i]?)).foldl (hullStep t) s).length) ∧
          buf'.length = buf.length ∧
          buf'.take ((idx.filterMap (fun i => sp[i]?)).foldl (hullStep t) s).length =
            ((idx.filterMap (fun i => sp[i]?)).foldl (hullStep t) s).reverse ∧
          ((idx.filterMap (fun i => sp[i]?)).foldl (hullStep t) s).length ≤
            s.length + idx.length := by
  intro idx
  induction idx with
  | nil =>
    intro _ _ buf s h _
    exact ⟨buf, rfl, rfl, h, by simp⟩
  | cons i idx ih =>
    intro ht hidx buf s h hroom
    have hi : i < sp.length := hidx i (by simp)
    have hq : sp[i]? = some sp[i] := List.getElem?_eq_getElem hi
    simp only [List.length_cons] at hroom
    obtain ⟨buf1, e1, l1, t1⟩ :=
      hullBody_spec t (ht (by simp)) sp i sp[i] hq buf s h (by omega)
    have hlen := hullStep_length t sp[i] s
    obtain ⟨buf2, e2, l2, t2, b2⟩ := ih (fun _ => ht (by simp))
      (fun j hj => hidx j (List.mem_cons_of_mem _ hj)) buf1 (hullStep t s sp[i]) t1
      (by omega)
    refine ⟨buf2, ?_, by rw [l2, l1], ?_, ?_⟩
    · rw [List.foldlM_cons, e1, List.filterMap_cons_some hq, List.foldl_cons]
      exact e2
    · rw [List.filterMap_cons_some hq, List.foldl_cons]
      exact t2
    · rw [List.filterMap_cons_some hq, List.foldl_cons]
      refine le_trans b2 ?_
      simp only [List.length_cons]
      omega

theorem filterMap_range_getElem? {α : Type} (l : List α) :
    ∀ m : Nat, m ≤ l.length → (List.range m).filterMap (fun i => l[i]?) = l.take m := by
  intro m
  induction m with
  | zero => intro _; simp
  | succ m ih =>
    intro hm
    have hm' : m < l.length := by omega
    rw [List.range_succ, List.filterMap_append, ih (by omega), List.take_succ (n := m)]
    simp [List.getElem?_eq_getElem hm']

/-- C5. With an output buffer of capacity `2n` the function finishes without any access
out of range; the final count is at most `2n - 1` (0 for `n = 0`), the live part of the buffer
is the emitted sequence, no points give `k = 0` and one point gives `k = 1`, `h[0] = p[0]`. -/
theorem convex_hull_mem_safe (p h : List (Point T)) (hcap : h.length = 2 * p.length) :
    ∃ (h' : List (Point T)) (k : Nat), convex_hull_mem p h = some (h', k) ∧
      h'.length = h.length ∧ k ≤ 2 * p.length - 1 ∧ h'.take k = convex_hull p ∧
      (p = [] → k = 0) ∧ (∀ a, p = [a] → k = 1 ∧ h'[0]? = some a) := by
  have hn : (sortPoints p).length = p.length := length_sortPoints p
  obtain ⟨buf1, e1, l1, t1, b1⟩ := hullLoop_spec 2 (sortPoints p) (List.range p.length)
    (fun _ => le_refl 2) (fun i hi => by rw [hn]; exact List.mem_range.1 hi) h []
    (by simp) (by simp only [List.length_nil, List.length_range]; omega)
  have htk : (sortPoints p).take p.length = sortPoints p :=
    List.take_of_length_le (by rw [hn])
  rw [filterMap_range_getElem? _ _ (by rw [hn]), htk] at e1 t1 b1
  simp only [List.length_nil] at e1
  have hk1 : (List.foldl (hullStep 2) [] (sortPoints p)).length ≤ p.length := by
    simpa [hn] using b1
  obtain ⟨buf2, e2, l2, t2, b2⟩ := hullLoop_spec
    ((List.foldl (hullStep 2) [] (sortPoints p)).length + 1) (sortPoints p)
    (List.range (p.length - 1)).reverse
    (by
      intro hne
      have hp : sortPoints p ≠ [] := by
        intro h0
        rw [h0] at hn
        apply hne
        rw [← hn]
        rfl
      have := List.length_pos.2 (chain_ne_nil hp)
      simp only [chain] at this
      omega)
    (fun i hi => by
      rw [hn]
      have := List.mem_range.1 (List.mem_reverse.1 hi)
      omega)
    buf1 _ t1 (by simp only [List.length_reverse, List.length_range]; omega)
  have hel : ((List.range (p.length - 1)).reverse.filterMap fun i => (sortPoints p)[i]?)
      = (sortPoints p).reverse.tail := by
    rw [List.filterMap_reverse, filterMap_range_getElem? _ _ (by omega), List.tail_reverse,
      List.dropLast_eq_take, hn]
  rw [hel] at e2 t2 b2
  simp only [List.length_reverse, List.length_range] at b2
  have hres : convex_hull_mem p h = some (buf2, (convex_hull p).length) := by
    simp only [convex_hull_mem, convex_hull, List.length_reverse, e1]
    exact e2
  have htake : buf2.take (convex_hull p).length = convex_hull p := by
    simp only [convex_hull, List.length_reverse]
    exact t2
  have hlen : (convex_hull p).length ≤ 2 * p.length - 1 := by
    simp only [convex_hull, List.length_reverse]
    by_cases h0 : p.length = 0
    · have : p = [] := List.length_eq_zero.1 h0
      subst this
      simp [sortPoints]
    · omega
  refine ⟨buf2, (convex_hull p).length, hres, by rw [l2, l1], hlen, htake, ?_, ?_⟩
  · rintro rfl
    rw [convex_hull_nil]
    rfl
  · rintro a rfl
    rw [convex_hull_singleton] at htake ⊢
    refine ⟨rfl, ?_⟩
    have := congrArg (fun l => l[0]?) htake
    simpa using this

end HullMem

/-! ## Lines and segments -/

section LineFacts
variable {T : Type} [LinearOrderedField T]
open Point

theorem divChecked_of_ne (x : T) {y : T} (h : y ≠ 0) : divChecked x y = some (x / y) := by
  simp [divChecked, h]

theorem divChecked_zero (x : T) : divChecked x (0 : T) = none := by
  simp [divChecked]

/-- C6. The line built from two points, in particular from two distinct points, is a proper
line (`(a, b) ≠ (0, 0)`) that contains both points, the vertical case `p1.x = p2.x` included. -/
theorem Line.ofPoints_through (p1 p2 : Point T) :
    ((Line.ofPoints p1 p2).a, (Line.ofPoints p1 p2).b) ≠ (0, 0) ∧
      (Line.ofPoints p1 p2).Contains p1 ∧ (Line.ofPoints p1 p2).Contains p2 := by
  unfold Line.ofPoints Line.Contains
  by_cases hx : p1.x = p2.x
  · simp only [if_pos hx]
    refine ⟨by simp, by ring, by rw [hx]; ring⟩
  · simp only [if_neg hx]
    refine ⟨?_, by ring, by ring⟩
    intro h
    simp only [Prod.mk.injEq] at h
    exact hx (by linarith [h.2])

/-- The intersection of two lines that are not parallel: no divisor is zero and the point
written to `p` is on both lines. -/
theorem Line.intersection_of_not_parallel (L M : Line T) (p : Point T)
    (h : L.a * M.b ≠ L.b * M.a) :
    ∃ q, L.intersection M p = some (true, q) ∧ L.Contains q ∧ M.Contains q := by
  have hdet : M.a * L.b - L.a * M.b ≠ 0 := fun h0 => h (by linarith)
  unfold Line.intersection
  simp only [Line.is_parallel, decide_eq_true_eq, if_neg h, divChecked_of_ne _ hdet]
  by_cases hv : L.b = 0
  · have hMb : M.b ≠ 0 := by
      intro h0
      apply h
      rw [hv, h0]
      ring
    have hLa : L.a ≠ 0 := by
      intro h0
      apply h
      rw [hv, h0]
      ring
    simp only [Line.is_vertical, hv, decide_True, if_true, divChecked_of_ne _ hMb]
    refine ⟨_, rfl, ?_, ?_⟩
    · simp only [Line.Contains, hv]
      field_simp
      ring
    · simp only [Line.Contains]
      field_simp
      ring
  · simp only [Line.is_vertical, hv, decide_False, Bool.false_eq_true, if_false,
      divChecked_of_ne _ hv]
    refine ⟨_, rfl, ?_, ?_⟩
    · simp only [Line.Contains]
      field_simp
      ring
    · simp only [Line.Contains]
      field_simp
      ring

/-- C7. `intersection` divides by no zero; it returns false exactly for parallel lines
(`L.a * M.b = L.b * M.a`) and then leaves `p` untouched; otherwise it returns true and the
point written to `p` satisfies both line equations. -/
theorem Line.line_intersection_spec (L M : Line T) (p : Point T) :
    ∃ r, L.intersection M p = some r ∧
      (r.1 = false ↔ L.a * M.b = L.b * M.a) ∧ (r.1 = false → r.2 = p) ∧
      (r.1 = true → L.Contains r.2 ∧ M.Contains r.2) := by
  by_cases h : L.a * M.b = L.b * M.a
  · refine ⟨(false, p), ?_, by simp [h], fun _ => rfl, by simp⟩
    simp [Line.intersection, Line.is_parallel, h]
  · obtain ⟨q, hq, h1, h2⟩ := Line.intersection_of_not_parallel L M p h
    exact ⟨(true, q), hq, by simp [h], by simp, fun _ => ⟨h1, h2⟩⟩

end LineFacts

section SegmentFacts
variable {T : Type} [LinearOrderedField T]
open Point

theorem Point.in_box_iff (p a b : Point T) :
    p.in_box a b = true ↔
      (min a.x b.x ≤ p.x ∧ p.x ≤ max a.x b.x) ∧ (min a.y b.y ≤ p.y ∧ p.y ≤ max a.y b.y) := by
  simp only [Point.in_box, Bool.and_eq_true, decide_eq_true_eq, ge_iff_le]
  tauto

theorem between_of_param {u v w t : T} (h0 : 0 ≤ t) (h1 : t ≤ 1) (h : w = u + t * (v - u)) :
    min u v ≤ w ∧ w ≤ max u v := by
  rcases le_total u v with huv | huv
  · rw [min_eq_left huv, max_eq_right huv]
    constructor <;> nlinarith
  · rw [min_eq_right huv, max_eq_left huv]
    constructor <;> nlinarith

theorem param_of_between {u v w : T} (hne : u ≠ v) (h : min u v ≤ w ∧ w ≤ max u v) :
    0 ≤ (w - u) / (v - u) ∧ (w - u) / (v - u) ≤ 1 := by
  rcases lt_or_gt_of_ne hne with huv | huv
  · rw [min_eq_left huv.le, max_eq_right huv.le] at h
    have hpos : 0 < v - u := by linarith
    exact ⟨div_nonneg (by linarith) hpos.le, (div_le_one hpos).2 (by linarith)⟩
  · rw [min_eq_right huv.le, max_eq_left huv.le] at h
    have hneg : v - u < 0 := by linarith
    exact ⟨div_nonneg_of_nonpos (by linarith) hneg.le,
      (div_le_one_of_neg hneg).2 (by linarith)⟩

/-- A point of the closed segment is on the supporting line and in the bounding box. -/
theorem Segment.Mem.on_line_in_box {z a b : Point T} (h : Segment.Mem z a b) :
    (Line.ofPoints a b).Contains z ∧ z.in_box a b = true := by
  obtain ⟨t, h0, h1, hx, hy⟩ := h
  refine ⟨?_, (Point.in_box_iff z a b).2 ⟨between_of_param h0 h1 hx, between_of_param h0 h1 hy⟩⟩
  unfold Line.ofPoints Line.Contains
  by_cases hab : a.x = b.x
  · simp only [if_pos hab]
    rw [hx, hab]
    ring
  · simp only [if_neg hab]
    rw [hx, hy]
    ring

/-- A point on the supporting line and in the bounding box is on the closed segment. -/
theorem Segment.mem_of_on_line_in_box {q a b : Point T} (hne : a ≠ b)
    (hl : (Line.ofPoints a b).Contains q) (hb : q.in_box a b = true) : Segment.Mem q a b := by
  rw [Point.in_box_iff] at hb
  unfold Line.ofPoints Line.Contains at hl
  by_cases hab : a.x = b.x
  · simp only [if_pos hab] at hl
    have hy : a.y ≠ b.y := by
      intro h
      apply hne
      obtain ⟨ax, ay⟩ := a
      obtain ⟨bx, bY⟩ := b
      simp only [Point.mk.injEq]
      exact ⟨hab, h⟩
    have hd : b.y - a.y ≠ 0 := fun h => hy (by linarith)
    obtain ⟨t0, t1⟩ := param_of_between hy hb.2
    refine ⟨(q.y - a.y) / (b.y - a.y), t0, t1, ?_, ?_⟩
    · rw [← hab]
      linarith
    · field_simp
  · simp only [if_neg hab] at hl
    have hd : b.x - a.x ≠ 0 := fun h => hab (by linarith)
    obtain ⟨t0, t1⟩ := param_of_between hab hb.1
    refine ⟨(q.x - a.x) / (b.x - a.x), t0, t1, ?_, ?_⟩
    · field_simp
    · field_simp
      linarith

/-- Two lines that are not parallel have at most one common point. -/
theorem Line.common_point_unique {L M : Line T} (h : L.a * M.b ≠ L.b * M.a) {z q : Point T}
    (hz1 : L.Contains z) (hz2 : M.Contains z) (hq1 : L.Contains q) (hq2 : M.Contains q) :
    z = q := by
  unfold Line.Contains at *
  have hdet : L.a * M.b - L.b * M.a ≠ 0 := fun h0 => h (by linarith)
  have hx : (L.a * M.b - L.b * M.a) * (z.x - q.x) = 0 := by
    linear_combination M.b * hz1 - L.b * hz2 - M.b * hq1 + L.b * hq2
  have hy : (L.a * M.b - L.b * M.a) * (z.y - q.y) = 0 := by
    linear_combination L.a * hz2 - M.a * hz1 - L.a * hq2 + M.a * hq1
  have ex : z.x = q.x := by
    rcases mul_eq_zero.1 hx with h0 | h0
    · exact absurd h0 hdet
    · linarith
  have ey : z.y = q.y := by
    rcases mul_eq_zero.1 hy with h0 | h0
    · exact absurd h0 hdet
    · linarith
  obtain ⟨zx, zy⟩ := z
  obtain ⟨qx, qy⟩ := q
  simp only [Point.mk.injEq]
  exact ⟨ex, ey⟩

/-- C8. For two proper segments: when the supporting lines are not parallel,
`intersection` returns true exactly when the closed segments have a common point, and then
the point written to `p` is that common point (on both lines, in both bounding boxes, on both
segments, and the only common point); when the lines are parallel it returns false. -/
theorem Segment.segment_intersection_spec (a b c d p : Point T) (hab : a ≠ b) (hcd : c ≠ d) :
    ((Line.ofPoints a b).a * (Line.ofPoints c d).b ≠
        (Line.ofPoints a b).b * (Line.ofPoints c d).a →
      ∃ r, Segment.intersection ⟨a, b⟩ ⟨c, d⟩ p = some r ∧
        (r.1 = true ↔ ∃ z, Segment.Mem z a b ∧ Segment.Mem z c d) ∧
        (r.1 = true →
          Segment.Mem r.2 a b ∧ Segment.Mem r.2 c d ∧
          (Line.ofPoints a b).Contains r.2 ∧ (Line.ofPoints c d).Contains r.2 ∧
          r.2.in_box a b = true ∧ r.2.in_box c d = true ∧
          ∀ z, Segment.Mem z a b → Segment.Mem z c d → z = r.2)) ∧
    ((Line.ofPoints a b).a * (Line.ofPoints c d).b =
        (Line.ofPoints a b).b * (Line.ofPoints c d).a →
      Segment.intersection ⟨a, b⟩ ⟨c, d⟩ p = some (false, p)) := by
  constructor
  · intro hpar
    obtain ⟨q, hq, h1, h2⟩ := Line.intersection_of_not_parallel _ _ p hpar
    have huniq : ∀ z, Segment.Mem z a b → Segment.Mem z c d → z = q := fun z hz1 hz2 =>
      Line.common_point_unique hpar hz1.on_line_in_box.1 hz2.on_line_in_box.1 h1 h2
    refine ⟨(q.in_box a b && q.in_box c d, q), ?_, ?_, ?_⟩
    · simp only [Segment.intersection, hq]
    · simp only [Bool.and_eq_true]
      constructor
      · rintro ⟨hb1, hb2⟩
        exact ⟨q, Segment.mem_of_on_line_in_box hab h1 hb1,
          Segment.mem_of_on_line_in_box hcd h2 hb2⟩
      · rintro ⟨z, hz1, hz2⟩
        have := huniq z hz1 hz2
        subst this
        exact ⟨hz1.on_line_in_box.2, hz2.on_line_in_box.2⟩
    · simp only [Bool.and_eq_true]
      rintro ⟨hb1, hb2⟩
      exact ⟨Segment.mem_of_on_line_in_box hab h1 hb1,
        Segment.mem_of_on_line_in_box hcd h2 hb2, h1, h2, hb1, hb2, huniq⟩
  · intro hpar
    simp [Segment.intersection, Line.intersection, Line.is_parallel, hpar]

end SegmentFacts

/-! ## `closest_to` and the circle through three points -/

section Projection
variable {T : Type} [LinearOrderedField T]
open Point

/-- What `closest_to` does compute: for a line in slope form (`b = 1`) and for a vertical line
with `a = 1` the result is the orthogonal projection. -/
theorem Line.closest_to_of_normalised (L : Line T) (p : Point T)
    (hL : L.b = 1 ∨ (L.b = 0 ∧ L.a = 1)) :
    ∃ q, L.closest_to p = some q ∧ L.Contains q ∧
      L.b * (q.x - p.x) - L.a * (q.y - p.y) = 0 := by
  rcases hL with hb | ⟨hb, ha⟩
  · by_cases ha : L.a = 0
    · refine ⟨⟨p.x, -L.c⟩, ?_, ?_, ?_⟩
      · simp [Line.closest_to, Line.is_vertical, Line.is_horizontal, hb, ha]
      · simp [Line.Contains, hb, ha]
      · simp [hb, ha]
    · have hpar : L.a * (Line.ofSlope p (1 / L.a)).b ≠ L.b * (Line.ofSlope p (1 / L.a)).a := by
        simp only [Line.ofSlope, hb]
        intro h
        have h2 : L.a * L.a = -1 := by
          field_simp at h
          linarith
        nlinarith [mul_self_nonneg L.a]
      obtain ⟨q, hq, h1, h2⟩ := Line.intersection_of_not_parallel L _ ⟨0, 0⟩ hpar
      refine ⟨q, ?_, h1, ?_⟩
      · simp only [Line.closest_to, Line.is_vertical, Line.is_horizontal, hb, ha,
          divChecked_of_ne _ ha, hq, decide_False, Bool.false_eq_true, if_false, one_ne_zero]
      · simp only [Line.Contains, Line.ofSlope] at h2
        rw [hb]
        field_simp at h2
        linarith
  · refine ⟨⟨-L.c, p.y⟩, ?_, ?_, ?_⟩
    · simp [Line.closest_to, Line.is_vertical, hb]
    · simp [Line.Contains, hb, ha]
    · simp [hb, ha]

/-- C9, at the failing inputs. For the horizontal line through `(0,1)` and `(2,1)`
(`a = 0, b = 2, c = -2`) `closest_to (5,5)` returns `(5,2)`, which is not on the line; for the
line through `(0,0)` and `(2,2)` `closest_to (2,0)` returns `(2/3, 2/3)`, which is on the line
but not the foot of the perpendicular (that is `(1,1)`). -/
theorem Line.closest_to_not_projection :
    (Line.ofPoints (⟨0, 1⟩ : Point ℚ) ⟨2, 1⟩).closest_to ⟨5, 5⟩ = some ⟨5, 2⟩ ∧
    ¬ (Line.ofPoints (⟨0, 1⟩ : Point ℚ) ⟨2, 1⟩).Contains ⟨5, 2⟩ ∧
    (Line.ofPoints (⟨0, 0⟩ : Point ℚ) ⟨2, 2⟩).closest_to ⟨2, 0⟩ = some ⟨2 / 3, 2 / 3⟩ ∧
    (Line.ofPoints (⟨0, 0⟩ : Point ℚ) ⟨2, 2⟩).b * (2 / 3 - 2) -
      (Line.ofPoints (⟨0, 0⟩ : Point ℚ) ⟨2, 2⟩).a * (2 / 3 - 0) ≠ 0 := by
  refine ⟨?_, ?_, ?_, ?_⟩
  · norm_num [Line.closest_to, Line.ofPoints, Line.is_vertical, Line.is_horizontal]
  · norm_num [Line.ofPoints, Line.Contains]
  · norm_num [Line.closest_to, Line.ofPoints, Line.is_vertical, Line.is_horizontal,
      Line.intersection, Line.ofSlope, Line.is_parallel, divChecked]
  · norm_num [Line.ofPoints]

end Projection

section CircleFacts
variable {T : Type} [LinearOrderedField T]
open Point

/-- The algebra of the three-point constructor: with chord slopes `ma`, `mb`, the centre
abscissa of the source and an ordinate on either perpendicular bisector, the centre has the same
squared distance to all three points. -/
theorem centre_equidistant (mx my ax ay bx bY ma mb x y : T)
    (hma : ma * (mx - ax) = my - ay) (hmb : mb * (bx - mx) = bY - my)
    (hx : x * ((mb - ma) * 2) = ma * mb * (ay - bY) + mb * (ax + mx) - ma * (mx + bx))
    (hy : (ma ≠ 0 ∧ ma * (y - (ay + my) / 2) = -(x - (ax + mx) / 2)) ∨
      (mb ≠ 0 ∧ mb * (y - (my + bY) / 2) = -(x - (mx + bx) / 2))) :
    (ax - x) * (ax - x) + (ay - y) * (ay - y) = (mx - x) * (mx - x) + (my - y) * (my - y) ∧
    (bx - x) * (bx - x) + (bY - y) * (bY - y) = (mx - x) * (mx - x) + (my - y) * (my - y) := by
  have key : ma * (y - (ay + my) / 2) = -(x - (ax + mx) / 2) ∧
      mb * (y - (my + bY) / 2) = -(x - (mx + bx) / 2) := by
    rcases hy with ⟨h0, h⟩ | ⟨h0, h⟩
    · refine ⟨h, ?_⟩
      have : ma * (mb * (y - (my + bY) / 2) + (x - (mx + bx) / 2)) = 0 := by
        linear_combination mb * h - (1 / 2) * hx
      rcases mul_eq_zero.1 this with h1 | h1
      · exact absurd h1 h0
      · linarith
    · refine ⟨?_, h⟩
      have : mb * (ma * (y - (ay + my) / 2) + (x - (ax + mx) / 2)) = 0 := by
        linear_combination ma * h + (1 / 2) * hx
      rcases mul_eq_zero.1 this with h1 | h1
      · exact absurd h1 h0
      · linarith
  constructor
  · linear_combination (2 * (mx - ax)) * key.1 - (2 * y - ay - my) * hma
  · linear_combination (-2 * (bx - mx)) * key.2 + (2 * y - my - bY) * hmb

end CircleFacts

section CircleFacts2
variable {T : Type} [LinearOrderedField T]
open Point

theorem Circle.select_cases (EPS : T) (p1 p2 p3 : Point T) :
    Circle.select EPS p1 p2 p3 = (p1, p2, p3) ∨ Circle.select EPS p1 p2 p3 = (p2, p1, p3) ∨
      Circle.select EPS p1 p2 p3 = (p3, p1, p2) := by
  unfold Circle.select
  split_ifs
  · exact Or.inl rfl
  · exact Or.inr (Or.inl rfl)
  · exact Or.inr (Or.inr rfl)

theorem distance_eq_of_sq {sqrt : T → T} {o p o' p' : Point T}
    (h : (p.x - o.x) * (p.x - o.x) + (p.y - o.y) * (p.y - o.y) =
      (p'.x - o'.x) * (p'.x - o'.x) + (p'.y - o'.y) * (p'.y - o'.y)) :
    Point.distance sqrt o p = Point.distance sqrt o' p' := by
  simp only [Point.distance]
  rw [h]

theorem eps_equal_self (EPS : T) (hE : 0 < EPS) (u : T) : eps_equal EPS u u = true := by
  simp [eps_equal, eqz, hE]

/-- The three-point constructor on the triple `(m, a, b)` it selected. -/
theorem Circle.ofPoints_of_select (sqrt : T → T) (EPS : T) (hE : 0 < EPS)
    (p1 p2 p3 m a b : Point T) (hsel : Circle.select EPS p1 p2 p3 = (m, a, b))
    (hdet : (b.y - m.y) * (m.x - a.x) ≠ (m.y - a.y) * (b.x - m.x))
    (hma : m.x ≠ a.x) (hmb : b.x ≠ m.x)
    (hy : eps_equal EPS 0 ((m.y - a.y) / (m.x - a.x)) = true → b.y ≠ m.y) :
    ∃ c, Circle.ofPoints sqrt EPS p1 p2 p3 = some c ∧
      c.r = Point.distance sqrt p1 ⟨c.x, c.y⟩ ∧
      (a.x - c.x) * (a.x - c.x) + (a.y - c.y) * (a.y - c.y) =
        (m.x - c.x) * (m.x - c.x) + (m.y - c.y) * (m.y - c.y) ∧
      (b.x - c.x) * (b.x - c.x) + (b.y - c.y) * (b.y - c.y) =
        (m.x - c.x) * (m.x - c.x) + (m.y - c.y) * (m.y - c.y) := by
  have h1 : m.x - a.x ≠ 0 := sub_ne_zero.2 hma
  have h2 : b.x - m.x ≠ 0 := sub_ne_zero.2 hmb
  have h3 : ((b.y - m.y) / (b.x - m.x) - (m.y - a.y) / (m.x - a.x)) * 2 ≠ 0 := by
    intro h0
    apply hdet
    field_simp at h0
    linarith
  have ema : (m.y - a.y) / (m.x - a.x) * (m.x - a.x) = m.y - a.y := by field_simp
  have emb : (b.y - m.y) / (b.x - m.x) * (b.x - m.x) = b.y - m.y := by field_simp
  unfold Circle.ofPoints
  simp only [hsel, divChecked_of_ne _ h1, divChecked_of_ne _ h2, divChecked_of_ne _ h3]
  generalize hma' : (m.y - a.y) / (m.x - a.x) = ma at *
  generalize hmb' : (b.y - m.y) / (b.x - m.x) = mb at *
  generalize hx' : (ma * mb * (a.y - b.y) + mb * (a.x + m.x) - ma * (m.x + b.x)) / ((mb - ma) * 2)
    = x at *
  have ex : x * ((mb - ma) * 2) = ma * mb * (a.y - b.y) + mb * (a.x + m.x) - ma * (m.x + b.x) := by
    rw [← hx']
    field_simp
  by_cases hb : eps_equal EPS 0 ma = true
  · have hmb0 : mb ≠ 0 := by
      intro h0
      rw [h0, zero_mul] at emb
      exact hy hb (by linarith)
    simp only [hb, if_true, divChecked_of_ne _ hmb0]
    refine ⟨_, rfl, rfl, ?_⟩
    exact centre_equidistant m.x m.y a.x a.y b.x b.y ma mb x _ ema emb ex
      (Or.inr ⟨hmb0, by field_simp; ring⟩)
  · have hma0 : ma ≠ 0 := by
      intro h0
      apply hb
      rw [h0]
      exact eps_equal_self EPS hE 0
    simp only [hb, if_false, Bool.false_eq_true, divChecked_of_ne _ hma0]
    refine ⟨_, rfl, rfl, ?_⟩
    exact centre_equidistant m.x m.y a.x a.y b.x b.y ma mb x _ ema emb ex
      (Or.inl ⟨hma0, by field_simp; ring⟩)

/-- C10, as amended. For a non-collinear triple and `EPS > 0`: when the middle point `m`
the constructor selects has an abscissa different from those of the two other points `a`, `b`,
and the chord `m b` is not horizontal in case the slope `ma` of the chord `a m` is eps-equal to
0, the constructor divides by no zero and the three points have exactly the same distance `r`
from the centre (hence also within `EPS`). -/
theorem Circle.ofPoints_equidistant (sqrt : T → T) (EPS : T) (hE : 0 < EPS)
    (p1 p2 p3 : Point T) (hnc : ¬ Point.collinear p1 p2 p3)
    (hma : (Circle.select EPS p1 p2 p3).1.x ≠ (Circle.select EPS p1 p2 p3).2.1.x)
    (hmb : (Circle.select EPS p1 p2 p3).2.2.x ≠ (Circle.select EPS p1 p2 p3).1.x)
    (hy : eps_equal EPS 0
        (((Circle.select EPS p1 p2 p3).1.y - (Circle.select EPS p1 p2 p3).2.1.y) /
          ((Circle.select EPS p1 p2 p3).1.x - (Circle.select EPS p1 p2 p3).2.1.x)) = true →
      (Circle.select EPS p1 p2 p3).2.2.y ≠ (Circle.select EPS p1 p2 p3).1.y) :
    ∃ c, Circle.ofPoints sqrt EPS p1 p2 p3 = some c ∧
      Point.distance sqrt ⟨c.x, c.y⟩ p1 = c.r ∧ Point.distance sqrt ⟨c.x, c.y⟩ p2 = c.r ∧
      Point.distance sqrt ⟨c.x, c.y⟩ p3 = c.r ∧
      eps_equal EPS (Point.distance sqrt ⟨c.x, c.y⟩ p1) c.r = true ∧
      eps_equal EPS (Point.distance sqrt ⟨c.x, c.y⟩ p2) c.r = true ∧
      eps_equal EPS (Point.distance sqrt ⟨c.x, c.y⟩ p3) c.r = true := by
  unfold Point.collinear at hnc
  have key : ∃ c, Circle.ofPoints sqrt EPS p1 p2 p3 = some c ∧
      Point.distance sqrt ⟨c.x, c.y⟩ p1 = c.r ∧ Point.distance sqrt ⟨c.x, c.y⟩ p2 = c.r ∧
      Point.distance sqrt ⟨c.x, c.y⟩ p3 = c.r := by
    rcases Circle.select_cases EPS p1 p2 p3 with hsel | hsel | hsel
    · rw [hsel] at hma hmb hy
      obtain ⟨c, hc, hr, e1, e2⟩ := Circle.ofPoints_of_select sqrt EPS hE p1 p2 p3 p1 p2 p3 hsel
        (fun h => hnc (by linear_combination h)) hma hmb hy
      refine ⟨c, hc, ?_, ?_, ?_⟩ <;> rw [hr] <;> apply distance_eq_of_sq <;>
        simp only <;> linarith
    · rw [hsel] at hma hmb hy
      obtain ⟨c, hc, hr, e1, e2⟩ := Circle.ofPoints_of_select sqrt EPS hE p1 p2 p3 p2 p1 p3 hsel
        (fun h => hnc (by linear_combination -h)) hma hmb hy
      refine ⟨c, hc, ?_, ?_, ?_⟩ <;> rw [hr] <;> apply distance_eq_of_sq <;>
        simp only <;> linarith
    · rw [hsel] at hma hmb hy
      obtain ⟨c, hc, hr, e1, e2⟩ := Circle.ofPoints_of_select sqrt EPS hE p1 p2 p3 p3 p1 p2 hsel
        (fun h => hnc (by linear_combination h)) hma hmb hy
      refine ⟨c, hc, ?_, ?_, ?_⟩ <;> rw [hr] <;> apply distance_eq_of_sq <;>
        simp only <;> linarith
  obtain ⟨c, hc, d1, d2, d3⟩ := key
  refine ⟨c, hc, d1, d2, d3, ?_, ?_, ?_⟩
  · rw [d1]; exact eps_equal_self EPS hE _
  · rw [d2]; exact eps_equal_self EPS hE _
  · rw [d3]; exact eps_equal_self EPS hE _

/-- C10, the claim as stated fails. With `EPS = 1/1000` the points `(0,0)`, `(1/2000,1)`,
`(0,2)` are not collinear, yet no abscissa differs from both others by `EPS`; the constructor
takes `m = p3` and divides by `m.x - a.x = 0`. The points `(0,0)`, `(2,-1/1000)`, `(4,0)` are not
collinear either; there `|ma| = 1/2000 < EPS` sends the constructor to the branch that divides
by `mb = 0`. -/
theorem Circle.ofPoints_divides_by_zero :
    (0 : ℚ) < 1 / 1000 ∧
    (¬ Point.collinear (⟨0, 0⟩ : Point ℚ) ⟨1 / 2000, 1⟩ ⟨0, 2⟩ ∧
      ∀ sqrt : ℚ → ℚ, Circle.ofPoints sqrt (1 / 1000) ⟨0, 0⟩ ⟨1 / 2000, 1⟩ ⟨0, 2⟩ = none) ∧
    (¬ Point.collinear (⟨0, 0⟩ : Point ℚ) ⟨2, -1 / 1000⟩ ⟨4, 0⟩ ∧
      ∀ sqrt : ℚ → ℚ, Circle.ofPoints sqrt (1 / 1000) ⟨0, 0⟩ ⟨2, -1 / 1000⟩ ⟨4, 0⟩ = none) := by
  refine ⟨by norm_num, ⟨?_, ?_⟩, ⟨?_, ?_⟩⟩
  · norm_num [Point.collinear]
  · intro sqrt
    have hs : Circle.select (1 / 1000 : ℚ) ⟨0, 0⟩ ⟨1 / 2000, 1⟩ ⟨0, 2⟩ =
        (⟨0, 2⟩, ⟨0, 0⟩, ⟨1 / 2000, 1⟩) := by
      norm_num [Circle.select, eps_equal, eqz, abs_lt]
    simp only [Circle.ofPoints, hs, sub_self, divChecked_zero]
  · norm_num [Point.collinear]
  · intro sqrt
    have hs : Circle.select (1 / 1000 : ℚ) ⟨0, 0⟩ ⟨2, -1 / 1000⟩ ⟨4, 0⟩ =
        (⟨0, 0⟩, ⟨2, -1 / 1000⟩, ⟨4, 0⟩) := by
      norm_num [Circle.select, eps_equal, eqz, abs_lt, lt_abs]
    simp only [Circle.ofPoints, hs]
    norm_num [divChecked, eps_equal, eqz, abs_lt]

end CircleFacts2

/-! ## The theorems at concrete inputs -/

section Witnesses
open Point

/-- C2 at a collinear input with a repeated point: `(0,0), (2,2), (0,0)` is emitted. -/
theorem convex_hull_closed_witness :
    1 < diagonalPts.length ∧
    convex_hull diagonalPts = [⟨0, 0⟩, ⟨2, 2⟩, ⟨0, 0⟩] ∧
    (∃ m, m ∈ diagonalPts ∧ (∀ q ∈ diagonalPts, ¬ lt q m) ∧
      (convex_hull diagonalPts).head? = some m ∧ (convex_hull diagonalPts).getLast? = some m) :=
  ⟨by decide, by decide, convex_hull_closed diagonalPts (by decide)⟩

/-- C3 at the example of the spec. -/
theorem convex_hull_strict_witness :
    (∃ a ∈ squarePts, ∃ b ∈ squarePts, ∃ c ∈ squarePts, cross a b c ≠ 0) ∧
    ((∀ (i : Nat) (hi : i + 2 < (convex_hull squarePts).length),
        0 < cross ((convex_hull squarePts)[i]) ((convex_hull squarePts)[i + 1])
          ((convex_hull squarePts)[i + 2])) ∧
      (∃ _ : 3 ≤ (convex_hull squarePts).length,
        (0 : ℤ) < cross ((convex_hull squarePts)[(convex_hull squarePts).length - 2])
          ((convex_hull squarePts)[0]) ((convex_hull squarePts)[1])) ∧
      (convex_hull squarePts).dropLast.Nodup) :=
  ⟨⟨⟨0, 0⟩, by decide, ⟨4, 0⟩, by decide, ⟨4, 4⟩, by decide, by decide⟩,
    convex_hull_strict squarePts
      ⟨⟨0, 0⟩, by decide, ⟨4, 0⟩, by decide, ⟨4, 4⟩, by decide, by decide⟩⟩

/-- C5 at the example of the spec with a buffer of ten points. -/
theorem convex_hull_mem_safe_witness :
    (List.replicate 10 (⟨7, 7⟩ : Point ℤ)).length = 2 * squarePts.length ∧
    convex_hull_mem squarePts (List.replicate 10 ⟨7, 7⟩) =
      some ([⟨0, 0⟩, ⟨4, 0⟩, ⟨4, 4⟩, ⟨0, 4⟩, ⟨0, 0⟩, ⟨7, 7⟩, ⟨7, 7⟩, ⟨7, 7⟩, ⟨7, 7⟩, ⟨7, 7⟩],
        5) ∧
    (∃ (h' : List (Point ℤ)) (k : Nat),
      convex_hull_mem squarePts (List.replicate 10 ⟨7, 7⟩) = some (h', k) ∧
      h'.length = (List.replicate 10 (⟨7, 7⟩ : Point ℤ)).length ∧
      k ≤ 2 * squarePts.length - 1 ∧ h'.take k = convex_hull squarePts ∧
      (squarePts = [] → k = 0) ∧ (∀ a, squarePts = [a] → k = 1 ∧ h'[0]? = some a)) :=
  ⟨by decide, by decide, convex_hull_mem_safe squarePts (List.replicate 10 ⟨7, 7⟩) (by decide)⟩

/-- C8 at the example of the spec: the segments `(0,0)-(2,2)` and `(0,2)-(2,0)` meet in
`(1,1)`. -/
theorem Segment.segment_intersection_spec_witness :
    (⟨0, 0⟩ : Point ℚ) ≠ ⟨2, 2⟩ ∧ (⟨0, 2⟩ : Point ℚ) ≠ ⟨2, 0⟩ ∧
    Segment.intersection (⟨⟨0, 0⟩, ⟨2, 2⟩⟩ : Segment ℚ) ⟨⟨0, 2⟩, ⟨2, 0⟩⟩ ⟨0, 0⟩ =
      some (true, ⟨1, 1⟩) ∧
    (∃ r, Segment.intersection (⟨⟨0, 0⟩, ⟨2, 2⟩⟩ : Segment ℚ) ⟨⟨0, 2⟩, ⟨2, 0⟩⟩ ⟨0, 0⟩ = some r ∧
      (r.1 = true ↔
        ∃ z : Point ℚ, Segment.Mem z ⟨0, 0⟩ ⟨2, 2⟩ ∧ Segment.Mem z ⟨0, 2⟩ ⟨2, 0⟩)) := by
  have h1 : (⟨0, 0⟩ : Point ℚ) ≠ ⟨2, 2⟩ := by simp
  have h2 : (⟨0, 2⟩ : Point ℚ) ≠ ⟨2, 0⟩ := by simp
  refine ⟨h1, h2, ?_, ?_⟩
  · norm_num [Segment.intersection, Line.ofPoints, Line.is_vertical, Line.is_horizontal,
      Line.intersection, Line.is_parallel, divChecked, Point.in_box]
  · obtain ⟨r, hr, hiff, _⟩ :=
      (Segment.segment_intersection_spec (⟨0, 0⟩ : Point ℚ) ⟨2, 2⟩ ⟨0, 2⟩ ⟨2, 0⟩ ⟨0, 0⟩ h1 h2).1
        (by norm_num [Line.ofPoints])
    exact ⟨r, hr, hiff⟩

/-- C10 as amended, at the points `(0,0)`, `(0,1)`, `(1,0)` with `EPS = 1/1000`: the
constructor selects `m = p3` and finds the centre `(1/2, 1/2)`. -/
theorem Circle.ofPoints_equidistant_witness :
    (0 : ℚ) < 1 / 1000 ∧ ¬ Point.collinear (⟨0, 0⟩ : Point ℚ) ⟨0, 1⟩ ⟨1, 0⟩ ∧
    (∃ c, Circle.ofPoints (fun x : ℚ => x) (1 / 1000) ⟨0, 0⟩ ⟨0, 1⟩ ⟨1, 0⟩ = some c ∧
      c.x = 1 / 2 ∧ c.y = 1 / 2) ∧
    (∃ c, Circle.ofPoints (fun x : ℚ => x) (1 / 1000) ⟨0, 0⟩ ⟨0, 1⟩ ⟨1, 0⟩ = some c ∧
      Point.distance (fun x : ℚ => x) ⟨c.x, c.y⟩ ⟨0, 0⟩ = c.r ∧
      Point.distance (fun x : ℚ => x) ⟨c.x, c.y⟩ ⟨0, 1⟩ = c.r ∧
      Point.distance (fun x : ℚ => x) ⟨c.x, c.y⟩ ⟨1, 0⟩ = c.r) := by
  have hs : Circle.select (1 / 1000 : ℚ) ⟨0, 0⟩ ⟨0, 1⟩ ⟨1, 0⟩ = (⟨1, 0⟩, ⟨0, 0⟩, ⟨0, 1⟩) := by
    norm_num [Circle.select, eps_equal, eqz, abs_lt]
  have hE : (0 : ℚ) < 1 / 1000 := by norm_num
  have hnc : ¬ Point.collinear (⟨0, 0⟩ : Point ℚ) ⟨0, 1⟩ ⟨1, 0⟩ := by
    norm_num [Point.collinear]
  refine ⟨hE, hnc, ?_, ?_⟩
  · simp only [Circle.ofPoints, hs]
    norm_num [divChecked, eps_equal, eqz, abs_lt]
  · obtain ⟨c, hc, d1, d2, d3, _⟩ := Circle.ofPoints_equidistant (fun x : ℚ => x) (1 / 1000) hE
      ⟨0, 0⟩ ⟨0, 1⟩ ⟨1, 0⟩ hnc (by rw [hs]; norm_num) (by rw [hs]; norm_num)
      (by rw [hs]; norm_num)
    exact ⟨c, hc, d1, d2, d3⟩

end Witnesses


/-! ## Scalar comparison and angle normalisation -/

section Scalar

variable {T : Type} [LinearOrderedField T]

theorem eqz_iff (EPS x : T) : eqz EPS x = true ↔ |x| < EPS := by
  simp [eqz]

theorem cmp_eq_zero_iff (EPS a b : T) : cmp EPS a b = 0 ↔ |a - b| < EPS := by
  unfold cmp
  by_cases h : |a - b| < EPS
  · simp [eqz, h]
  · by_cases h2 : a - b < 0 <;> simp [eqz, h, h2]

theorem cmp_neg_iff (EPS a b : T) : cmp EPS a b < 0 ↔ ¬ |a - b| < EPS ∧ a < b := by
  unfold cmp
  by_cases h : |a - b| < EPS
  · simp [eqz, h]
  · by_cases h2 : a - b < 0
    · have : a < b := by linarith
      simp [eqz, h, h2, this]
    · have : ¬ a < b := by
        intro q
        exact h2 (by linarith)
      simp [eqz, h, h2, this]

theorem cmp_pos_iff (EPS a b : T) : 0 < cmp EPS a b ↔ ¬ |a - b| < EPS ∧ ¬ a < b := by
  unfold cmp
  by_cases h : |a - b| < EPS
  · simp [eqz, h]
  · by_cases h2 : a - b < 0
    · have : a < b := by linarith
      simp [eqz, h, h2, this]
    · have : ¬ a < b := by
        intro q
        exact h2 (by linarith)
      simp [eqz, h, h2]
      linarith

/-- C16 (amended): in exact arithmetic on finite scalars (no rounding, no infinity, no NaN),
`cmp a b` is 0 exactly when `|a - b| < EPS` and otherwise the sign (-1 or 1) of `a - b`; for
`EPS > 0` the comparison is total and antisymmetric (`cmp b a = -cmp a b`) and its strict part
is transitive. -/
theorem cmp_spec (EPS a b c : T) (hE : 0 < EPS) :
    (cmp EPS a b = 0 ↔ |a - b| < EPS)
    ∧ (¬ |a - b| < EPS → (a < b → cmp EPS a b = -1) ∧ (b < a → cmp EPS a b = 1))
    ∧ (cmp EPS a b = -1 ∨ cmp EPS a b = 0 ∨ cmp EPS a b = 1)
    ∧ (cmp EPS a b ≤ 0 ∨ cmp EPS b a ≤ 0)
    ∧ cmp EPS b a = -cmp EPS a b
    ∧ (cmp EPS a b < 0 → cmp EPS b c < 0 → cmp EPS a c < 0) := by
  have anti : cmp EPS b a = -cmp EPS a b := by
    unfold cmp
    have e : |b - a| = |a - b| := abs_sub_comm b a
    by_cases h : |a - b| < EPS
    · simp [eqz, h, e]
    · have hne : a ≠ b := by
        intro q
        apply h
        rw [q, sub_self, abs_zero]
        exact hE
      rcases lt_or_gt_of_ne hne with h2 | h2
      · have i1 : a - b < 0 := by linarith
        have i2 : ¬ b - a < 0 := by linarith
        simp [eqz, h, e, i1, i2]
      · have i1 : ¬ a - b < 0 := by linarith
        have i2 : b - a < 0 := by linarith
        simp [eqz, h, e, i1, i2]
  refine ⟨cmp_eq_zero_iff EPS a b, ?_, ?_, ?_, anti, ?_⟩
  · intro h
    constructor
    · intro hab
      have i1 : a - b < 0 := by linarith
      simp [cmp, eqz, h, i1]
    · intro hab
      have i1 : ¬ a - b < 0 := by linarith
      simp [cmp, eqz, h, i1]
  · unfold cmp
    by_cases h : |a - b| < EPS
    · simp [eqz, h]
    · by_cases h2 : a - b < 0 <;> simp [eqz, h, h2]
  · rw [anti]
    omega
  · intro h1 h2
    rw [cmp_neg_iff] at h1 h2 ⊢
    obtain ⟨n1, l1⟩ := h1
    obtain ⟨n2, l2⟩ := h2
    refine ⟨?_, lt_trans l1 l2⟩
    rw [not_lt] at n1 n2 ⊢
    rw [abs_sub_comm, abs_of_pos (by linarith)] at n1 n2 ⊢
    linarith

/-- C17: for a raw angle difference strictly between `-pi_t2` and `pi_t2`, `circle_angle` lies
in `[0, pi_t2)`, is exactly 0 whenever `|a| < EPS`, and otherwise is `a` (for `a >= 0`) or
`a + pi_t2` (for `a < 0`). -/
theorem circle_angle_range (EPS pi_t2 a : T) (hlo : -pi_t2 < a) (hhi : a < pi_t2) :
    0 ≤ circle_angle EPS pi_t2 a ∧ circle_angle EPS pi_t2 a < pi_t2
    ∧ (|a| < EPS → circle_angle EPS pi_t2 a = 0)
    ∧ (¬ |a| < EPS → (0 ≤ a → circle_angle EPS pi_t2 a = a)
        ∧ (a < 0 → circle_angle EPS pi_t2 a = a + pi_t2)) := by
  have hp : 0 < pi_t2 := by linarith
  unfold circle_angle sanitize
  by_cases h : |a| < EPS
  · simp [eqz, h, hp]
  · by_cases h2 : 0 ≤ a
    · have i1 : ¬ a < 0 := not_lt.mpr h2
      simp [eqz, h, h2, i1, hhi]
    · have i1 : a < 0 := not_le.mp h2
      simp [eqz, h, h2, i1]
      linarith

end Scalar

/-- C16 (as stated) fails: with `EPS = 1/1000`, `0` ties with `3/5000` and `3/5000` ties with
`6/5000`, but `cmp 0 (6/5000) = -1`; in the other direction `cmp <= 0` holds twice and the
composite is `1`. -/
theorem cmp_not_transitive :
    cmp (1 / 1000 : ℚ) 0 (3 / 5000) = 0 ∧ cmp (1 / 1000 : ℚ) (3 / 5000) (6 / 5000) = 0
    ∧ cmp (1 / 1000 : ℚ) 0 (6 / 5000) = -1
    ∧ cmp (1 / 1000 : ℚ) (6 / 5000) (3 / 5000) ≤ 0 ∧ cmp (1 / 1000 : ℚ) (3 / 5000) 0 ≤ 0
    ∧ cmp (1 / 1000 : ℚ) (6 / 5000) 0 = 1 := by
  refine ⟨?_, ?_, ?_, ?_, ?_, ?_⟩ <;> norm_num [cmp, eqz, abs_lt]

theorem cmp_spec_witness :
    (0 : ℚ) < 1 / 1000
    ∧ ((cmp (1 / 1000 : ℚ) 0 1 = 0 ↔ |(0 : ℚ) - 1| < 1 / 1000)
    ∧ (¬ |(0 : ℚ) - 1| < 1 / 1000 →
        ((0 : ℚ) < 1 → cmp (1 / 1000 : ℚ) 0 1 = -1) ∧ ((1 : ℚ) < 0 → cmp (1 / 1000 : ℚ) 0 1 = 1))
    ∧ (cmp (1 / 1000 : ℚ) 0 1 = -1 ∨ cmp (1 / 1000 : ℚ) 0 1 = 0 ∨ cmp (1 / 1000 : ℚ) 0 1 = 1)
    ∧ (cmp (1 / 1000 : ℚ) 0 1 ≤ 0 ∨ cmp (1 / 1000 : ℚ) 1 0 ≤ 0)
    ∧ cmp (1 / 1000 : ℚ) 1 0 = -cmp (1 / 1000 : ℚ) 0 1
    ∧ (cmp (1 / 1000 : ℚ) 0 1 < 0 → cmp (1 / 1000 : ℚ) 1 2 < 0 → cmp (1 / 1000 : ℚ) 0 2 < 0)) :=
  ⟨by norm_num, cmp_spec (1 / 1000) 0 1 2 (by norm_num)⟩

theorem circle_angle_range_witness :
    -(6 : ℚ) < -1 / 2000 ∧ (-1 / 2000 : ℚ) < 6 ∧ circle_angle (1 / 1000 : ℚ) 6 (-1 / 2000) = 0
    ∧ circle_angle (1 / 1000 : ℚ) 6 (-1) = 5 :=
  ⟨by norm_num, by norm_num,
    (circle_angle_range (1 / 1000) 6 (-1 / 2000) (by norm_num) (by norm_num)).2.2.1
      (by norm_num [abs_lt]),
    by norm_num [circle_angle, sanitize, eqz, abs_lt]⟩



/-! ## Line equality -/

section LineEq

variable {T : Type} [LinearOrderedField T]

/-- Where the first line is not horizontal (`a ≠ 0`), `operator==` against a valid line is
proportionality of the coefficient triples. -/
theorem Line.eq_iff_of_a_ne (L M : Line T) (ha : L.a ≠ 0) (hM : M.a ≠ 0 ∨ M.b ≠ 0) :
    Line.eq L M = true ↔ ∃ k : T, k ≠ 0 ∧ M.a = k * L.a ∧ M.b = k * L.b ∧ M.c = k * L.c := by
  simp only [Line.eq, Line.is_parallel, Bool.and_eq_true, decide_eq_true_eq]
  constructor
  · rintro ⟨h1, h2⟩
    have hMa : M.a ≠ 0 := by
      intro h0
      rw [h0, mul_zero] at h1
      rcases hM with h | h
      · exact h h0
      · exact h ((mul_eq_zero.mp h1).resolve_left ha)
    refine ⟨M.a / L.a, div_ne_zero hMa ha, ?_, ?_, ?_⟩
    · field_simp
    · field_simp
      linear_combination h1
    · field_simp
      linear_combination h2
  · rintro ⟨k, -, h1, h2, h3⟩
    rw [h1, h2, h3]
    constructor <;> ring

end LineEq

/-- C18 fails in the code: the horizontal lines `y = 1` and `y = 2`, as built by the two-point
constructor, are valid, have non-proportional coefficients and no common point, and
`operator==` returns true on them. -/
theorem Line.eq_distinct_horizontal :
    Line.ofPoints (⟨0, 1⟩ : Point ℚ) ⟨1, 1⟩ = ⟨0, 1, -1⟩
    ∧ Line.ofPoints (⟨0, 2⟩ : Point ℚ) ⟨1, 2⟩ = ⟨0, 1, -2⟩
    ∧ Line.eq (⟨0, 1, -1⟩ : Line ℚ) ⟨0, 1, -2⟩ = true
    ∧ (∀ p : Point ℚ, ¬ (Line.Contains ⟨0, 1, -1⟩ p ∧ Line.Contains ⟨0, 1, -2⟩ p))
    ∧ ¬ ∃ k : ℚ, (0 : ℚ) = k * 0 ∧ (1 : ℚ) = k * 1 ∧ (-2 : ℚ) = k * (-1) := by
  refine ⟨?_, ?_, ?_, ?_, ?_⟩
  · norm_num [Line.ofPoints]
  · norm_num [Line.ofPoints]
  · norm_num [Line.eq, Line.is_parallel]
  · rintro p ⟨h1, h2⟩
    simp only [Line.Contains] at h1 h2
    linarith
  · rintro ⟨k, -, h1, h2⟩
    linarith

/-! ## Circles: touching perimeters and tangent points -/

section CircleOps

variable {T : Type} [LinearOrderedField T]

theorem eps_less_iff (EPS u v : T) (hE : 0 < EPS) : eps_less EPS u v = true ↔ u + EPS ≤ v := by
  simp only [eps_less, eps_equal, eqz, Bool.and_eq_true, decide_eq_true_eq,
    Bool.not_eq_true', decide_eq_false_iff_not, not_lt]
  constructor
  · rintro ⟨h1, h2⟩
    rw [abs_of_neg (by linarith)] at h2
    linarith
  · intro h
    have h1 : u < v := by linarith
    refine ⟨h1, ?_⟩
    rw [abs_of_neg (by linarith)]
    linarith

/-- C14: for `EPS > 0`, `perimeters_touch` is true exactly when the distance of the centres
is within the tolerance of the interval `[|r1 - r2|, r1 + r2]`, that is
`|r1 - r2| - EPS < dist < r1 + r2 + EPS`; in particular it is true whenever
`|r1 - r2| <= dist <= r1 + r2`, and the result is symmetric in the two circles. -/
theorem Circle.perimeters_touch_spec (sqrt : T → T) (EPS : T) (c1 c2 : Circle T)
    (hE : 0 < EPS) :
    (Circle.perimeters_touch sqrt EPS c1 c2 = true ↔
      |c1.r - c2.r| - EPS < Point.distance sqrt ⟨c2.x, c2.y⟩ ⟨c1.x, c1.y⟩
      ∧ Point.distance sqrt ⟨c2.x, c2.y⟩ ⟨c1.x, c1.y⟩ < c1.r + c2.r + EPS)
    ∧ (|c1.r - c2.r| ≤ Point.distance sqrt ⟨c2.x, c2.y⟩ ⟨c1.x, c1.y⟩
        → Point.distance sqrt ⟨c2.x, c2.y⟩ ⟨c1.x, c1.y⟩ ≤ c1.r + c2.r
        → Circle.perimeters_touch sqrt EPS c1 c2 = true)
    ∧ Circle.perimeters_touch sqrt EPS c1 c2 = Circle.perimeters_touch sqrt EPS c2 c1 := by
  have key : ∀ a b : Circle T, (Circle.perimeters_touch sqrt EPS a b = true ↔
      |a.r - b.r| - EPS < Point.distance sqrt ⟨b.x, b.y⟩ ⟨a.x, a.y⟩
      ∧ Point.distance sqrt ⟨b.x, b.y⟩ ⟨a.x, a.y⟩ < a.r + b.r + EPS) := by
    intro a b
    simp only [Circle.perimeters_touch, Point.distance, Bool.not_eq_true', Bool.or_eq_false_iff]
    rw [← Bool.not_eq_true, ← Bool.not_eq_true, eps_less_iff _ _ _ hE, eps_less_iff _ _ _ hE]
    constructor
    · rintro ⟨h1, h2⟩
      constructor <;> linarith [not_le.mp h1, not_le.mp h2]
    · rintro ⟨h1, h2⟩
      constructor <;> apply not_le.mpr <;> linarith
  refine ⟨key c1 c2, ?_, ?_⟩
  · intro h1 h2
    rw [key]
    constructor <;> linarith
  · have hd : Point.distance sqrt ⟨c2.x, c2.y⟩ ⟨c1.x, c1.y⟩
        = Point.distance sqrt ⟨c1.x, c1.y⟩ ⟨c2.x, c2.y⟩ := by
      simp only [Point.distance]
      congr 1
      ring
    rw [Bool.eq_iff_iff, key c1 c2, key c2 c1, hd, abs_sub_comm c1.r c2.r, add_comm c1.r c2.r]

end CircleOps



section Tangent

variable {T : Type} [LinearOrderedField T]

theorem sqrt_of_sq {sqrt : T → T} (hs : ∀ x, 0 ≤ x → 0 ≤ sqrt x ∧ sqrt x * sqrt x = x)
    (y : T) (hy : 0 ≤ y) : sqrt (y * y) = y := by
  obtain ⟨h1, h2⟩ := hs (y * y) (mul_self_nonneg y)
  have : (sqrt (y * y) - y) * (sqrt (y * y) + y) = 0 := by
    linear_combination h2
  rcases mul_eq_zero.mp this with h | h
  · linarith
  · have h3 : sqrt (y * y) = 0 := by linarith
    have h4 : y = 0 := by linarith
    rw [h4] at h3 ⊢
    linarith

/-- C15: for a circle of radius `r >= 0` and a point `p` strictly outside it, with `sqrt` a
non-negative square root on non-negative arguments, `tangentPoints` divides by no zero and
writes two points `p1`, `p2` that lie on the circle, at which the line from `p` is
perpendicular to the radius, and whose distance from `p` is `sqrt(|O - p|^2 - r^2)`. -/
theorem Circle.tangentPoints_spec (sqrt : T → T) (c : Circle T) (p : Point T)
    (hs : ∀ x, 0 ≤ x → 0 ≤ sqrt x ∧ sqrt x * sqrt x = x)
    (hr : 0 ≤ c.r) (hout : c.r < Point.distance sqrt ⟨c.x, c.y⟩ p) :
    ∃ p1 p2 : Point T, Circle.tangentPoints sqrt c p = some (p1, p2)
      ∧ Point.distance sqrt ⟨c.x, c.y⟩ p1 = c.r ∧ Point.distance sqrt ⟨c.x, c.y⟩ p2 = c.r
      ∧ (p1.x - p.x) * (p1.x - c.x) + (p1.y - p.y) * (p1.y - c.y) = 0
      ∧ (p2.x - p.x) * (p2.x - c.x) + (p2.y - p.y) * (p2.y - c.y) = 0
      ∧ Point.distance sqrt p p1
          = sqrt ((c.x - p.x) * (c.x - p.x) + (c.y - p.y) * (c.y - p.y) - c.r * c.r)
      ∧ Point.distance sqrt p p2
          = sqrt ((c.x - p.x) * (c.x - p.x) + (c.y - p.y) * (c.y - p.y) - c.r * c.r) := by
  obtain ⟨cx, cy, r⟩ := c
  obtain ⟨px, py⟩ := p
  simp only at hr hout ⊢
  set h2 : T := (cx - px) * (cx - px) + (cy - py) * (cy - py) with hh2
  have hh2nn : 0 ≤ h2 := by
    rw [hh2]
    nlinarith [mul_self_nonneg (cx - px), mul_self_nonneg (cy - py)]
  have hd : Point.distance sqrt ⟨cx, cy⟩ ⟨px, py⟩ = sqrt h2 := by
    simp only [Point.distance]
    congr 1
    rw [hh2]
    ring
  rw [hd] at hout
  obtain ⟨d0, d1⟩ := hs h2 hh2nn
  have hlt : r * r < h2 := by
    rw [← d1]
    nlinarith
  have hne : h2 ≠ 0 := by
    intro h0
    rw [h0] at hlt
    nlinarith [mul_self_nonneg r]
  obtain ⟨s0, s1⟩ := hs (h2 - r * r) (by linarith)
  set s : T := sqrt (h2 - r * r) with hsdef
  have e1 : divChecked (s * ((cx - px) * s - (cy - py) * r)) h2
      = some (s * ((cx - px) * s - (cy - py) * r) / h2) := divChecked_of_ne _ hne
  have e2 : divChecked (s * ((cy - py) * s + (cx - px) * r)) h2
      = some (s * ((cy - py) * s + (cx - px) * r) / h2) := divChecked_of_ne _ hne
  have e3 : divChecked (s * ((cx - px) * s + (cy - py) * r)) h2
      = some (s * ((cx - px) * s + (cy - py) * r) / h2) := divChecked_of_ne _ hne
  have e4 : divChecked (s * ((cy - py) * s - (cx - px) * r)) h2
      = some (s * ((cy - py) * s - (cx - px) * r) / h2) := divChecked_of_ne _ hne
  clear_value s h2
  have F1 : ∀ σ : T, σ * σ = 1 →
      (s * ((cx - px) * s - σ * (cy - py) * r) / h2) * (s * ((cx - px) * s - σ * (cy - py) * r) / h2)
      + (s * ((cy - py) * s + σ * (cx - px) * r) / h2) * (s * ((cy - py) * s + σ * (cx - px) * r) / h2)
      = s * s := by
    intro σ hσ
    field_simp
    linear_combination (-(s * s) * (s * s + r * r)) * hh2 + (s * s * h2) * s1
      + (s * s * r * r * ((cx - px) * (cx - px) + (cy - py) * (cy - py))) * hσ
  have F2 : ∀ σ : T,
      (cx - px) * (s * ((cx - px) * s - σ * (cy - py) * r) / h2)
      + (cy - py) * (s * ((cy - py) * s + σ * (cx - px) * r) / h2) = s * s := by
    intro σ
    field_simp
    linear_combination (-(s * s)) * hh2
  have G : ∀ σ : T, σ * σ = 1 → ∀ q : Point T,
      q = ⟨px + s * ((cx - px) * s - σ * (cy - py) * r) / h2,
        py + s * ((cy - py) * s + σ * (cx - px) * r) / h2⟩ →
      Point.distance sqrt ⟨cx, cy⟩ q = r
      ∧ (q.x - px) * (q.x - cx) + (q.y - py) * (q.y - cy) = 0
      ∧ Point.distance sqrt ⟨px, py⟩ q = s := by
    intro σ hσ q hq
    have f1 := F1 σ hσ
    have f2 := F2 σ
    subst hq
    refine ⟨?_, ?_, ?_⟩
    · simp only [Point.distance]
      have : (px + s * ((cx - px) * s - σ * (cy - py) * r) / h2 - cx)
            * (px + s * ((cx - px) * s - σ * (cy - py) * r) / h2 - cx)
          + (py + s * ((cy - py) * s + σ * (cx - px) * r) / h2 - cy)
            * (py + s * ((cy - py) * s + σ * (cx - px) * r) / h2 - cy) = r * r := by
        linear_combination f1 - 2 * f2 - s1 - hh2
      rw [this]
      exact sqrt_of_sq hs r hr
    · simp only
      linear_combination f1 - f2
    · simp only [Point.distance]
      have : (px + s * ((cx - px) * s - σ * (cy - py) * r) / h2 - px)
            * (px + s * ((cx - px) * s - σ * (cy - py) * r) / h2 - px)
          + (py + s * ((cy - py) * s + σ * (cx - px) * r) / h2 - py)
            * (py + s * ((cy - py) * s + σ * (cx - px) * r) / h2 - py) = s * s := by
        linear_combination f1
      rw [this]
      exact sqrt_of_sq hs s s0
  have g1 := G 1 (by ring) ⟨px + s * ((cx - px) * s - (cy - py) * r) / h2,
      py + s * ((cy - py) * s + (cx - px) * r) / h2⟩ (by simp)
  have g2 := G (-1) (by ring) ⟨px + s * ((cx - px) * s + (cy - py) * r) / h2,
      py + s * ((cy - py) * s - (cx - px) * r) / h2⟩ (by
        congr 1 <;> ring)
  refine ⟨⟨px + s * ((cx - px) * s - (cy - py) * r) / h2,
      py + s * ((cy - py) * s + (cx - px) * r) / h2⟩,
    ⟨px + s * ((cx - px) * s + (cy - py) * r) / h2,
      py + s * ((cy - py) * s - (cx - px) * r) / h2⟩, ?_, g1.1, g2.1, g1.2.1, g2.2.1, g1.2.2,
      g2.2.2⟩
  simp only [Circle.tangentPoints, ← hh2, ← hsdef, e1, e2, e3, e4]

end Tangent

theorem real_sqrt_sq_eq (y : ℝ) (hy : 0 ≤ y) (x : ℝ) (hx : x = y * y) : Real.sqrt x = y := by
  rw [hx]
  exact Real.sqrt_mul_self hy

theorem Circle.perimeters_touch_spec_witness :
    (0 : ℝ) < 1 / 1000
    ∧ Circle.perimeters_touch Real.sqrt (1 / 1000) ⟨0, 0, 5⟩ ⟨8, 0, 3⟩ = true
    ∧ Circle.perimeters_touch Real.sqrt (1 / 1000) ⟨0, 0, 5⟩ ⟨20, 0, 3⟩ = false := by
  have d8 : Point.distance Real.sqrt (⟨8, 0⟩ : Point ℝ) ⟨0, 0⟩ = 8 := by
    simp only [Point.distance]
    exact real_sqrt_sq_eq 8 (by norm_num) _ (by norm_num)
  have d20 : Point.distance Real.sqrt (⟨20, 0⟩ : Point ℝ) ⟨0, 0⟩ = 20 := by
    simp only [Point.distance]
    exact real_sqrt_sq_eq 20 (by norm_num) _ (by norm_num)
  refine ⟨by norm_num, ?_, ?_⟩
  · apply (Circle.perimeters_touch_spec Real.sqrt (1 / 1000) ⟨0, 0, 5⟩ ⟨8, 0, 3⟩
      (by norm_num)).2.1
    · simp only [d8]
      norm_num
    · simp only [d8]
      norm_num
  · rw [← Bool.not_eq_true]
    intro h
    have h2 := ((Circle.perimeters_touch_spec Real.sqrt (1 / 1000) ⟨0, 0, 5⟩ ⟨20, 0, 3⟩
      (by norm_num)).1.mp h).2
    simp only [d20] at h2
    norm_num at h2

theorem Circle.tangentPoints_spec_witness :
    ∃ p1 p2 : Point ℝ, Circle.tangentPoints Real.sqrt ⟨0, 0, 3⟩ ⟨5, 0⟩ = some (p1, p2)
      ∧ Point.distance Real.sqrt ⟨0, 0⟩ p1 = 3 ∧ Point.distance Real.sqrt ⟨0, 0⟩ p2 = 3
      ∧ (p1.x - 5) * (p1.x - 0) + (p1.y - 0) * (p1.y - 0) = 0
      ∧ (p2.x - 5) * (p2.x - 0) + (p2.y - 0) * (p2.y - 0) = 0
      ∧ Point.distance Real.sqrt ⟨5, 0⟩ p1
          = Real.sqrt ((0 - 5) * (0 - 5) + (0 - 0) * (0 - 0) - 3 * 3)
      ∧ Point.distance Real.sqrt ⟨5, 0⟩ p2
          = Real.sqrt ((0 - 5) * (0 - 5) + (0 - 0) * (0 - 0) - 3 * 3) :=
  Circle.tangentPoints_spec Real.sqrt ⟨0, 0, 3⟩ ⟨5, 0⟩
    (fun x hx => ⟨Real.sqrt_nonneg x, Real.mul_self_sqrt hx⟩) (by norm_num)
    (by
      have d5 : Point.distance Real.sqrt (⟨0, 0⟩ : Point ℝ) ⟨5, 0⟩ = 5 := by
        simp only [Point.distance]
        exact real_sqrt_sq_eq 5 (by norm_num) _ (by norm_num)
      simp only [d5]
      norm_num)



/-! ## Polygon area -/

section PolyArea

variable {T : Type} [LinearOrderedCommRing T]

/-- The loop adds, edge by edge, the trapezoid terms; along a path they telescope to the
negated shoelace terms. -/
theorem areaLoop_eq (l : List (Point T)) : ∀ (a : T) (q : Point T),
    areaLoop a q l = a + q.x * q.y
      - ((q :: l).getLast (List.cons_ne_nil q l)).x * ((q :: l).getLast (List.cons_ne_nil q l)).y
      - pathSum q l := by
  induction l with
  | nil =>
    intro a q
    simp [areaLoop, pathSum]
  | cons r rest ih =>
    intro a q
    rw [areaLoop, ih, pathSum, List.getLast_cons (List.cons_ne_nil r rest)]
    ring

theorem pathSum_eq_sum (l : List (Point T)) : ∀ q : Point T,
    pathSum q l = ∑ i in Finset.range l.length,
      (((q :: l).getD i ⟨0, 0⟩).x * ((q :: l).getD (i + 1) ⟨0, 0⟩).y
        - ((q :: l).getD (i + 1) ⟨0, 0⟩).x * ((q :: l).getD i ⟨0, 0⟩).y) := by
  induction l with
  | nil =>
    intro q
    simp [pathSum]
  | cons r rest ih =>
    intro q
    rw [pathSum, ih, List.length_cons, Finset.sum_range_succ']
    simp only [List.getD_cons_succ, List.getD_cons_zero]
    ring

theorem pathSum_append (l : List (Point T)) : ∀ (q r : Point T),
    pathSum q (l ++ [r]) = pathSum q l
      + (((q :: l).getLast (List.cons_ne_nil q l)).x * r.y
        - r.x * ((q :: l).getLast (List.cons_ne_nil q l)).y) := by
  induction l with
  | nil =>
    intro q r
    simp [pathSum]
  | cons z rest ih =>
    intro q r
    rw [List.cons_append, pathSum, ih, pathSum, List.getLast_cons (List.cons_ne_nil z rest)]
    ring

theorem getD_length_cons {α : Type} (t : List α) : ∀ (x d : α),
    (x :: t).getD t.length d = (x :: t).getLast (List.cons_ne_nil x t) := by
  induction t with
  | nil =>
    intro x d
    simp
  | cons y rest ih =>
    intro x d
    rw [List.length_cons, List.getD_cons_succ, ih, List.getLast_cons (List.cons_ne_nil y rest)]

/-- The cyclic shoelace sum of a non-empty polygon is the path sum plus the closing edge. -/
theorem shoelace_cons (x : Point T) (t : List (Point T)) :
    shoelace (x :: t) = pathSum x t
      + (((x :: t).getLast (List.cons_ne_nil x t)).x * x.y
        - x.x * ((x :: t).getLast (List.cons_ne_nil x t)).y) := by
  unfold shoelace
  rw [List.length_cons, Finset.sum_range_succ, Nat.mod_self, getD_length_cons, pathSum_eq_sum]
  congr 1
  apply Finset.sum_congr rfl
  intro i hi
  rw [Finset.mem_range] at hi
  rw [Nat.mod_eq_of_lt (by omega)]

theorem pathSum_reverse (l : List (Point T)) : ∀ (q z : Point T) (m : List (Point T)),
    (q :: l).reverse = z :: m → pathSum z m = -pathSum q l := by
  induction l with
  | nil =>
    intro q z m h
    simp only [List.reverse_cons, List.reverse_nil, List.nil_append, List.cons.injEq] at h
    obtain ⟨-, rfl⟩ := h
    simp [pathSum]
  | cons r rest ih =>
    intro q z m h
    rw [List.reverse_cons] at h
    obtain ⟨z1, m1, h1⟩ : ∃ z1 m1, (r :: rest).reverse = z1 :: m1 := by
      cases hc : (r :: rest).reverse with
      | nil => simp at hc
      | cons a b => exact ⟨a, b, rfl⟩
    rw [h1, List.cons_append, List.cons.injEq] at h
    obtain ⟨rfl, rfl⟩ := h
    have hl : (z1 :: m1).getLast (List.cons_ne_nil z1 m1) = r := by
      have : (z1 :: m1).getLast (List.cons_ne_nil z1 m1)
          = (r :: rest).reverse.getLast (by simp) := by
        simp only [h1]
      rw [this, List.getLast_reverse]
      simp
    rw [pathSum_append, ih r z1 m1 h1, hl, pathSum]
    ring

theorem shoelace_reverse (p : List (Point T)) : shoelace p.reverse = -shoelace p := by
  cases p with
  | nil => simp [shoelace]
  | cons x t =>
    obtain ⟨z, m, h⟩ : ∃ z m, (x :: t).reverse = z :: m := by
      cases hc : (x :: t).reverse with
      | nil => simp at hc
      | cons a b => exact ⟨a, b, rfl⟩
    have hz : z = (x :: t).getLast (List.cons_ne_nil x t) := by
      have : (x :: t).reverse.head (by simp) = z := by
        simp only [h, List.head_cons]
      rw [← this, List.head_reverse]
    have hl : (z :: m).getLast (List.cons_ne_nil z m) = x := by
      have : (z :: m).getLast (List.cons_ne_nil z m)
          = (x :: t).reverse.getLast (by simp) := by
        simp only [h]
      rw [this, List.getLast_reverse]
      simp
    rw [h, shoelace_cons, shoelace_cons, pathSum_reverse t x z m h, hl, ← hz]
    ring

/-- The accumulator of `poly_area2` before the sign is dropped is the negated shoelace sum. -/
theorem trapezoid_eq_neg_shoelace (p : List (Point T)) (l : Point T)
    (hl : p.getLast? = some l) : areaLoop 0 l p = -shoelace p := by
  cases p with
  | nil => simp at hl
  | cons x t =>
    rw [List.getLast?_eq_getLast (x :: t) (List.cons_ne_nil x t), Option.some.injEq] at hl
    subst hl
    rw [areaLoop_eq, shoelace_cons, pathSum, List.getLast_cons (List.cons_ne_nil x t)]
    ring

/-- C12: `poly_area2` is the absolute value of the shoelace sum with cyclic indices (the
trapezoid-form accumulator of the code being its negation), hence non-negative and unchanged
when the vertex order is reversed; every vertex list, the empty one included. -/
theorem poly_area2_spec (p : List (Point T)) :
    poly_area2 p = |shoelace p|
    ∧ (∀ l, p.getLast? = some l → areaLoop 0 l p = -shoelace p)
    ∧ 0 ≤ poly_area2 p
    ∧ poly_area2 p.reverse = poly_area2 p := by
  have key : ∀ q : List (Point T), poly_area2 q = |shoelace q| := by
    intro q
    unfold poly_area2
    cases hq : q.getLast? with
    | none =>
      rw [List.getLast?_eq_none_iff] at hq
      subst hq
      simp [shoelace]
    | some l =>
      simp only
      rw [trapezoid_eq_neg_shoelace q l hq]
      split_ifs with h
      · rw [mul_neg_one, neg_neg, abs_of_pos (by linarith)]
      · rw [← abs_neg, abs_of_nonneg (by linarith)]
  refine ⟨key p, trapezoid_eq_neg_shoelace p, ?_, ?_⟩
  · rw [key]
    exact abs_nonneg _
  · rw [key, key, shoelace_reverse, abs_neg]

end PolyArea

/-- The spec's example: the unit square has double area 2. -/
theorem poly_area2_unitSquare : poly_area2 unitSquare = 2 ∧ shoelace unitSquare = 2 := by
  decide



/-! ## Lattice points on a segment -/

theorem gcd_abs (u v : ℤ) : gcd |u| |v| = Int.gcd u v := by
  simp [gcd, Int.gcd, Int.natAbs_abs]

theorem lattice_pts_eq (a b : Point ℤ) :
    lattice_pts a b = gcd |a.y - b.y| |a.x - b.x| + 1 := by
  unfold lattice_pts
  split_ifs with h
  · rw [h, sub_self, gcd_abs]
    simp [Int.gcd]
  · rfl

theorem lattice_pts_eq_gcd (a b : Point ℤ) :
    lattice_pts a b = (Int.gcd (b.x - a.x) (b.y - a.y) : ℤ) + 1 := by
  rw [lattice_pts_eq, gcd_abs, Int.gcd_comm]
  congr 2
  rw [← Int.gcd_neg, ← Int.neg_gcd, neg_sub, neg_sub]

theorem mem_segmentPts (a b z : Point ℤ) :
    z ∈ segmentPts a b ↔ Point.cross a b z = 0
      ∧ (min a.x b.x ≤ z.x ∧ z.x ≤ max a.x b.x) ∧ (min a.y b.y ≤ z.y ∧ z.y ≤ max a.y b.y) := by
  obtain ⟨zx, zy⟩ := z
  simp only [segmentPts, Finset.mem_image, Finset.mem_filter, Finset.mem_product, Finset.mem_Icc,
    Prod.exists, Point.mk.injEq]
  constructor
  · rintro ⟨u, v, ⟨⟨hx, hy⟩, hc⟩, rfl, rfl⟩
    exact ⟨hc, hx, hy⟩
  · rintro ⟨hc, hx, hy⟩
    exact ⟨zx, zy, ⟨⟨hx, hy⟩, hc⟩, rfl, rfl⟩

theorem step_bounds (g d k p w : ℤ) (hg : 0 < g) (hd : d ≠ 0) (hk : k * d = w - p)
    (h1 : min p (p + g * d) ≤ w) (h2 : w ≤ max p (p + g * d)) : 0 ≤ k ∧ k ≤ g := by
  rcases lt_or_gt_of_ne hd with hneg | hpos
  · have hgd : g * d < 0 := mul_neg_of_pos_of_neg hg hneg
    have q : p + g * d ≤ p := by linarith
    rw [min_eq_right q] at h1
    rw [max_eq_left q] at h2
    constructor
    · by_contra hc
      have : 0 < k * d := mul_pos_of_neg_of_neg (not_le.mp hc) hneg
      linarith
    · by_contra hc
      have : (k - g) * d < 0 := mul_neg_of_pos_of_neg (by linarith [not_le.mp hc]) hneg
      nlinarith
  · have hgd : 0 < g * d := mul_pos hg hpos
    have q : p ≤ p + g * d := by linarith
    rw [min_eq_left q] at h1
    rw [max_eq_right q] at h2
    constructor
    · by_contra hc
      have : k * d < 0 := mul_neg_of_neg_of_pos (not_le.mp hc) hpos
      linarith
    · by_contra hc
      have : 0 < (k - g) * d := mul_pos (by linarith [not_le.mp hc]) hpos
      nlinarith

theorem step_between (g d k p : ℤ) (hk0 : 0 ≤ k) (hk1 : k ≤ g) :
    min p (p + g * d) ≤ p + k * d ∧ p + k * d ≤ max p (p + g * d) := by
  rcases le_total 0 d with h | h
  · have e1 : 0 ≤ k * d := mul_nonneg hk0 h
    have e2 : 0 ≤ (g - k) * d := mul_nonneg (by linarith) h
    have p1 : p ≤ p + g * d := by nlinarith
    rw [min_eq_left p1, max_eq_right p1]
    constructor <;> nlinarith
  · have e1 : k * d ≤ 0 := mul_nonpos_of_nonneg_of_nonpos hk0 h
    have e2 : (g - k) * d ≤ 0 := mul_nonpos_of_nonneg_of_nonpos (by linarith) h
    have p1 : p + g * d ≤ p := by nlinarith
    rw [min_eq_right p1, max_eq_left p1]
    constructor <;> nlinarith

/-- The integer points on the segment are the multiples `a + k * ((b - a) / g)`, `0 <= k <= g`,
of the primitive step, `g` being the gcd of the coordinate differences. -/
theorem mem_segmentPts_iff_step (a b z : Point ℤ) (hg : 0 < Int.gcd (b.x - a.x) (b.y - a.y)) :
    z ∈ segmentPts a b ↔ ∃ k : ℕ, k ≤ Int.gcd (b.x - a.x) (b.y - a.y)
      ∧ z.x = a.x + k * ((b.x - a.x) / (Int.gcd (b.x - a.x) (b.y - a.y) : ℤ))
      ∧ z.y = a.y + k * ((b.y - a.y) / (Int.gcd (b.x - a.x) (b.y - a.y) : ℤ)) := by
  obtain ⟨ax, ay⟩ := a
  obtain ⟨bx, bY⟩ := b
  obtain ⟨zx, zy⟩ := z
  simp only at hg ⊢
  rw [mem_segmentPts]
  simp only [Point.cross]
  set g : ℕ := Int.gcd (bx - ax) (bY - ay) with hgdef
  have hgz : (0 : ℤ) < (g : ℤ) := by exact_mod_cast hg
  obtain ⟨dx, hdx⟩ : ∃ dx : ℤ, bx - ax = g * dx := Int.gcd_dvd_left
  obtain ⟨dy, hdy⟩ : ∃ dy : ℤ, bY - ay = g * dy := Int.gcd_dvd_right
  have ex : (bx - ax) / (g : ℤ) = dx := by
    rw [hdx]
    exact Int.mul_ediv_cancel_left dx hgz.ne'
  have ey : (bY - ay) / (g : ℤ) = dy := by
    rw [hdy]
    exact Int.mul_ediv_cancel_left dy hgz.ne'
  rw [ex, ey]
  have hcop : Int.gcd dx dy = 1 := by
    have := Int.gcd_div_gcd_div_gcd hg
    rw [← hgdef, ex, ey] at this
    exact this
  have hbez : (Int.gcd dx dy : ℤ) = dx * Int.gcdA dx dy + dy * Int.gcdB dx dy :=
    Int.gcd_eq_gcd_ab dx dy
  rw [hcop] at hbez
  set u := Int.gcdA dx dy
  set v := Int.gcdB dx dy
  have hd0 : dx ≠ 0 ∨ dy ≠ 0 := by
    by_contra hc
    push_neg at hc
    rw [hc.1, hc.2] at hbez
    simp at hbez
  clear_value g u v
  have hbx : bx = ax + g * dx := by linarith
  have hby : bY = ay + g * dy := by linarith
  subst hbx hby
  constructor
  · rintro ⟨hc, ⟨hx1, hx2⟩, ⟨hy1, hy2⟩⟩
    have hc2 : dx * (zy - ay) = dy * (zx - ax) := by
      have : (g : ℤ) * (dx * (zy - ay) - dy * (zx - ax)) = 0 := by
        linear_combination hc
      rcases mul_eq_zero.mp this with h | h
      · exact absurd h hgz.ne'
      · linarith
    have kx : (u * (zx - ax) + v * (zy - ay)) * dx = zx - ax := by
      linear_combination v * hc2 - (zx - ax) * hbez
    have ky : (u * (zx - ax) + v * (zy - ay)) * dy = zy - ay := by
      linear_combination (-u) * hc2 - (zy - ay) * hbez
    set k : ℤ := u * (zx - ax) + v * (zy - ay)
    clear_value k
    have hk : 0 ≤ k ∧ k ≤ g := by
      rcases hd0 with h | h
      · exact step_bounds g dx k ax zx hgz h kx hx1 hx2
      · exact step_bounds g dy k ay zy hgz h ky hy1 hy2
    refine ⟨k.toNat, ?_, ?_, ?_⟩
    · have : (k.toNat : ℤ) = k := Int.toNat_of_nonneg hk.1
      have h2 := hk.2
      omega
    · rw [Int.toNat_of_nonneg hk.1]
      linarith
    · rw [Int.toNat_of_nonneg hk.1]
      linarith
  · rintro ⟨k, hk, hx, hy⟩
    have hk0 : (0 : ℤ) ≤ k := Int.natCast_nonneg k
    have hk1 : (k : ℤ) ≤ g := by exact_mod_cast hk
    subst hx hy
    exact ⟨by ring, step_between g dx k ax hk0 hk1, step_between g dy k ay hk0 hk1⟩

theorem segmentPts_self (a z : Point ℤ) : z ∈ segmentPts a a ↔ z = a := by
  rw [mem_segmentPts]
  obtain ⟨ax, ay⟩ := a
  obtain ⟨zx, zy⟩ := z
  simp only [Point.cross, min_self, max_self, Point.mk.injEq]
  constructor
  · rintro ⟨-, ⟨h1, h2⟩, ⟨h3, h4⟩⟩
    exact ⟨le_antisymm h2 h1, le_antisymm h4 h3⟩
  · rintro ⟨rfl, rfl⟩
    exact ⟨by ring, ⟨le_refl _, le_refl _⟩, ⟨le_refl _, le_refl _⟩⟩

theorem eq_of_gcd_eq_zero (a b : Point ℤ) (hg : Int.gcd (b.x - a.x) (b.y - a.y) = 0) :
    a = b := by
  obtain ⟨h1, h2⟩ := Int.gcd_eq_zero_iff.mp hg
  obtain ⟨ax, ay⟩ := a
  obtain ⟨bx, bY⟩ := b
  simp only [Point.mk.injEq] at h1 h2 ⊢
  constructor <;> linarith

theorem card_segmentPts (a b : Point ℤ) :
    (segmentPts a b).card = Int.gcd (b.x - a.x) (b.y - a.y) + 1 := by
  rcases Nat.eq_zero_or_pos (Int.gcd (b.x - a.x) (b.y - a.y)) with hg | hg
  · have hab := eq_of_gcd_eq_zero a b hg
    subst hab
    rw [hg]
    have : segmentPts a a = {a} := by
      ext z
      rw [segmentPts_self, Finset.mem_singleton]
    rw [this, Finset.card_singleton]
  · have himg : segmentPts a b = (Finset.range (Int.gcd (b.x - a.x) (b.y - a.y) + 1)).image
        (fun k : ℕ => (⟨a.x + k * ((b.x - a.x) / (Int.gcd (b.x - a.x) (b.y - a.y) : ℤ)),
          a.y + k * ((b.y - a.y) / (Int.gcd (b.x - a.x) (b.y - a.y) : ℤ))⟩ : Point ℤ)) := by
      ext z
      rw [mem_segmentPts_iff_step a b z hg]
      simp only [Finset.mem_image, Finset.mem_range]
      constructor
      · rintro ⟨k, hk, hx, hy⟩
        refine ⟨k, by omega, ?_⟩
        obtain ⟨zx, zy⟩ := z
        simp only at hx hy
        rw [hx, hy]
      · rintro ⟨k, hk, rfl⟩
        exact ⟨k, by omega, rfl, rfl⟩
    rw [himg, Finset.card_image_of_injective, Finset.card_range]
    intro k1 k2 h
    simp only [Point.mk.injEq, add_right_inj] at h
    have hcop := Int.gcd_div_gcd_div_gcd hg
    have hd0 : (b.x - a.x) / (Int.gcd (b.x - a.x) (b.y - a.y) : ℤ) ≠ 0
        ∨ (b.y - a.y) / (Int.gcd (b.x - a.x) (b.y - a.y) : ℤ) ≠ 0 := by
      by_contra hc
      push_neg at hc
      rw [hc.1, hc.2] at hcop
      simp at hcop
    rcases hd0 with h0 | h0
    · exact_mod_cast mul_right_cancel₀ h0 h.1
    · exact_mod_cast mul_right_cancel₀ h0 h.2

/-- The integer points of `segmentPts` are exactly the integer points `a + t * (b - a)`,
`0 <= t <= 1`, of the closed segment. -/
theorem mem_segmentPts_iff_param (a b z : Point ℤ) :
    z ∈ segmentPts a b
      ↔ Segment.Mem (⟨z.x, z.y⟩ : Point ℚ) ⟨a.x, a.y⟩ ⟨b.x, b.y⟩ := by
  constructor
  · intro hz
    rcases Nat.eq_zero_or_pos (Int.gcd (b.x - a.x) (b.y - a.y)) with hg | hg
    · have hab := eq_of_gcd_eq_zero a b hg
      subst hab
      rw [segmentPts_self] at hz
      subst hz
      exact ⟨0, le_refl _, zero_le_one, by simp, by simp⟩
    · obtain ⟨k, hk, hx, hy⟩ := (mem_segmentPts_iff_step a b z hg).mp hz
      have hgq : (0 : ℚ) < (Int.gcd (b.x - a.x) (b.y - a.y) : ℚ) := by exact_mod_cast hg
      have ex : ((Int.gcd (b.x - a.x) (b.y - a.y) : ℤ))
          * ((b.x - a.x) / (Int.gcd (b.x - a.x) (b.y - a.y) : ℤ)) = b.x - a.x :=
        Int.mul_ediv_cancel' Int.gcd_dvd_left
      have ey : ((Int.gcd (b.x - a.x) (b.y - a.y) : ℤ))
          * ((b.y - a.y) / (Int.gcd (b.x - a.x) (b.y - a.y) : ℤ)) = b.y - a.y :=
        Int.mul_ediv_cancel' Int.gcd_dvd_right
      refine ⟨(k : ℚ) / (Int.gcd (b.x - a.x) (b.y - a.y) : ℚ), ?_, ?_, ?_, ?_⟩
      · exact div_nonneg (Nat.cast_nonneg k) hgq.le
      · rw [div_le_one hgq]
        exact_mod_cast hk
      · simp only
        have e1 : ((b.x : ℚ) - a.x) = (Int.gcd (b.x - a.x) (b.y - a.y) : ℚ)
            * (((b.x - a.x) / (Int.gcd (b.x - a.x) (b.y - a.y) : ℤ) : ℤ) : ℚ) := by
          exact_mod_cast ex.symm
        rw [e1, hx]
        push_cast
        field_simp
        ring
      · simp only
        have e1 : ((b.y : ℚ) - a.y) = (Int.gcd (b.x - a.x) (b.y - a.y) : ℚ)
            * (((b.y - a.y) / (Int.gcd (b.x - a.x) (b.y - a.y) : ℤ) : ℤ) : ℚ) := by
          exact_mod_cast ey.symm
        rw [e1, hy]
        push_cast
        field_simp
        ring
  · rintro ⟨t, h0, h1, hx, hy⟩
    simp only at hx hy
    rw [mem_segmentPts]
    have bx := between_of_param h0 h1 hx
    have bY := between_of_param h0 h1 hy
    refine ⟨?_, ⟨?_, ?_⟩, ⟨?_, ?_⟩⟩
    · have : ((Point.cross a b z : ℤ) : ℚ) = 0 := by
        simp only [Point.cross]
        push_cast
        rw [hx, hy]
        ring
      exact_mod_cast this
    · exact_mod_cast bx.1
    · exact_mod_cast bx.2
    · exact_mod_cast bY.1
    · exact_mod_cast bY.2

/-- C13: for integer points `a`, `b`, `lattice_pts a b` is `gcd(|a.y - b.y|, |a.x - b.x|) + 1`
in both branches (so `|a.y - b.y| + 1` on a vertical segment and 1 for `a = b`), and it is the
number of integer grid points on the closed segment from `a` to `b`. -/
theorem lattice_pts_count (a b : Point ℤ) :
    lattice_pts a b = gcd |a.y - b.y| |a.x - b.x| + 1
    ∧ (a.x = b.x → lattice_pts a b = |a.y - b.y| + 1)
    ∧ (a.y = b.y → lattice_pts a b = |a.x - b.x| + 1)
    ∧ lattice_pts a a = 1
    ∧ (∀ z : Point ℤ, z ∈ segmentPts a b
        ↔ ∃ t : ℚ, 0 ≤ t ∧ t ≤ 1 ∧ (z.x : ℚ) = a.x + t * (b.x - a.x)
          ∧ (z.y : ℚ) = a.y + t * (b.y - a.y))
    ∧ ((segmentPts a b).card : ℤ) = lattice_pts a b := by
  refine ⟨lattice_pts_eq a b, ?_, ?_, ?_, ?_, ?_⟩
  · intro h
    simp [lattice_pts, h]
  · intro h
    rw [lattice_pts_eq, h, sub_self, gcd_abs]
    simp [Int.gcd]
  · simp [lattice_pts]
  · intro z
    exact mem_segmentPts_iff_param a b z
  · rw [card_segmentPts, lattice_pts_eq_gcd]
    push_cast
    rfl

/-- The spec's example: the segment from (0,0) to (4,2) carries 3 grid points. -/
theorem lattice_pts_example : lattice_pts ⟨0, 0⟩ ⟨4, 2⟩ = 3 := by
  decide



/-! ## Ray and triangle in space -/

section Space3

variable {T : Type} [LinearOrderedField T]

namespace Point3D

theorem lagrange (u v : Point3D T) :
    u.dot v * u.dot v - u.dot u * v.dot v = -((u.cross v).dot (u.cross v)) := by
  simp only [dot, cross]
  ring

theorem cross_dot_left (u v : Point3D T) : (u.cross v).dot u = 0 := by
  simp only [dot, cross]
  ring

theorem cross_dot_right (u v : Point3D T) : (u.cross v).dot v = 0 := by
  simp only [dot, cross]
  ring

theorem dot_self_pos_of_not_zero (EPS : T) (hE : 0 < EPS) (n : Point3D T)
    (h : n.is_zero EPS = false) : 0 < n.dot n := by
  have hne : n.x ≠ 0 ∨ n.y ≠ 0 ∨ n.z ≠ 0 := by
    by_contra hc
    push_neg at hc
    obtain ⟨h1, h2, h3⟩ := hc
    simp [is_zero, eqz, h1, h2, h3, hE] at h
  simp only [dot]
  rcases hne with h1 | h1 | h1
  · nlinarith [mul_self_pos.mpr h1, mul_self_nonneg n.y, mul_self_nonneg n.z]
  · nlinarith [mul_self_pos.mpr h1, mul_self_nonneg n.x, mul_self_nonneg n.z]
  · nlinarith [mul_self_pos.mpr h1, mul_self_nonneg n.x, mul_self_nonneg n.y]

theorem is_zero_eq_false_iff (EPS : T) (n : Point3D T) :
    n.is_zero EPS = false ↔ EPS ≤ |n.x| ∨ EPS ≤ |n.y| ∨ EPS ≤ |n.z| := by
  simp only [is_zero, eqz, Bool.and_eq_false_iff, decide_eq_false_iff_not, not_lt]
  tauto

/-- A vector `w` orthogonal to `n = u × v` is the combination of `u` and `v` with the
coefficients the code computes (times `D`). -/
theorem decompose (u v w : Point3D T) (hw : (u.cross v).dot w = 0) :
    (u.smul (u.dot v * w.dot v - v.dot v * w.dot u)).add
        (v.smul (u.dot v * w.dot u - u.dot u * w.dot v))
      = w.smul (u.dot v * u.dot v - u.dot u * v.dot v) := by
  obtain ⟨u1, u2, u3⟩ := u
  obtain ⟨v1, v2, v3⟩ := v
  obtain ⟨w1, w2, w3⟩ := w
  simp only [dot, cross, smul, add, mk.injEq] at hw ⊢
  refine ⟨?_, ?_, ?_⟩
  · linear_combination (u2 * v3 - u3 * v2) * hw
  · linear_combination (-u1 * v3 + u3 * v1) * hw
  · linear_combination (u1 * v2 - u2 * v1) * hw

/-- The coefficients of a combination `s * u + t * v` are recovered by the code's formulas. -/
theorem coeffs (u v : Point3D T) (s t : T) :
    u.dot v * ((u.smul s).add (v.smul t)).dot v - v.dot v * ((u.smul s).add (v.smul t)).dot u
        = s * (u.dot v * u.dot v - u.dot u * v.dot v)
    ∧ u.dot v * ((u.smul s).add (v.smul t)).dot u - u.dot u * ((u.smul s).add (v.smul t)).dot v
        = t * (u.dot v * u.dot v - u.dot u * v.dot v) := by
  simp only [dot, smul, add]
  constructor <;> ring

end Point3D

/-- The point `p0 + r * dir` lies in the plane of the triangle exactly for `r = a / b`. -/
theorem plane_param (n p0 dir v0 : Point3D T) (hb : n.dot dir ≠ 0) (r : T) :
    n.dot ((p0.add (dir.smul r)).sub v0) = 0 ↔ r = -(n.dot (p0.sub v0)) / n.dot dir := by
  have e : n.dot ((p0.add (dir.smul r)).sub v0) = n.dot (p0.sub v0) + r * n.dot dir := by
    simp only [Point3D.dot, Point3D.add, Point3D.sub, Point3D.smul]
    ring
  rw [e, eq_div_iff hb]
  constructor <;> intro h <;> linarith

theorem sub_eq_of_eq_add (q v0 w : Point3D T) (h : q = v0.add w) : q.sub v0 = w := by
  subst h
  obtain ⟨a1, a2, a3⟩ := v0
  obtain ⟨w1, w2, w3⟩ := w
  simp [Point3D.add, Point3D.sub]

theorem eq_add_of_sub_eq (q v0 w : Point3D T) (h : q.sub v0 = w) : q = v0.add w := by
  subst h
  obtain ⟨a1, a2, a3⟩ := v0
  obtain ⟨q1, q2, q3⟩ := q
  simp [Point3D.add, Point3D.sub]

theorem add_assoc3 (a b c : Point3D T) : (a.add b).add c = a.add (b.add c) := by
  simp [Point3D.add, add_assoc]

theorem smul_cancel (D : T) (hD : D ≠ 0) (x y : Point3D T)
    (h : x.smul D = y.smul D) : x = y := by
  obtain ⟨x1, x2, x3⟩ := x
  obtain ⟨y1, y2, y3⟩ := y
  simp only [Point3D.smul, Point3D.mk.injEq] at h ⊢
  exact ⟨mul_right_cancel₀ hD h.1, mul_right_cancel₀ hD h.2.1, mul_right_cancel₀ hD h.2.2⟩

theorem combination_div (u v : Point3D T) (S R D : T) (hD : D ≠ 0) :
    ((u.smul (S / D)).add (v.smul (R / D))).smul D = (u.smul S).add (v.smul R) := by
  simp only [Point3D.smul, Point3D.add, Point3D.mk.injEq]
  refine ⟨?_, ?_, ?_⟩ <;> field_simp

theorem dot_combination (n u v : Point3D T) (s t : T) (hu : n.dot u = 0) (hv : n.dot v = 0) :
    n.dot ((u.smul s).add (v.smul t)) = 0 := by
  simp only [Point3D.dot, Point3D.add, Point3D.smul] at hu hv ⊢
  linear_combination s * hu + t * hv

/-- The parameters computed by the code describe the point `p0 + r * dir` of the plane in
the frame `(v0; u, v)`, and any other description has the same parameters. -/
theorem hit_params (u v p0 dir v0 : Point3D T) (hb : (u.cross v).dot dir ≠ 0)
    (hD : u.dot v * u.dot v - u.dot u * v.dot v ≠ 0) :
    (p0.add (dir.smul (-((u.cross v).dot (p0.sub v0)) / (u.cross v).dot dir))
      = (v0.add (u.smul
          ((u.dot v * ((p0.add (dir.smul
              (-((u.cross v).dot (p0.sub v0)) / (u.cross v).dot dir))).sub v0).dot v
            - v.dot v * ((p0.add (dir.smul
              (-((u.cross v).dot (p0.sub v0)) / (u.cross v).dot dir))).sub v0).dot u)
            / (u.dot v * u.dot v - u.dot u * v.dot v)))).add
        (v.smul
          ((u.dot v * ((p0.add (dir.smul
              (-((u.cross v).dot (p0.sub v0)) / (u.cross v).dot dir))).sub v0).dot u
            - u.dot u * ((p0.add (dir.smul
              (-((u.cross v).dot (p0.sub v0)) / (u.cross v).dot dir))).sub v0).dot v)
            / (u.dot v * u.dot v - u.dot u * v.dot v))))
    ∧ ∀ r s t : T, p0.add (dir.smul r) = (v0.add (u.smul s)).add (v.smul t) →
        r = -((u.cross v).dot (p0.sub v0)) / (u.cross v).dot dir
        ∧ s = (u.dot v * ((p0.add (dir.smul r)).sub v0).dot v
            - v.dot v * ((p0.add (dir.smul r)).sub v0).dot u)
            / (u.dot v * u.dot v - u.dot u * v.dot v)
        ∧ t = (u.dot v * ((p0.add (dir.smul r)).sub v0).dot u
            - u.dot u * ((p0.add (dir.smul r)).sub v0).dot v)
            / (u.dot v * u.dot v - u.dot u * v.dot v) := by
  constructor
  · generalize hr : -((u.cross v).dot (p0.sub v0)) / (u.cross v).dot dir = r
    have hw : (u.cross v).dot ((p0.add (dir.smul r)).sub v0) = 0 :=
      (plane_param (u.cross v) p0 dir v0 hb r).mpr hr.symm
    rw [add_assoc3]
    apply eq_add_of_sub_eq
    generalize (p0.add (dir.smul r)).sub v0 = w at hw ⊢
    apply smul_cancel _ hD
    rw [combination_div u v _ _ _ hD]
    exact (Point3D.decompose u v w hw).symm
  · intro r s t h
    rw [add_assoc3] at h
    have hw := sub_eq_of_eq_add _ _ _ h
    have hperp : (u.cross v).dot ((p0.add (dir.smul r)).sub v0) = 0 := by
      rw [hw]
      exact dot_combination _ u v s t (Point3D.cross_dot_left u v) (Point3D.cross_dot_right u v)
    refine ⟨(plane_param (u.cross v) p0 dir v0 hb r).mp hperp, ?_, ?_⟩
    · rw [hw, (Point3D.coeffs u v s t).1, mul_div_assoc, div_self hD, mul_one]
    · rw [hw, (Point3D.coeffs u v s t).2, mul_div_assoc, div_self hD, mul_one]

/-- C11: for `EPS > 0`, `intersect_ray` divides by no zero and returns a result; the flag is
true exactly when the normal `n = u × v` is not eps-zero, `|n . dir| >= EPS`, and the half-line
`p0 + r * dir`, `r >= 0` (no upper bound on `r`), meets the closed triangle
`v0 + s * u + t * v`, `s, t >= 0`, `s + t <= 1`; on a hit the output point is that common
point; and `D = (u.v)^2 - (u.u)(v.v)` is not zero whenever `n` is not eps-zero. -/
theorem Triangle3D.intersect_ray_spec (EPS : T) (tri : Triangle3D T) (ray : Ray3D T)
    (it : Point3D T) (hE : 0 < EPS) :
    ∃ res : Bool × Point3D T, tri.intersect_ray EPS ray it = some res
      ∧ (res.1 = true ↔
          ((tri.v1.sub tri.v0).cross (tri.v2.sub tri.v0)).is_zero EPS = false
          ∧ EPS ≤ |((tri.v1.sub tri.v0).cross (tri.v2.sub tri.v0)).dot (ray.p1.sub ray.p0)|
          ∧ ∃ r s t : T, 0 ≤ r ∧ 0 ≤ s ∧ 0 ≤ t ∧ s + t ≤ 1
            ∧ ray.p0.add ((ray.p1.sub ray.p0).smul r)
              = (tri.v0.add ((tri.v1.sub tri.v0).smul s)).add ((tri.v2.sub tri.v0).smul t))
      ∧ (res.1 = true → ∀ r s t : T,
          ray.p0.add ((ray.p1.sub ray.p0).smul r)
              = (tri.v0.add ((tri.v1.sub tri.v0).smul s)).add ((tri.v2.sub tri.v0).smul t)
          → res.2 = ray.p0.add ((ray.p1.sub ray.p0).smul r))
      ∧ (((tri.v1.sub tri.v0).cross (tri.v2.sub tri.v0)).is_zero EPS = false →
          (tri.v1.sub tri.v0).dot (tri.v2.sub tri.v0) * (tri.v1.sub tri.v0).dot (tri.v2.sub tri.v0)
            - (tri.v1.sub tri.v0).dot (tri.v1.sub tri.v0)
              * (tri.v2.sub tri.v0).dot (tri.v2.sub tri.v0) ≠ 0) := by
  obtain ⟨v0, v1, v2⟩ := tri
  obtain ⟨p0, p1⟩ := ray
  simp only [Triangle3D.intersect_ray]
  generalize v1.sub v0 = u
  generalize v2.sub v0 = v
  generalize p1.sub p0 = dir
  have hDne : (u.cross v).is_zero EPS = false →
      u.dot v * u.dot v - u.dot u * v.dot v ≠ 0 := by
    intro hz
    rw [Point3D.lagrange]
    have := Point3D.dot_self_pos_of_not_zero EPS hE _ hz
    linarith
  by_cases hz : (u.cross v).is_zero EPS = true
  · refine ⟨(false, it), by simp only [hz, if_true], ?_, ?_, hDne⟩
    · simp [hz]
    · simp
  rw [Bool.not_eq_true] at hz
  by_cases hb : eqz EPS ((u.cross v).dot dir) = true
  · refine ⟨(false, it), by simp [hz, hb], ?_, ?_, hDne⟩
    · have : ¬ EPS ≤ |(u.cross v).dot dir| := by
        rw [eqz_iff] at hb
        exact not_le.mpr hb
      simp [this]
    · simp
  rw [Bool.not_eq_true] at hb
  have hbE : EPS ≤ |(u.cross v).dot dir| := by
    simpa [eqz] using hb
  have hb0 : (u.cross v).dot dir ≠ 0 := by
    intro h0
    rw [h0, abs_zero] at hbE
    linarith
  have hD := hDne hz
  obtain ⟨hit, huniq⟩ := hit_params u v p0 dir v0 hb0 hD
  simp only [hz, hb, Bool.false_eq_true, if_false, divChecked_of_ne _ hb0, divChecked_of_ne _ hD]
  generalize hr : -((u.cross v).dot (p0.sub v0)) / (u.cross v).dot dir = r0 at hit huniq ⊢
  generalize hs : (u.dot v * ((p0.add (dir.smul r0)).sub v0).dot v
      - v.dot v * ((p0.add (dir.smul r0)).sub v0).dot u)
      / (u.dot v * u.dot v - u.dot u * v.dot v) = s0 at hit ⊢
  generalize ht : (u.dot v * ((p0.add (dir.smul r0)).sub v0).dot u
      - u.dot u * ((p0.add (dir.smul r0)).sub v0).dot v)
      / (u.dot v * u.dot v - u.dot u * v.dot v) = t0 at hit ⊢
  have huniq2 : ∀ r s t : T, p0.add (dir.smul r) = (v0.add (u.smul s)).add (v.smul t) →
      r = r0 ∧ s = s0 ∧ t = t0 := by
    intro r s t h
    obtain ⟨e1, e2, e3⟩ := huniq r s t h
    subst e1
    rw [hs] at e2
    rw [ht] at e3
    exact ⟨rfl, e2, e3⟩
  by_cases c1 : r0 < 0
  · refine ⟨(false, it), by simp only [c1, if_true], ?_, ?_, fun _ => hD⟩
    · simp only [Bool.false_eq_true, false_iff, not_and, not_exists]
      intro _ _ r s t h0 _ _ _ h
      obtain ⟨e1, -, -⟩ := huniq2 r s t h
      linarith
    · simp
  by_cases c2 : s0 < 0 ∨ s0 > 1
  · refine ⟨(false, p0.add (dir.smul r0)), by simp only [c1, c2, if_true, if_false], ?_, ?_,
      fun _ => hD⟩
    · simp only [Bool.false_eq_true, false_iff, not_and, not_exists]
      intro _ _ r s t _ h1 h2 h3 h
      obtain ⟨-, e2, e3⟩ := huniq2 r s t h
      rcases c2 with c | c <;> linarith
    · simp
  by_cases c3 : t0 < 0 ∨ s0 + t0 > 1
  · refine ⟨(false, p0.add (dir.smul r0)), by simp only [c1, c2, c3, if_true, if_false], ?_, ?_,
      fun _ => hD⟩
    · simp only [Bool.false_eq_true, false_iff, not_and, not_exists]
      intro _ _ r s t _ h1 h2 h3 h
      obtain ⟨-, e2, e3⟩ := huniq2 r s t h
      rcases c3 with c | c <;> linarith
    · simp
  refine ⟨(true, p0.add (dir.smul r0)), by simp only [c1, c2, c3, if_false], ?_, ?_,
    fun _ => hD⟩
  · simp only [true_iff]
    push_neg at c1 c2 c3
    exact ⟨trivial, hbE, r0, s0, t0, c1, c2.1, c3.1, c3.2, hit⟩
  · intro _ r s t h
    obtain ⟨e1, -, -⟩ := huniq2 r s t h
    rw [e1]

end Space3

/-- The spec's example evaluated: the ray through `(0.2, 0.2, 1)` and `(0.2, 0.2, -1)` hits the
triangle at `(0.2, 0.2, 0)`; the ray through `(2, 2, 1)` and `(2, 2, -1)` misses it. -/
theorem Triangle3D.intersect_ray_example :
    Triangle3D.intersect_ray (1 / 1000 : ℚ) ⟨⟨0, 0, 0⟩, ⟨1, 0, 0⟩, ⟨0, 1, 0⟩⟩
        ⟨⟨1 / 5, 1 / 5, 1⟩, ⟨1 / 5, 1 / 5, -1⟩⟩ ⟨7, 7, 7⟩ = some (true, ⟨1 / 5, 1 / 5, 0⟩)
    ∧ Triangle3D.intersect_ray (1 / 1000 : ℚ) ⟨⟨0, 0, 0⟩, ⟨1, 0, 0⟩, ⟨0, 1, 0⟩⟩
        ⟨⟨2, 2, 1⟩, ⟨2, 2, -1⟩⟩ ⟨7, 7, 7⟩ = some (false, ⟨2, 2, 0⟩) := by
  constructor <;>
    norm_num [Triangle3D.intersect_ray, Point3D.is_zero, Point3D.cross, Point3D.dot,
      Point3D.add, Point3D.sub, Point3D.smul, eqz, divChecked, abs_lt]

theorem Triangle3D.intersect_ray_spec_witness :
    (0 : ℚ) < 1 / 1000
    ∧ ∃ res : Bool × Point3D ℚ,
      Triangle3D.intersect_ray (1 / 1000 : ℚ) ⟨⟨0, 0, 0⟩, ⟨1, 0, 0⟩, ⟨0, 1, 0⟩⟩
        ⟨⟨1 / 5, 1 / 5, 1⟩, ⟨1 / 5, 1 / 5, -1⟩⟩ ⟨7, 7, 7⟩ = some res
      ∧ res.1 = true ∧ res.2 = ⟨1 / 5, 1 / 5, 0⟩ := by
  refine ⟨by norm_num, ?_⟩
  obtain ⟨res, h1, h2, h3, -⟩ := Triangle3D.intersect_ray_spec (1 / 1000 : ℚ)
    ⟨⟨0, 0, 0⟩, ⟨1, 0, 0⟩, ⟨0, 1, 0⟩⟩ ⟨⟨1 / 5, 1 / 5, 1⟩, ⟨1 / 5, 1 / 5, -1⟩⟩ ⟨7, 7, 7⟩
    (by norm_num)
  have e : (⟨1 / 5, 1 / 5, 1⟩ : Point3D ℚ).add
      (((⟨1 / 5, 1 / 5, -1⟩ : Point3D ℚ).sub ⟨1 / 5, 1 / 5, 1⟩).smul (1 / 2))
      = ((⟨0, 0, 0⟩ : Point3D ℚ).add (((⟨1, 0, 0⟩ : Point3D ℚ).sub ⟨0, 0, 0⟩).smul (1 / 5))).add
        (((⟨0, 1, 0⟩ : Point3D ℚ).sub ⟨0, 0, 0⟩).smul (1 / 5)) := by
    norm_num [Point3D.add, Point3D.sub, Point3D.smul]
  have ht : res.1 = true := by
    rw [h2]
    refine ⟨?_, ?_, 1 / 2, 1 / 5, 1 / 5, by norm_num, by norm_num, by norm_num, by norm_num, e⟩
    · norm_num [Point3D.is_zero, Point3D.cross, Point3D.sub, eqz, abs_lt]
    · norm_num [Point3D.cross, Point3D.dot, Point3D.sub, abs_of_neg]
  refine ⟨res, h1, ht, ?_⟩
  rw [h3 ht (1 / 2) (1 / 5) (1 / 5) e]
  norm_num [Point3D.add, Point3D.sub, Point3D.smul]


end Geometry

/-! ## Exactness of `Bigint` addition -/

namespace Fibonacci

namespace Bigint

theorem value_append (l : List Int) (x : Int) :
    value (l ++ [x]) = value l + x * BIBAS ^ l.length := by
  induction l with
  | nil => simp [value]
  | cons y rest ih =>
    rw [List.cons_append, value, ih, value, List.length_cons, pow_succ]
    ring

theorem value_take_succ (d : List Int) : ∀ i : Nat,
    value (d.take (i + 1)) = value (d.take i) + d.getD i 0 * BIBAS ^ i := by
  induction d with
  | nil =>
    intro i
    simp [value]
  | cons y rest ih =>
    intro i
    cases i with
    | zero => simp [value]
    | succ j =>
      rw [List.take_succ_cons, value, ih j, List.take_succ_cons, value, List.getD_cons_succ,
        pow_succ]
      ring

theorem value_nonneg (d : List Int) (h : ∀ x ∈ d, 0 ≤ x ∧ x < BIBAS) : 0 ≤ value d := by
  induction d with
  | nil => simp [value]
  | cons y rest ih =>
    rw [value]
    have h1 := (h y (List.mem_cons_self y rest)).1
    have h2 := ih (fun x hx => h x (List.mem_cons_of_mem y hx))
    simp only [BIBAS] at *
    omega

theorem value_lt (d : List Int) (h : ∀ x ∈ d, 0 ≤ x ∧ x < BIBAS) :
    value d < BIBAS ^ d.length := by
  induction d with
  | nil => simp [value]
  | cons y rest ih =>
    rw [value, List.length_cons, pow_succ]
    have h1 := (h y (List.mem_cons_self y rest)).2
    have h2 := ih (fun x hx => h x (List.mem_cons_of_mem y hx))
    simp only [BIBAS] at *
    nlinarith

theorem getD_range (d : List Int) (h : ∀ x ∈ d, 0 ≤ x ∧ x < BIBAS) (i : Nat) :
    0 ≤ d.getD i 0 ∧ d.getD i 0 < BIBAS := by
  by_cases hi : i < d.length
  · rw [List.getD_eq_getElem d 0 hi]
    exact h _ (List.getElem_mem hi)
  · rw [List.getD_eq_default d 0 (not_lt.mp hi)]
    simp [BIBAS]

theorem ite_getD (d : List Int) (i : Nat) :
    (if i < d.length then d.getD i 0 else 0) = d.getD i 0 := by
  split_ifs with hi
  · rfl
  · exact (List.getD_eq_default d 0 (not_lt.mp hi)).symm

/-- The invariant of the addition loop: after `i` iterations exactly `i` limbs in `[0, 999]`
are written, the carry is 0 or 1, and limbs plus carry represent the sum of the low `i` limbs
of both operands. -/
theorem addLoop_inv (d1 d2 : List Int) (h1 : ∀ x ∈ d1, 0 ≤ x ∧ x < BIBAS)
    (h2 : ∀ x ∈ d2, 0 ≤ x ∧ x < BIBAS) : ∀ i : Nat,
    (addLoop d1 d2 i).1.length = i
    ∧ (∀ x ∈ (addLoop d1 d2 i).1, 0 ≤ x ∧ x < BIBAS)
    ∧ ((addLoop d1 d2 i).2 = 0 ∨ (addLoop d1 d2 i).2 = 1)
    ∧ value (addLoop d1 d2 i).1 + (addLoop d1 d2 i).2 * BIBAS ^ i
        = value (d1.take i) + value (d2.take i) := by
  intro i
  induction i with
  | zero => simp [addLoop, value]
  | succ i ih =>
    obtain ⟨il, ir, ic, iv⟩ := ih
    have g1 := getD_range d1 h1 i
    have g2 := getD_range d2 h2 i
    rw [addLoop]
    simp only [ite_getD]
    rw [value_take_succ d1 i, value_take_succ d2 i]
    generalize (addLoop d1 d2 i).1 = res at il ir iv ⊢
    generalize (addLoop d1 d2 i).2 = c at ic iv ⊢
    generalize d1.getD i 0 = x at g1 g2 ⊢
    generalize d2.getD i 0 = y at g1 g2 ⊢
    simp only [BIBAS] at g1 g2 ir ⊢
    by_cases hs : c + x + y ≥ 1000
    · simp only [hs, if_true]
      have e1 : (c + x + y) % 1000 = c + x + y - 1000 := by
        rcases ic with ic | ic <;> omega
      have e2 : (c + x + y) / 1000 = 1 := by
        rcases ic with ic | ic <;> omega
      rw [e1, e2]
      refine ⟨by simp [il], ?_, Or.inr rfl, ?_⟩
      · intro z hz
        rw [List.mem_append, List.mem_singleton] at hz
        rcases hz with hz | hz
        · exact ir z hz
        · subst hz
          rcases ic with ic | ic <;> omega
      · rw [value_append, il, pow_succ]
        simp only [BIBAS] at iv ⊢
        linear_combination iv
    · simp only [hs, if_false]
      refine ⟨by simp [il], ?_, by simp, ?_⟩
      · intro z hz
        rw [List.mem_append, List.mem_singleton] at hz
        rcases hz with hz | hz
        · exact ir z hz
        · subst hz
          rcases ic with ic | ic <;> omega
      · rw [value_append, il]
        simp only [BIBAS] at iv ⊢
        linear_combination iv

theorem stripZeros_cons_zero (x : Int) (rest : List Int) :
    stripZeros (0 :: x :: rest) = stripZeros (x :: rest) := by
  rw [stripZeros]

theorem stripZeros_single (y : Int) : stripZeros [y] = [y] := by
  unfold stripZeros
  split <;> simp_all

theorem stripZeros_cons_ne (y : Int) (rest : List Int) (hy : y ≠ 0) :
    stripZeros (y :: rest) = y :: rest := by
  unfold stripZeros
  split
  · simp_all
  · rfl

/-- What the scan of `clean` leaves: the same value, a sublist of the limbs, at least one limb,
and no most significant zero limb unless it is the only limb. -/
theorem stripZeros_spec (m : List Int) :
    value (stripZeros m).reverse = value m.reverse
    ∧ (∀ x ∈ stripZeros m, x ∈ m)
    ∧ (m ≠ [] → stripZeros m ≠ [])
    ∧ (1 < (stripZeros m).length → (stripZeros m).head? ≠ some 0) := by
  induction m with
  | nil => simp [stripZeros]
  | cons y rest ih =>
    by_cases hy : y = 0
    · subst hy
      cases rest with
      | nil => simp [stripZeros_single]
      | cons x r =>
        rw [stripZeros_cons_zero]
        obtain ⟨i1, i2, i3, i4⟩ := ih
        refine ⟨?_, ?_, ?_, i4⟩
        · rw [i1, List.reverse_cons 0, value_append]
          ring
        · intro z hz
          exact List.mem_cons_of_mem 0 (i2 z hz)
        · intro _
          exact i3 (List.cons_ne_nil x r)
    · rw [stripZeros_cons_ne y rest hy]
      refine ⟨rfl, fun x hx => hx, fun h => h, ?_⟩
      intro _
      simp [hy]

theorem clean_spec (a : Bigint) (h : ∀ x ∈ a.d, 0 ≤ x ∧ x < BIBAS) (hne : a.d ≠ []) :
    value (clean a).d = value a.d ∧ NormalLimbs (clean a).d
    ∧ ((clean a).d = [0] → (clean a).sgn = false)
    ∧ (a.sgn = false → (clean a).sgn = false)
    ∧ ((clean a).d ≠ [0] → (clean a).sgn = a.sgn) := by
  obtain ⟨s1, s2, s3, s4⟩ := stripZeros_spec a.d.reverse
  rw [List.reverse_reverse] at s1
  have hne2 : stripZeros a.d.reverse ≠ [] := s3 (by simpa using hne)
  refine ⟨s1, ⟨?_, ?_, ?_⟩, ?_, ?_, ?_⟩
  · simpa [clean] using hne2
  · intro x hx
    simp only [clean, List.mem_reverse] at hx
    exact h x (by simpa using s2 x hx)
  · intro hl
    simp only [clean, List.length_reverse, List.getLast?_reverse] at hl ⊢
    exact s4 hl
  · intro hd
    simp only [clean] at hd ⊢
    rw [hd]
    simp
  · intro hs
    simp [clean, hs]
  · intro hd
    simp only [clean] at hd ⊢
    split_ifs with hc
    · exfalso
      apply hd
      simp only [Bool.and_eq_true, beq_iff_eq] at hc
      obtain ⟨⟨-, hl⟩, h0⟩ := hc
      generalize (stripZeros a.d.reverse).reverse = l at hl h0 ⊢
      match l, hl, h0 with
      | [x], _, h0 =>
        simp only [List.getD_cons_zero] at h0
        rw [h0]
    · rfl

/-- The same-sign branch of `operator+=` on non-negative operands in normal form. -/
theorem add_sound (a b : Bigint) (ha : a.sgn = false) (hb : b.sgn = false)
    (na : NormalLimbs a.d) (nb : NormalLimbs b.d) :
    value (add a b).d = value a.d + value b.d
    ∧ (add a b).sgn = false
    ∧ NormalLimbs (add a b).d := by
  obtain ⟨-, ra, -⟩ := na
  obtain ⟨-, rb, -⟩ := nb
  have hadd : add a b = clean ⟨(addLoop a.d b.d (max a.len b.len + 1)).1, a.sgn⟩ := by
    rw [add]
    simp [ha, hb]
  obtain ⟨il, ir, ic, iv⟩ := addLoop_inv a.d b.d ra rb (max a.len b.len + 1)
  rw [List.take_of_length_le (by simp only [len]; omega),
    List.take_of_length_le (by simp only [len]; omega)] at iv
  have hc0 : (addLoop a.d b.d (max a.len b.len + 1)).2 = 0 := by
    rcases ic with ic | ic
    · exact ic
    · exfalso
      rw [ic, one_mul] at iv
      have v0 := value_nonneg _ ir
      have v1 := value_lt a.d ra
      have v2 := value_lt b.d rb
      have p1 : BIBAS ^ a.d.length ≤ BIBAS ^ max a.len b.len :=
        pow_le_pow_right₀ (by simp [BIBAS]) (le_max_left _ _)
      have p2 : BIBAS ^ b.d.length ≤ BIBAS ^ max a.len b.len :=
        pow_le_pow_right₀ (by simp [BIBAS]) (le_max_right _ _)
      have p3 : BIBAS ^ (max a.len b.len + 1) = BIBAS ^ max a.len b.len * 1000 := by
        rw [pow_succ]
        rfl
      have p4 : (0 : Int) < BIBAS ^ max a.len b.len := pow_pos (by simp [BIBAS]) _
      rw [p3] at iv
      linarith
  rw [hc0, zero_mul, add_zero] at iv
  have hne : (addLoop a.d b.d (max a.len b.len + 1)).1 ≠ [] := by
    intro h0
    rw [h0] at il
    simp at il
  obtain ⟨c1, c2, c3, c4, -⟩ := clean_spec
    ⟨(addLoop a.d b.d (max a.len b.len + 1)).1, a.sgn⟩ ir hne
  rw [← hadd] at c1 c2 c3 c4
  refine ⟨?_, c4 ha, c2⟩
  rw [c1]
  exact iv

/-- C19: on non-negative operands in normal form, `a += b` leaves in `a` the exact sum of the
two values, keeps `sgn` false, and leaves the limbs of `a` in normal form again. -/
theorem add_exact (a b : Bigint) (ha : a.sgn = false) (hb : b.sgn = false)
    (na : NormalLimbs a.d) (nb : NormalLimbs b.d) :
    value (add a b).d = value a.d + value b.d
    ∧ (add a b).sgn = false
    ∧ NormalLimbs (add a b).d
    ∧ toInt (add a b) = toInt a + toInt b
    ∧ Normal (add a b) := by
  obtain ⟨hv, hs, hn⟩ := add_sound a b ha hb na nb
  refine ⟨hv, hs, hn, ?_, hn, ?_⟩
  · simp only [toInt, hs, ha, hb, Bool.false_eq_true, if_false]
    exact hv
  · intro _
    exact hs

theorem add_exact_witness :
    (⟨[999, 999], false⟩ : Bigint).sgn = false ∧ (⟨[1], false⟩ : Bigint).sgn = false
    ∧ NormalLimbs [999, 999] ∧ NormalLimbs [1]
    ∧ value (add ⟨[999, 999], false⟩ ⟨[1], false⟩).d = value [999, 999] + value [1]
    ∧ (add ⟨[999, 999], false⟩ ⟨[1], false⟩).sgn = false
    ∧ NormalLimbs (add ⟨[999, 999], false⟩ ⟨[1], false⟩).d :=
  ⟨rfl, rfl, by decide, by decide,
    (add_exact ⟨[999, 999], false⟩ ⟨[1], false⟩ rfl rfl (by decide) (by decide)).1,
    (add_exact ⟨[999, 999], false⟩ ⟨[1], false⟩ rfl rfl (by decide) (by decide)).2.1,
    (add_exact ⟨[999, 999], false⟩ ⟨[1], false⟩ rfl rfl (by decide) (by decide)).2.2.1⟩

/-- The carry chain evaluated: 999999 + 1 = 1000000, limbs `[0, 0, 1]`. -/
theorem add_example : add ⟨[999, 999], false⟩ ⟨[1], false⟩ = ⟨[0, 0, 1], false⟩ := by
  rw [add]
  simp [addLoop, clean, stripZeros, len, BIBAS]

end Bigint

/-- The table of `prepare`: every entry `fib[i]` written so far is the Fibonacci number
`F(i)`, non-negative and in normal form. -/
theorem prepareLoop_spec (k : Nat) :
    (prepareLoop k).length = k + 2
    ∧ ∀ i, i ≤ k + 1 →
        ((prepareLoop k).getD i (Bigint.ofInt 0)).sgn = false
        ∧ Bigint.NormalLimbs ((prepareLoop k).getD i (Bigint.ofInt 0)).d
        ∧ Bigint.value ((prepareLoop k).getD i (Bigint.ofInt 0)).d = (Nat.fib i : Int) := by
  induction k with
  | zero =>
    refine ⟨rfl, ?_⟩
    intro i hi
    have : i = 0 ∨ i = 1 := by omega
    rcases this with rfl | rfl
    · refine ⟨by decide, by decide, by decide⟩
    · refine ⟨by decide, by decide, by decide⟩
  | succ k ih =>
    obtain ⟨hl, ih⟩ := ih
    rw [prepareLoop]
    refine ⟨by simp [hl], ?_⟩
    intro i hi
    by_cases h : i ≤ k + 1
    · rw [List.getD_append _ _ _ _ (by omega)]
      exact ih i h
    · have e : i = k + 2 := by omega
      subst e
      rw [List.getD_append_right _ _ _ _ (by omega), hl, Nat.sub_self, List.getD_cons_zero]
      obtain ⟨a1, a2, a3⟩ := ih k (by omega)
      obtain ⟨b1, b2, b3⟩ := ih (k + 1) (by omega)
      obtain ⟨r1, r2, r3⟩ := Bigint.add_sound _ _ a1 b1 a2 b2
      refine ⟨r2, r3, ?_⟩
      rw [r1, a3, b3, Nat.fib_add_two]
      push_cast
      rfl

/-- The table built by `prepare` holds `F(0), ..., F(MAXN)` exactly. -/
theorem prepare_spec (i : Nat) (hi : i ≤ MAXN) :
    Bigint.toInt (prepare.getD i (Bigint.ofInt 0)) = (Nat.fib i : Int)
    ∧ Bigint.Normal (prepare.getD i (Bigint.ofInt 0)) := by
  obtain ⟨h1, h2, h3⟩ := (prepareLoop_spec (MAXN - 1)).2 i (by simp only [MAXN] at hi ⊢; omega)
  refine ⟨?_, h2, ?_⟩
  · simp only [Bigint.toInt, prepare, h1, Bool.false_eq_true, if_false]
    exact h3
  · intro _
    exact h1

end Fibonacci

/-! ## Order and subtraction of `Bigint` -/

namespace Fibonacci

namespace Bigint

theorem value_take_le (d : List Int) (h : ∀ x ∈ d, 0 ≤ x ∧ x < BIBAS) (k : Nat) :
    0 ≤ value (d.take k) ∧ value (d.take k) < BIBAS ^ k := by
  have hm : ∀ x ∈ d.take k, 0 ≤ x ∧ x < BIBAS := fun x hx => h x (List.mem_of_mem_take hx)
  refine ⟨value_nonneg _ hm, lt_of_lt_of_le (value_lt _ hm) ?_⟩
  exact pow_le_pow_right₀ (by simp [BIBAS]) (List.length_take_le k d)

/-- The loop of `operator<` compares the low `k` limbs as numbers (non-negative operands). -/
theorem ltLoop_iff (d1 d2 : List Int) (h1 : ∀ x ∈ d1, 0 ≤ x ∧ x < BIBAS)
    (h2 : ∀ x ∈ d2, 0 ≤ x ∧ x < BIBAS) : ∀ k : Nat,
    ltLoop false d1 d2 k = true ↔ value (d1.take k) < value (d2.take k) := by
  intro k
  induction k with
  | zero => simp [ltLoop, value]
  | succ i ih =>
    rw [ltLoop, value_take_succ d1 i, value_take_succ d2 i]
    have g1 := getD_range d1 h1 i
    have g2 := getD_range d2 h2 i
    have t1 := value_take_le d1 h1 i
    have t2 := value_take_le d2 h2 i
    have hp : (0 : Int) < BIBAS ^ i := pow_pos (by simp [BIBAS]) i
    generalize d1.getD i 0 = x at g1 ⊢
    generalize d2.getD i 0 = y at g2 ⊢
    generalize value (d1.take i) = u at ih t1 ⊢
    generalize value (d2.take i) = w at ih t2 ⊢
    generalize BIBAS ^ i = P at t1 t2 hp ⊢
    by_cases e : x = y
    · subst e
      simp only [ne_eq, not_true_eq_false, if_false, ih]
      constructor <;> intro h <;> linarith
    · simp only [ne_eq, e, not_false_eq_true, if_true, Bool.false_xor, decide_eq_true_eq]
      rcases lt_or_gt_of_ne e with hxy | hxy
      · simp only [hxy, true_iff]
        have : (x + 1) * P ≤ y * P := mul_le_mul_of_nonneg_right (by omega) hp.le
        nlinarith
      · have hn : ¬ x < y := not_lt.mpr hxy.le
        simp only [hn, false_iff, not_lt]
        have : (y + 1) * P ≤ x * P := mul_le_mul_of_nonneg_right (by omega) hp.le
        nlinarith

theorem value_ge_of_last (d : List Int) (hr : ∀ x ∈ d, 0 ≤ x ∧ x < BIBAS)
    (hl : 1 < d.length) (hn : d.getLast? ≠ some 0) : BIBAS ^ (d.length - 1) ≤ value d := by
  have hne : d ≠ [] := by
    intro h0
    rw [h0] at hl
    simp at hl
  have hd := List.dropLast_append_getLast hne
  have hlast : 1 ≤ d.getLast hne := by
    have h1 := (hr _ (List.getLast_mem hne)).1
    have h2 : d.getLast hne ≠ 0 := by
      intro h0
      apply hn
      rw [List.getLast?_eq_getLast d hne, h0]
    omega
  have hv : value d = value d.dropLast + d.getLast hne * BIBAS ^ d.dropLast.length := by
    conv_lhs => rw [← hd]
    exact value_append _ _
  have h0 : 0 ≤ value d.dropLast :=
    value_nonneg _ (fun x hx => hr x (List.mem_of_mem_dropLast hx))
  have hp : (0 : Int) < BIBAS ^ (d.length - 1) := pow_pos (by simp [BIBAS]) _
  rw [hv, List.length_dropLast]
  nlinarith

theorem length_le_of_value_le (d1 d2 : List Int) (n1 : NormalLimbs d1) (n2 : NormalLimbs d2)
    (h : value d2 ≤ value d1) : d2.length ≤ d1.length := by
  by_contra hc
  rw [not_le] at hc
  have hl : 1 < d2.length := by
    have : d1.length ≠ 0 := by
      intro h0
      exact n1.1 (List.length_eq_zero.mp h0)
    omega
  have g := value_ge_of_last d2 n2.2.1 hl (n2.2.2 hl)
  have l := value_lt d1 n1.2.1
  have p : BIBAS ^ d1.length ≤ BIBAS ^ (d2.length - 1) :=
    pow_le_pow_right₀ (by simp [BIBAS]) (by omega)
  linarith

/-- On non-negative operands in normal form `operator<` is the numeric order. -/
theorem lt_iff (a b : Bigint) (ha : a.sgn = false) (hb : b.sgn = false)
    (na : NormalLimbs a.d) (nb : NormalLimbs b.d) :
    lt a b = true ↔ value a.d < value b.d := by
  simp only [lt, ha, hb, ne_eq, not_true_eq_false, if_false, len, Bool.false_xor,
    decide_eq_true_eq]
  by_cases hl : a.d.length = b.d.length
  · simp only [hl, not_true_eq_false, if_false]
    rw [ltLoop_iff a.d b.d na.2.1 nb.2.1, List.take_of_length_le (le_of_eq hl),
      List.take_of_length_le (le_refl _)]
  · simp only [hl, not_false_eq_true, if_true, decide_eq_true_eq]
    constructor
    · intro h
      by_contra hc
      have := length_le_of_value_le a.d b.d na nb (not_lt.mp hc)
      omega
    · intro h
      have := length_le_of_value_le b.d a.d nb na h.le
      omega

/-- Limb vectors in normal form are equal when their values are: `operator==` on non-negative
normalised operands is numeric equality. -/
theorem value_inj (d1 d2 : List Int) (n1 : NormalLimbs d1) (n2 : NormalLimbs d2)
    (h : value d1 = value d2) : d1 = d2 := by
  have hl : d1.length = d2.length :=
    le_antisymm (length_le_of_value_le d2 d1 n2 n1 h.le) (length_le_of_value_le d1 d2 n1 n2 h.ge)
  have key : ∀ (l1 l2 : List Int), l1.length = l2.length →
      (∀ x ∈ l1, 0 ≤ x ∧ x < BIBAS) → (∀ x ∈ l2, 0 ≤ x ∧ x < BIBAS) →
      value l1 = value l2 → l1 = l2 := by
    intro l1
    induction l1 with
    | nil =>
      intro l2 hl2 _ _ _
      exact (List.length_eq_zero.mp hl2.symm).symm
    | cons x r ih =>
      intro l2 hl2 r1 r2 hv
      cases l2 with
      | nil => simp at hl2
      | cons y t =>
        have gx := r1 x (List.mem_cons_self x r)
        have gy := r2 y (List.mem_cons_self y t)
        simp only [value, BIBAS] at hv gx gy
        have exy : x = y := by omega
        have ev : value r = value t := by omega
        rw [exy, ih t (by simpa using hl2) (fun z hz => r1 z (List.mem_cons_of_mem x hz))
          (fun z hz => r2 z (List.mem_cons_of_mem y hz)) ev]
  exact key d1 d2 hl n1.2.1 n2.2.1 h

/-- The invariant of the subtraction loop: after `i` iterations exactly `i` limbs in
`[0, 999]` are written, the borrow is 0 or 1, and limbs minus borrow represent the difference
of the low `i` limbs of both operands. -/
theorem subLoop_inv (d1 d2 : List Int) (h1 : ∀ x ∈ d1, 0 ≤ x ∧ x < BIBAS)
    (h2 : ∀ x ∈ d2, 0 ≤ x ∧ x < BIBAS) : ∀ i : Nat,
    (subLoop d1 d2 i).1.length = i
    ∧ (∀ x ∈ (subLoop d1 d2 i).1, 0 ≤ x ∧ x < BIBAS)
    ∧ ((subLoop d1 d2 i).2 = 0 ∨ (subLoop d1 d2 i).2 = 1)
    ∧ value (subLoop d1 d2 i).1 - (subLoop d1 d2 i).2 * BIBAS ^ i
        = value (d1.take i) - value (d2.take i) := by
  intro i
  induction i with
  | zero => simp [subLoop, value]
  | succ i ih =>
    obtain ⟨il, ir, ic, iv⟩ := ih
    have g1 := getD_range d1 h1 i
    have g2 := getD_range d2 h2 i
    rw [subLoop]
    simp only [ite_getD]
    rw [value_take_succ d1 i, value_take_succ d2 i]
    generalize (subLoop d1 d2 i).1 = res at il ir iv ⊢
    generalize (subLoop d1 d2 i).2 = c at ic iv ⊢
    generalize d1.getD i 0 = x at g1 g2 ⊢
    generalize d2.getD i 0 = y at g1 g2 ⊢
    simp only [BIBAS] at g1 g2 ir ⊢
    by_cases hs : x - y - c < 0
    · simp only [hs, if_true]
      refine ⟨by simp [il], ?_, by simp, ?_⟩
      · intro z hz
        rw [List.mem_append, List.mem_singleton] at hz
        rcases hz with hz | hz
        · exact ir z hz
        · subst hz
          rcases ic with ic | ic <;> omega
      · rw [value_append, il, pow_succ]
        simp only [BIBAS] at iv ⊢
        linear_combination iv
    · simp only [hs, if_false]
      refine ⟨by simp [il], ?_, by simp, ?_⟩
      · intro z hz
        rw [List.mem_append, List.mem_singleton] at hz
        rcases hz with hz | hz
        · exact ir z hz
        · subst hz
          rcases ic with ic | ic <;> omega
      · rw [value_append, il]
        simp only [BIBAS] at iv ⊢
        linear_combination iv

/-- The limb loop of `operator-=` followed by `clean`, on non-negative operands in normal form
with `value b <= value a`. -/
theorem subLoop_sound (a b : Bigint) (na : NormalLimbs a.d) (nb : NormalLimbs b.d)
    (hle : value b.d ≤ value a.d) (s : Bool) :
    value (clean ⟨(subLoop a.d b.d a.len).1, s⟩).d = value a.d - value b.d
    ∧ NormalLimbs (clean ⟨(subLoop a.d b.d a.len).1, s⟩).d
    ∧ ((clean ⟨(subLoop a.d b.d a.len).1, s⟩).d = [0] →
        (clean ⟨(subLoop a.d b.d a.len).1, s⟩).sgn = false)
    ∧ ((clean ⟨(subLoop a.d b.d a.len).1, s⟩).d ≠ [0] →
        (clean ⟨(subLoop a.d b.d a.len).1, s⟩).sgn = s) := by
  obtain ⟨il, ir, ic, iv⟩ := subLoop_inv a.d b.d na.2.1 nb.2.1 a.len
  have hlen := length_le_of_value_le a.d b.d na nb hle
  rw [List.take_of_length_le (by simp only [len]; omega),
    List.take_of_length_le (by simp only [len]; omega)] at iv
  have hc0 : (subLoop a.d b.d a.len).2 = 0 := by
    rcases ic with ic | ic
    · exact ic
    · exfalso
      rw [ic, one_mul] at iv
      have v1 := value_lt _ ir
      rw [il] at v1
      linarith
  rw [hc0, zero_mul, sub_zero] at iv
  have hne : (subLoop a.d b.d a.len).1 ≠ [] := by
    intro h0
    rw [h0] at il
    have : a.d.length ≠ 0 := fun q => na.1 (List.length_eq_zero.mp q)
    simp only [len, List.length_nil] at il
    omega
  obtain ⟨c1, c2, c3, -, c5⟩ := clean_spec ⟨(subLoop a.d b.d a.len).1, s⟩ ir hne
  refine ⟨?_, c2, c3, c5⟩
  rw [c1]
  exact iv

/-- Where `operator-=` is right: on non-negative operands in normal form `a -= b` leaves the
exact signed difference in `a`, normalised. -/
theorem sub_nonneg (a b : Bigint) (ha : a.sgn = false) (hb : b.sgn = false)
    (na : NormalLimbs a.d) (nb : NormalLimbs b.d) :
    toInt (sub a b) = toInt a - toInt b ∧ Normal (sub a b) := by
  have ta : toInt a = value a.d := by simp [toInt, ha]
  have tb : toInt b = value b.d := by simp [toInt, hb]
  rw [ta, tb]
  by_cases hlt : lt a b = true
  · have hv := (lt_iff a b ha hb na nb).mp hlt
    have hba : lt b a = false := by
      rw [← Bool.not_eq_true, lt_iff b a hb ha nb na]
      exact not_lt.mpr hv.le
    have e : sub a b = (clean ⟨(subLoop b.d a.d b.len).1, b.sgn⟩).neg := by
      rw [sub]
      simp only [ha, hb, ne_eq, not_true_eq_false, if_false, hlt, if_true]
      rw [sub]
      simp only [ha, hb, ne_eq, not_true_eq_false, if_false, hba, Bool.false_eq_true]
    obtain ⟨s1, s2, s3, s4⟩ := subLoop_sound b a nb na hv.le b.sgn
    rw [e]
    generalize clean ⟨(subLoop b.d a.d b.len).1, b.sgn⟩ = r at s1 s2 s3 s4
    have hne0 : r.d ≠ [0] := by
      intro h0
      rw [h0] at s1
      simp only [value, BIBAS] at s1
      omega
    have hsg : r.sgn = false := by
      rw [s4 hne0, hb]
    refine ⟨?_, s2, ?_⟩
    · simp only [toInt, neg, hsg, Bool.not_false, if_true, s1]
      ring
    · intro h0
      exact absurd h0 hne0
  · rw [Bool.not_eq_true] at hlt
    have hv : value b.d ≤ value a.d := by
      by_contra hc
      have := (lt_iff a b ha hb na nb).mpr (not_le.mp hc)
      rw [hlt] at this
      exact Bool.false_ne_true this
    have e : sub a b = clean ⟨(subLoop a.d b.d a.len).1, a.sgn⟩ := by
      rw [sub]
      simp only [ha, hb, ne_eq, not_true_eq_false, if_false, hlt, Bool.false_eq_true]
    obtain ⟨s1, s2, s3, s4⟩ := subLoop_sound a b na nb hv a.sgn
    rw [e]
    generalize clean ⟨(subLoop a.d b.d a.len).1, a.sgn⟩ = r at s1 s2 s3 s4
    have hsg : r.sgn = false := by
      by_cases h0 : r.d = [0]
      · exact s3 h0
      · rw [s4 h0, ha]
    refine ⟨?_, s2, fun _ => hsg⟩
    simp only [toInt, hsg, Bool.false_eq_true, if_false, s1]

/-- C20 fails in the code: for the normalised operands `-3` and `-5`, `a -= b` leaves `-998`
in `a` instead of `2` (`operator<` compares the signed values, the limb loop then subtracts the
larger magnitude from the smaller and drops the final borrow); `(-5) - (-3)` gives `998` instead
of `-2`, and the mixed-sign addition `(-3) += 5`, which delegates to `-=`, gives `-998`
instead of `2`. -/
theorem sub_negative_wrong :
    ofInt (-3) = ⟨[3], true⟩ ∧ ofInt (-5) = ⟨[5], true⟩ ∧ ofInt 5 = ⟨[5], false⟩
    ∧ Normal (ofInt (-3)) ∧ Normal (ofInt (-5)) ∧ Normal (ofInt 5)
    ∧ toInt (ofInt (-3)) = -3 ∧ toInt (ofInt (-5)) = -5
    ∧ lt (ofInt (-3)) (ofInt (-5)) = false
    ∧ sub (ofInt (-3)) (ofInt (-5)) = ⟨[998], true⟩
    ∧ toInt (sub (ofInt (-3)) (ofInt (-5))) = -998
    ∧ toInt (sub (ofInt (-5)) (ofInt (-3))) = 998
    ∧ toInt (add (ofInt (-3)) (ofInt 5)) = -998 := by
  have e3 : ofInt (-3) = ⟨[3], true⟩ := by decide
  have e5 : ofInt (-5) = ⟨[5], true⟩ := by decide
  have p5 : ofInt 5 = ⟨[5], false⟩ := by decide
  have hlt : lt ⟨[3], true⟩ ⟨[5], true⟩ = false := by decide
  have hlt2 : lt ⟨[5], true⟩ ⟨[3], true⟩ = true := by decide
  have s1 : sub ⟨[3], true⟩ ⟨[5], true⟩ = ⟨[998], true⟩ := by
    rw [sub]
    simp only [ne_eq, not_true_eq_false, if_false, hlt, Bool.false_eq_true]
    decide
  have s2 : sub ⟨[5], true⟩ ⟨[3], true⟩ = ⟨[998], false⟩ := by
    rw [sub]
    simp only [ne_eq, not_true_eq_false, if_false, hlt2, if_true, s1]
    decide
  have s3 : add ⟨[3], true⟩ ⟨[5], false⟩ = ⟨[998], true⟩ := by
    rw [add]
    have : neg ⟨[5], false⟩ = ⟨[5], true⟩ := by decide
    simp only [this, s1]
    decide
  rw [e3, e5, p5, s1, s2, s3]
  decide

end Bigint

end Fibonacci
